import Mathlib

/-!
# git-migrator: the commit-timeline migrator (`migrator/git.go`)

A shallow embedding of `migrator/git.go` and the proofs of its specification.

* Go strings are byte sequences (`GoString`).
* The library functions the program calls (`strings.Split`, `strings.Contains`,
  `strings.Fields`, `strconv.ParseInt`, `strconv.Itoa`, `hash/fnv`, `time.Unix`,
  `Time.Format(time.RFC3339)`) are modelled after the Go standard library.
* Go `int` is 64 bits wide (`intSize`), as on amd64 and arm64.
* Go maps are association lists with pairwise distinct keys; the order in which
  `range` visits a map is a parameter (`RangeOrder`), any permutation.
* The operating system and the shell are an interface `Sys`; `Git` is a model of
  the version-control tool behind the three command lines the program builds.
-/

namespace GitMigrator

/-! ## Go strings -/

/-- A Go string: an immutable sequence of bytes. -/
abbrev GoString := List UInt8

/-- The bytes (UTF-8) of a string literal of the source. -/
def bytes (s : String) : GoString := s.data.flatMap String.utf8EncodeChar

/-- The byte `'\n'`. -/
def LF : UInt8 := 10
/-- The byte `'|'`. -/
def BAR : UInt8 := 124
/-- The byte `'-'`. -/
def DASH : UInt8 := 45
/-- The byte `'+'`. -/
def PLUS : UInt8 := 43

/-- The byte `c` put in front of the first of the fields `fs`. -/
def consFirst (c : UInt8) : List GoString → List GoString
  | [] => [[c]]
  | f :: fs => (c :: f) :: fs

/-- Go `strings.Split(s, sep)` for a one-byte separator `sep`: the fields between the
occurrences of `sep`, one more than there are occurrences (never an empty slice). -/
def Split : GoString → UInt8 → List GoString
  | [], _ => [[]]
  | c :: s, sep => if c = sep then [] :: Split s sep else consFirst c (Split s sep)

/-- Go `strings.Contains(s, substr)`. -/
def Contains (s substr : GoString) : Bool := decide (substr <:+: s)

/-- Go `unicode.IsSpace` on the ASCII range, as used by `strings.Fields`. -/
def isSpace (c : UInt8) : Bool :=
  c = 9 || c = 10 || c = 11 || c = 12 || c = 13 || c = 32

/-- The loop of `strings.Fields`: `cur` is the field being read, reversed. -/
def fieldsLoop : GoString → GoString → List GoString
  | [], cur => if cur = [] then [] else [cur.reverse]
  | c :: s, cur =>
    if isSpace c then
      (if cur = [] then fieldsLoop s [] else cur.reverse :: fieldsLoop s [])
    else fieldsLoop s (c :: cur)

/-- Go `strings.Fields(s)` (ASCII white space). -/
def Fields (s : GoString) : List GoString := fieldsLoop s []

/-! ## strconv -/

/-- Go `'0' <= c && c <= '9'`. -/
def isDigit (c : UInt8) : Bool := decide (48 ≤ c.toNat) && decide (c.toNat ≤ 57)

/-- The two errors of package `strconv`. -/
inductive NumError where
  | ErrSyntax
  | ErrRange
  deriving DecidableEq

/-- The digit loop of `strconv.ParseUint(s, 10, 64)`: `n` is the value read so far.
`cutoff = maxUint64/10 + 1`; a value that does not fit in 64 bits is `ErrRange`. -/
def parseUintLoop : GoString → Nat → Except NumError Nat
  | [], n => .ok n
  | c :: s, n =>
    if !isDigit c then .error .ErrSyntax
    else if n ≥ (2 ^ 64 - 1) / 10 + 1 then .error .ErrRange
    else
      let n1 := n * 10 + (c.toNat - 48)
      if n1 ≥ 2 ^ 64 then .error .ErrRange else parseUintLoop s n1

/-- Go `strconv.ParseUint(s, 10, 64)`. -/
def ParseUint (s : GoString) : Except NumError Nat :=
  if s = [] then .error .ErrSyntax else parseUintLoop s 0

/-- Go `strconv.ParseInt(s, 10, 64)`: an optional sign, then `ParseUint`, then the
range check against `cutoff = 1 << 63`. -/
def ParseInt (s : GoString) : Except NumError Int :=
  match s with
  | [] => .error .ErrSyntax
  | c :: rest =>
    let neg := decide (c = DASH)
    let s1 := if c = PLUS then rest else if c = DASH then rest else s
    match ParseUint s1 with
    | .error e => .error e
    | .ok un =>
      if !neg && un ≥ 2 ^ 63 then .error .ErrRange
      else if neg && un > 2 ^ 63 then .error .ErrRange
      else .ok (if neg then - (un : Int) else (un : Int))

/-- The value of a digit string read after the value `a`. -/
def decVal (a : Nat) (s : GoString) : Nat := s.foldl (fun n c => n * 10 + (c.toNat - 48)) a

/-- The byte of the decimal digit `d`. -/
def digitByte (d : Nat) : UInt8 := UInt8.ofNat (48 + d % 10)

/-- The digit loop of `strconv.FormatUint(n, 10)`: digits are produced from the least
significant one and put in front of `acc`. -/
def formatBits : Nat → Nat → GoString → GoString
  | 0, _, acc => acc
  | fuel + 1, n, acc =>
    if n < 10 then digitByte n :: acc
    else formatBits fuel (n / 10) (digitByte (n % 10) :: acc)

/-- Go `strconv.FormatUint(n, 10)`. -/
def FormatUint (n : Nat) : GoString := formatBits (n + 1) n []

/-- Go `strconv.Itoa(i)` = `FormatInt(int64(i), 10)`. -/
def Itoa (i : Int) : GoString :=
  if i < 0 then DASH :: FormatUint (-i).toNat else FormatUint i.toNat

/-! ## Machine integers -/

/-- The width of Go `int` (amd64, arm64). -/
def intSize : Nat := 64

/-- Go conversion `int(x)` of an unsigned value: the low `intSize` bits, read as a
two's-complement signed integer. -/
def toInt (x : Nat) : Int :=
  let m := x % 2 ^ intSize
  if m < 2 ^ (intSize - 1) then (m : Int) else (m : Int) - 2 ^ intSize

/-! ## hash/fnv -/

/-- The constant `offset32` of `hash/fnv`. -/
def offset32 : Nat := 2166136261
/-- The constant `prime32` of `hash/fnv`. -/
def prime32 : Nat := 16777619

/-- Go `fnv.New32a()`: the initial state. -/
def New32a : Nat := offset32

/-- Go `(*sum32a).Write(data)`: `hash ^= uint32(c); hash *= prime32` per byte, in
32-bit unsigned arithmetic. -/
def sum32a_Write (hash : Nat) (data : GoString) : Nat :=
  data.foldl (fun h c => ((h ^^^ c.toNat) * prime32) % 2 ^ 32) hash

/-- Go `(*sum32a).Sum32()`. -/
def Sum32 (hash : Nat) : Nat := hash

/-- Source `getHashFromString` (git.go:193-197). -/
def getHashFromString (s : GoString) : GoString :=
  let hash := New32a
  let hash := sum32a_Write hash s
  Itoa (toInt (Sum32 hash))

/-- The 32-bit FNV-1a hash as the specification words it: start from the offset basis
2166136261; for each byte xor the byte in, then multiply by 16777619 modulo 2^32. -/
def fnv1a32From (h : Nat) : GoString → Nat
  | [] => h
  | b :: bs => fnv1a32From (((h ^^^ b.toNat) * 16777619) % 4294967296) bs

/-- The 32-bit FNV-1a hash of a byte string, as the specification words it. -/
def fnv1a32 (s : GoString) : Nat := fnv1a32From 2166136261 s

/-- The decimal rendering of a natural number, most significant digit first, without
sign: the digits of Mathlib's `Nat.digits 10`, and `0` for zero. -/
def decimal (n : Nat) : GoString :=
  if n = 0 then [48] else ((Nat.digits 10 n).reverse.map fun d => UInt8.ofNat (48 + d))

/-! ## Errors -/

/-- Equality of results is decidable. -/
instance instDecidableEqExcept {ε α : Type} [DecidableEq ε] [DecidableEq α] :
    DecidableEq (Except ε α)
  | .ok a, .ok b => if h : a = b then isTrue (by rw [h]) else isFalse (fun h1 => h (by cases h1; rfl))
  | .error a, .error b =>
    if h : a = b then isTrue (by rw [h]) else isFalse (fun h1 => h (by cases h1; rfl))
  | .ok _, .error _ => isFalse (fun h => by cases h)
  | .error _, .ok _ => isFalse (fun h => by cases h)

/-! ## package time -/

/-- A Go `time.Time`: an instant, as the number of seconds after the Unix epoch
(1970-01-01T00:00:00Z). -/
structure Time where
  sec : Int
  deriving DecidableEq

/-- Go `time.Unix(sec, 0)`. -/
def Time.Unix (sec : Int) : Time := ⟨sec⟩

/-- A Go `*time.Location`: the offset from UTC, in seconds east, in effect at an
instant given in Unix seconds. -/
structure Location where
  offset : Int → Int

/-- The location `time.UTC`. -/
def UTC : Location := ⟨fun _ => 0⟩

/-- The proleptic Gregorian date `(year, month, day)` of the day `z` days after
1970-01-01. -/
def civilFromDays (z : Int) : Int × Int × Int :=
  let z := z + 719468
  let era := z / 146097
  let doe := z % 146097
  let yoe := (doe - doe / 1460 + doe / 36524 - doe / 146096) / 365
  let doy := doe - (365 * yoe + yoe / 4 - yoe / 100)
  let mp := (5 * doy + 2) / 153
  let d := doy - (153 * mp + 2) / 5 + 1
  let m := if mp < 10 then mp + 3 else mp - 9
  (yoe + era * 400 + (if m ≤ 2 then 1 else 0), m, d)

/-- Go `appendInt(b, x, width)` of package `time`: the decimal of `x`, zero-padded to
`width` digits, after a `-` when `x` is negative. -/
def appendInt (x : Int) (width : Nat) : GoString :=
  let digits := FormatUint x.natAbs
  (if x < 0 then [DASH] else []) ++ List.replicate (width - digits.length) 48 ++ digits

/-- Go `t.Format(time.RFC3339)` (layout `2006-01-02T15:04:05Z07:00`) for a time whose
location is `loc`. -/
def Time.Format (loc : Location) (t : Time) : GoString :=
  let offset := loc.offset t.sec
  let abs := t.sec + offset
  let (year, month, day) := civilFromDays (abs / 86400)
  let secOfDay := abs % 86400
  let zone := Int.tdiv offset 60
  appendInt year 4 ++ bytes "-" ++ appendInt month 2 ++ bytes "-" ++ appendInt day 2
    ++ bytes "T" ++ appendInt (secOfDay / 3600) 2 ++ bytes ":"
    ++ appendInt (secOfDay % 3600 / 60) 2 ++ bytes ":" ++ appendInt (secOfDay % 60) 2
    ++ (if offset = 0 then bytes "Z"
        else if zone < 0 then
          bytes "-" ++ appendInt (-zone / 60) 2 ++ bytes ":" ++ appendInt (-zone % 60) 2
        else bytes "+" ++ appendInt (zone / 60) 2 ++ bytes ":" ++ appendInt (zone % 60) 2)

/-! ## Data model (git.go:15-24) -/

/-- Source `History` (git.go:19-24). -/
structure History where
  GlobalID : GoString
  PathHash : GoString
  CommitID : GoString
  Timestamp : Time
  deriving DecidableEq

/-- A Go `map[string]History`: an association list whose keys are pairwise distinct. -/
abbrev HistoryMap := List (GoString × History)

/-- Go `v, ok := m[k]`. -/
def HistoryMap.get? : HistoryMap → GoString → Option History
  | [], _ => none
  | (k1, v) :: m, k => if k1 = k then some v else HistoryMap.get? m k

/-- Go `m[k] = v`: a new entry, or the replacement of the entry under `k`. -/
def HistoryMap.set (m : HistoryMap) (k : GoString) (v : History) : HistoryMap :=
  (k, v) :: m.filter (fun e => decide (e.1 ≠ k))

/-- The map after one optional assignment. -/
def HistoryMap.apply (m : HistoryMap) : Option (GoString × History) → HistoryMap
  | none => m
  | some e => m.set e.1 e.2

/-- The keys of a map. -/
def HistoryMap.keys (m : HistoryMap) : List GoString := m.map Prod.fst

/-- Source `CommitsHistory` (git.go:15-17). -/
structure CommitsHistory where
  History : HistoryMap
  deriving DecidableEq

/-- The order in which one `for ... range` statement visits the entries of a map: Go
leaves it unspecified, so it is any rearrangement of the entries. -/
structure RangeOrder where
  pick : HistoryMap → HistoryMap
  perm : ∀ m, (pick m).Perm m

/-- The order that visits the entries as they are stored. -/
def RangeOrder.stored : RangeOrder := ⟨fun m => m, fun _ => List.Perm.refl _⟩

/-- The order that visits the entries in reverse. -/
def RangeOrder.reversed : RangeOrder := ⟨fun m => m.reverse, fun m => List.reverse_perm m⟩

/-! ## The operating system and the shell -/

/-- The three command lines the program hands to `bash -c`. -/
inductive Command where
  /-- `"cd " + gitFolder + " && git log --pretty=format:\"%H|%at\""` (git.go:99) -/
  | logHashTime (gitFolder : GoString)
  /-- `"cd " + gitFolder + " && git log --pretty=format:\"%H|%at|%s\""` (git.go:148) -/
  | logHashTimeSubject (gitFolder : GoString)
  /-- `cd %s && git commit --allow-empty -m "%s" --date "%s"` (git.go:78) -/
  | commitAllowEmpty (gitFolder message date : GoString)
  deriving DecidableEq

/-- The text of a command line, as the source builds it. -/
def Command.text : Command → GoString
  | .logHashTime gitFolder =>
    bytes "cd " ++ gitFolder ++ bytes " && git log --pretty=format:\"%H|%at\""
  | .logHashTimeSubject gitFolder =>
    bytes "cd " ++ gitFolder ++ bytes " && git log --pretty=format:\"%H|%at|%s\""
  | .commitAllowEmpty gitFolder message date =>
    bytes "cd " ++ gitFolder ++ bytes " && git commit --allow-empty -m \"" ++ message
      ++ bytes "\" --date \"" ++ date ++ bytes "\""

/-- What the program sees of the machine it runs on, whose state has type `σ`. -/
structure Sys (σ : Type) where
  /-- `_, err := os.Stat(path); os.IsNotExist(err)` -/
  statNotExist : σ → GoString → Bool
  /-- `exec.Command("bash", "-c", command).CombinedOutput()`: the combined output, the
  text of the error if there is one, and the state the command leaves. -/
  bash : σ → Command → (GoString × Option GoString) × σ
  /-- The location `time.Local`. -/
  loc : Location

/-- The state of a run: the state of the machine, and the commands handed to
`runCommand` so far, oldest first (each is logged by `runCommand`, git.go:200). -/
structure St (σ : Type) where
  world : σ
  trace : List Command
  deriving DecidableEq

/-- Source `runCommand` (git.go:199-207). -/
def runCommand {σ : Type} (sys : Sys σ) (command : Command) (s : St σ) :
    Except GoString GoString × St σ :=
  let r := sys.bash s.world command
  let s1 : St σ := ⟨r.2, s.trace ++ [command]⟩
  match r.1.2 with
  | some err =>
    (.error (bytes "command execution failed: " ++ err ++ bytes ", output: " ++ r.1.1), s1)
  | none => (.ok r.1.1, s1)

/-! ## The program (git.go:26-191) -/

/-- The body of the loop of `GetCommits` (git.go:116-137): what one line of the listing
does to the map under construction. -/
def GetCommits.body (hash : GoString) (history : HistoryMap) (line : GoString) :
    HistoryMap :=
  if line = [] then history
  else
    match Split line BAR with
    | c0 :: c1 :: _ =>
      match ParseInt c1 with
      | .error _ => history
      | .ok timestamp =>
        let globalId := hash ++ bytes "-" ++ c0
        history.set globalId
          { GlobalID := globalId, PathHash := hash, CommitID := c0,
            Timestamp := Time.Unix timestamp }
    | _ => history

/-- The assignment the loop of `GetCommits` makes for one line of the listing, if it
makes one. -/
def GetCommits.entry (hash line : GoString) : Option (GoString × History) :=
  if line = [] then none
  else
    match Split line BAR with
    | c0 :: c1 :: _ =>
      match ParseInt c1 with
      | .error _ => none
      | .ok timestamp =>
        some (hash ++ bytes "-" ++ c0,
          { GlobalID := hash ++ bytes "-" ++ c0, PathHash := hash, CommitID := c0,
            Timestamp := Time.Unix timestamp })
    | _ => none

/-- The parsing part of `GetCommits` (git.go:114-139): from the folder and the output of
the listing command to the map. -/
def GetCommits.parse (gitFolder output : GoString) : HistoryMap :=
  let hash := getHashFromString gitFolder
  (Split output LF).foldl (GetCommits.body hash) []

/-- Source `GetCommits` (git.go:93-140). -/
def GetCommits {σ : Type} (sys : Sys σ) (gitFolder : GoString) (s : St σ) :
    Except GoString CommitsHistory × St σ :=
  if sys.statNotExist s.world gitFolder then
    (.error (bytes "gitFolder does not exist: " ++ gitFolder), s)
  else
    match runCommand sys (.logHashTime gitFolder) s with
    | (.error err, s1) =>
      if Contains err (bytes "fatal: your current branch")
          && Contains err (bytes "does not have any commits yet") then
        (.ok ⟨[]⟩, s1)
      else (.error err, s1)
    | (.ok output, s1) =>
      if output = [] then (.ok ⟨[]⟩, s1)
      else (.ok ⟨GetCommits.parse gitFolder output⟩, s1)

/-- The body of the loop of `getCommitsFakeRepo` (git.go:164-188). -/
def getCommitsFakeRepo.body (gitFolder : GoString) (history : HistoryMap)
    (line : GoString) : HistoryMap :=
  if line = [] then history
  else
    match Split line BAR with
    | c0 :: c1 :: c2 :: _ =>
      match ParseInt c1 with
      | .error _ => history
      | .ok timestamp =>
        let hashRepo := Split gitFolder DASH
        let hash := hashRepo.headD []
        let globalId := c2
        history.set globalId
          { GlobalID := globalId, PathHash := hash, CommitID := c0,
            Timestamp := Time.Unix timestamp }
    | _ => history

/-- The assignment the loop of `getCommitsFakeRepo` makes for one line of the listing,
if it makes one. -/
def getCommitsFakeRepo.entry (gitFolder line : GoString) : Option (GoString × History) :=
  if line = [] then none
  else
    match Split line BAR with
    | c0 :: c1 :: c2 :: _ =>
      match ParseInt c1 with
      | .error _ => none
      | .ok timestamp =>
        some (c2,
          { GlobalID := c2, PathHash := (Split gitFolder DASH).headD [], CommitID := c0,
            Timestamp := Time.Unix timestamp })
    | _ => none

/-- The parsing part of `getCommitsFakeRepo` (git.go:163-190). -/
def getCommitsFakeRepo.parse (gitFolder output : GoString) : HistoryMap :=
  (Split output LF).foldl (getCommitsFakeRepo.body gitFolder) []

/-- Source `getCommitsFakeRepo` (git.go:142-191). -/
def getCommitsFakeRepo {σ : Type} (sys : Sys σ) (gitFolder : GoString) (s : St σ) :
    Except GoString CommitsHistory × St σ :=
  if sys.statNotExist s.world gitFolder then
    (.error (bytes "gitFolder does not exist: " ++ gitFolder), s)
  else
    match runCommand sys (.logHashTimeSubject gitFolder) s with
    | (.error err, s1) =>
      if Contains err (bytes "fatal: your current branch")
          && Contains err (bytes "does not have any commits yet") then
        (.ok ⟨[]⟩, s1)
      else (.error err, s1)
    | (.ok output, s1) =>
      if output = [] then (.ok ⟨[]⟩, s1)
      else (.ok ⟨getCommitsFakeRepo.parse gitFolder output⟩, s1)

/-- Source `createCommitWithTimestampInRepo` (git.go:73-91). -/
def createCommitWithTimestampInRepo {σ : Type} (sys : Sys σ) (gitFolder : GoString)
    (timestamp : Time) (globalId : GoString) (s : St σ) :
    Except GoString GoString × St σ :=
  if sys.statNotExist s.world gitFolder then
    (.error (bytes "gitFolder does not exist: " ++ gitFolder), s)
  else
    match runCommand sys
        (.commitAllowEmpty gitFolder globalId (timestamp.Format sys.loc)) s with
    | (.error err, s1) => (.error err, s1)
    | (.ok output, s1) =>
      match Fields output with
      | _ :: commit :: _ => (.ok commit, s1)
      | _ => (.error (bytes "unexpected output from git commit: " ++ output), s1)

/-- The loop of `CreateCommitsInRepo` (git.go:59-68) over the entries of the history in
the order `range` visits them; it returns at the first creation that fails. -/
def CreateCommitsInRepo.loop {σ : Type} (sys : Sys σ) (gitFolder : GoString)
    (commitsExist : CommitsHistory) : HistoryMap → St σ → Except GoString Unit × St σ
  | [], s => (.ok (), s)
  | (_, commit) :: rest, s =>
    if (commitsExist.History.get? commit.GlobalID).isNone then
      match createCommitWithTimestampInRepo sys gitFolder commit.Timestamp
          commit.GlobalID s with
      | (.error err, s1) => (.error err, s1)
      | (.ok _, s1) => CreateCommitsInRepo.loop sys gitFolder commitsExist rest s1
    else CreateCommitsInRepo.loop sys gitFolder commitsExist rest s

/-- Source `CreateCommitsInRepo` (git.go:46-71). -/
def CreateCommitsInRepo {σ : Type} (sys : Sys σ) (ord : RangeOrder)
    (gitFolder : GoString) (history : CommitsHistory) (s : St σ) :
    Except GoString Unit × St σ :=
  if gitFolder = [] then (.error (bytes "gitFolder path is empty"), s)
  else
    match getCommitsFakeRepo sys gitFolder s with
    | (.error err, s1) => (.error err, s1)
    | (.ok commitsExist, s1) =>
      CreateCommitsInRepo.loop sys gitFolder commitsExist (ord.pick history.History) s1

/-- Source `MigrateToFakeCommitRepo` (git.go:26-44); the first loop only logs. -/
def MigrateToFakeCommitRepo {σ : Type} (sys : Sys σ) (ord : RangeOrder)
    (gitFolderOrigin gitFolderDestiny : GoString) (s : St σ) :
    Except GoString Unit × St σ :=
  match GetCommits sys gitFolderOrigin s with
  | (.error err, s1) => (.error err, s1)
  | (.ok history, s1) =>
    match CreateCommitsInRepo sys ord gitFolderDestiny history s1 with
    | (.error err, s2) => (.error err, s2)
    | (.ok _, s2) => (.ok (), s2)

/-! ## Vocabulary of the specification -/

/-- The lines of a listing, joined by line feeds. -/
def joinLines (ls : List GoString) : GoString := [LF].intercalate ls

/-- The listing line `h|t`. -/
def listingLine (h t : GoString) : GoString := h ++ BAR :: t

/-- The listing line `h|t|m`. -/
def listingLine3 (h t m : GoString) : GoString := h ++ BAR :: (t ++ BAR :: m)

/-- The first `|`-separated field of a string. -/
def firstField (s : GoString) : GoString := (Split s BAR).headD []

/-- The record the specification gives a commit `h` made `n` seconds after the Unix
epoch in the repository at path `p`. -/
def originRecord (p h : GoString) (n : Int) : History :=
  { GlobalID := getHashFromString p ++ bytes "-" ++ h
    PathHash := getHashFromString p
    CommitID := h
    Timestamp := Time.Unix n }

/-- A listing line is malformed: fewer than two `|`-separated fields, or a second field
that `strconv.ParseInt` rejects. -/
def Malformed (line : GoString) : Prop :=
  (Split line BAR).length < 2 ∨ ∃ e, ParseInt ((Split line BAR).getD 1 []) = .error e

/-- The result of the listing command says that the branch has no commits: it failed
with an error text that contains both recognised phrases, or it printed nothing. -/
def NoCommitsYet (r : Except GoString GoString) : Prop :=
  match r with
  | .error err =>
    Contains err (bytes "fatal: your current branch") = true
      ∧ Contains err (bytes "does not have any commits yet") = true
  | .ok output => output = []

/-- Whether the listing says "no commits" can be computed. -/
instance instDecidableNoCommitsYet (r : Except GoString GoString) :
    Decidable (NoCommitsYet r) :=
  match r with
  | .error err =>
    inferInstanceAs (Decidable (Contains err (bytes "fatal: your current branch") = true
      ∧ Contains err (bytes "does not have any commits yet") = true))
  | .ok output => inferInstanceAs (Decidable (output = []))

/-- A command creates a commit. -/
def Command.isCommit : Command → Bool
  | .commitAllowEmpty _ _ _ => true
  | _ => false

/-- The command line that creates the empty commit of a record (git.go:61, 78). -/
def creationCommand (loc : Location) (gitFolder : GoString) (commit : History) : Command :=
  .commitAllowEmpty gitFolder commit.GlobalID (commit.Timestamp.Format loc)

/-- The entries for which the loop of `CreateCommitsInRepo` creates a commit: those whose
`GlobalID` is not a key of `commitsExist`. -/
def missingEntries (commitsExist : CommitsHistory) (l : HistoryMap) : HistoryMap :=
  l.filter fun e => (commitsExist.History.get? e.2.GlobalID).isNone

/-- A machine that answers the commands it is given from a script, one answer per
command, and on which the paths in `missing` do not exist. -/
def scripted (missing : List GoString) : Sys (List (GoString × Option GoString)) where
  statNotExist := fun _ p => decide (p ∈ missing)
  bash := fun script _ =>
    match script with
    | [] => (([], none), [])
    | r :: rest => (r, rest)
  loc := UTC

/-! ## A model of the version-control tool -/

/-- The subject `%s` prints for a commit: git folds the first paragraph of the message
into one line, so it holds no line feed. -/
abbrev Subject := {s : GoString // LF ∉ s}

/-- A commit, as far as the program can see it: the object name (`%H` prints it as 40
hexadecimal digits), the author date in Unix seconds (`%at`), the message it was created
with, and the subject `%s` prints for it. -/
structure GitCommit where
  hash : Nat
  authorTime : Fin (2 ^ 63)
  message : GoString
  subject : Subject
  deriving DecidableEq

/-- The machine: which paths `os.Stat` finds; the repository in which `cd p && git ...`
runs git (the branch whose history git lists and extends there), if the command line
reaches one: another spelling of a directory, a subdirectory or a link reach the same
repository; the commits of every repository, newest first; and the output and the error
of a command line that reaches no repository. -/
structure World where
  pathExists : GoString → Bool
  repoAt : GoString → Option Nat
  commits : Nat → List GitCommit
  diag : Command → GoString × GoString

/-- The commits, newest first, that the command lines find at the path `p`. -/
def World.commitsAt (w : World) (p : GoString) : List GitCommit :=
  match w.repoAt p with
  | none => []
  | some id => w.commits id

/-- The world after the commits `new` (newest first) were added to the repository
`id`. -/
def World.extend (w : World) (id : Nat) (new : List GitCommit) : World :=
  { w with commits := fun i => if i = id then new ++ w.commits i else w.commits i }

/-- The world after the commits `new` were added to the repository reached at `p`, if
one is reached there. -/
def World.extendAt (w : World) (p : GoString) (new : List GitCommit) : World :=
  match w.repoAt p with
  | none => w
  | some id => w.extend id new

/-- The hexadecimal digit of `d % 16`, in lower case. -/
def hexDigit (d : Nat) : UInt8 :=
  if d % 16 < 10 then UInt8.ofNat (48 + d % 16) else UInt8.ofNat (87 + d % 16)

/-- The 40 hexadecimal digits `%H` prints for an object name. -/
def hex40 (n : Nat) : GoString := (List.range 40).reverse.map fun i => hexDigit (n / 16 ^ i)

/-- A decimal digit, a letter `a` to `f` or `-`: the bytes of a global identifier built
from a decimal path hash and a hexadecimal object name. -/
def isPlain (c : UInt8) : Bool :=
  isDigit c || (decide (97 ≤ c.toNat) && decide (c.toNat ≤ 102)) || decide (c = DASH)

/-- The line `%H|%at` of a commit. -/
def GitCommit.line2 (c : GitCommit) : GoString :=
  listingLine (hex40 c.hash) (FormatUint c.authorTime)

/-- The line `%H|%at|%s` of a commit. -/
def GitCommit.line3 (c : GitCommit) : GoString :=
  listingLine3 (hex40 c.hash) (FormatUint c.authorTime) c.subject.1

/-- The global identifier the destination reader takes from a commit: the third field
of its `%H|%at|%s` line, which is the part of its subject before a first `|`. -/
def GitCommit.marker (c : GitCommit) : GoString := firstField c.subject.1

/-- The number of commits among `repo` that the destination reader takes for the
global identifier `k`. -/
def markerCount (k : GoString) (repo : List GitCommit) : Nat :=
  repo.countP fun c => decide (c.marker = k)

/-- What the model leaves to the tool: whether `git commit --allow-empty -m message
--date date`, run through `gitFolder` in a repository whose commits are `repo`, fails
(with the error of the process and its output, creating nothing) or succeeds (with the
object name of the new commit, the author time read from `date`, and its output); the
subject it lists for a commit created with a message that is not made of plain bytes
only; and the local time zone. -/
structure Git where
  commit : (gitFolder : GoString) → (repo : List GitCommit) → (message date : GoString) →
    Except (GoString × GoString) (Nat × Fin (2 ^ 63) × GoString)
  subjectOf : GoString → Subject
  loc : Location

/-- The subject listed for a commit created with `-m "message"`: a message made of
plain bytes only passes the shell and git unchanged; any other is left to the tool. -/
def Git.subjectFor (g : Git) (message : GoString) : Subject :=
  if h : message.all isPlain = true then
    ⟨message, fun hm => absurd (List.all_eq_true.1 h LF hm) (by decide)⟩
  else g.subjectOf message

/-- What `cd p && git log --pretty=format:...` prints and returns: it fails when the
command line reaches no repository, `git log` fails on a branch without commits, and
otherwise there is one line per commit, newest first, separated by line feeds. -/
def Git.log (fmt : GitCommit → GoString) (w : World) (command : Command) (p : GoString) :
    GoString × Option GoString :=
  match w.repoAt p with
  | none => ((w.diag command).1, some (w.diag command).2)
  | some id =>
    match w.commits id with
    | [] =>
      (bytes "fatal: your current branch 'master' does not have any commits yet\n",
        some (bytes "exit status 128"))
    | c :: repo => (joinLines ((c :: repo).map fmt), none)

/-- The three command lines, run by `bash -c` on the model. -/
def Git.bash (g : Git) (w : World) : Command → (GoString × Option GoString) × World
  | .logHashTime p => (Git.log GitCommit.line2 w (.logHashTime p) p, w)
  | .logHashTimeSubject p => (Git.log GitCommit.line3 w (.logHashTimeSubject p) p, w)
  | .commitAllowEmpty p message date =>
    match w.repoAt p with
    | none =>
      (((w.diag (.commitAllowEmpty p message date)).1,
        some (w.diag (.commitAllowEmpty p message date)).2), w)
    | some id =>
      match g.commit p (w.commits id) message date with
      | .error (err, out) => ((out, some err), w)
      | .ok (hash, time, out) =>
        ((out, none), w.extend id [⟨hash, time, message, g.subjectFor message⟩])

/-- The machine of the model: `os.Stat` reports the empty path and the paths that do
not exist as missing. -/
def Git.sys (g : Git) : Sys World where
  statNotExist := fun w p => decide (p = []) || !w.pathExists p
  bash := g.bash
  loc := g.loc

/-! ## An instance of the model, for the examples -/

/-- The number of days from 1970-01-01 to the proleptic Gregorian date `y-m-d`. -/
def daysFromCivil (y m d : Int) : Int :=
  let y1 := if m ≤ 2 then y - 1 else y
  let era := y1 / 400
  let yoe := y1 % 400
  let mp := (m + 9) % 12
  let doy := (153 * mp + 2) / 5 + d - 1
  era * 146097 + (yoe * 365 + yoe / 4 - yoe / 100 + doy) - 719468

/-- The decimal number in the bytes `[i, i + n)` of `s`. -/
def numberAt (s : GoString) (i n : Nat) : Option Nat :=
  match ParseUint ((s.drop i).take n) with
  | .ok v => if ((s.drop i).take n).length = n then some v else none
  | .error _ => none

/-- The Unix time of a date `YYYY-MM-DDThh:mm:ssZ`, if `date` is one that is not before
1970. -/
def unixOfRFC3339Z (date : GoString) : Option (Fin (2 ^ 63)) :=
  match numberAt date 0 4, numberAt date 5 2, numberAt date 8 2, numberAt date 11 2,
      numberAt date 14 2, numberAt date 17 2 with
  | some y, some m, some d, some hh, some mm, some ss =>
    let t := daysFromCivil y m d * 86400 + hh * 3600 + mm * 60 + ss
    if h : date.length = 20 ∧ date.drop 19 = bytes "Z" ∧ 0 ≤ t ∧ t.toNat < 2 ^ 63 then
      some ⟨t.toNat, h.2.2.2⟩
    else none
  | _, _, _, _, _, _ => none

/-- A line without its trailing white space. -/
def trimRight (l : GoString) : GoString := (l.reverse.dropWhile isSpace).reverse

/-- Lines joined by single spaces. -/
def joinSpaces : List GoString → GoString
  | [] => []
  | [l] => l
  | l :: l1 :: ls => l ++ 32 :: joinSpaces (l1 :: ls)

/-- The first paragraph of a message folded into one line: the lines after the leading
blank ones up to the next blank one, each without its trailing white space, joined by
spaces. -/
def foldSubject (message : GoString) : GoString :=
  joinSpaces ((((Split message LF).map trimRight).dropWhile fun l => decide (l = [])).takeWhile
    fun l => decide (l ≠ []))

/-- A tool in the UTC time zone whose `git commit` succeeds while the repository holds
fewer than `limit` commits and the date is a UTC date, and fails otherwise. It names
the commits of a repository 1, 2, 3, ... and lists the folded first paragraph of a
message as its subject. -/
def exampleTool (limit : Nat) : Git where
  commit := fun _ repo message date =>
    match unixOfRFC3339Z date with
    | none =>
      .error (bytes "exit status 128", bytes "fatal: invalid date format: " ++ date ++ [LF])
    | some t =>
      if repo.length < limit then
        .ok (repo.length + 1, t, bytes "[master 0000000] " ++ message ++ [LF])
      else .error (bytes "exit status 128", bytes "error: unable to write the commit\n")
  subjectOf := fun message =>
    ⟨foldSubject message, by
      have hj : ∀ ls : List GoString, (∀ l ∈ ls, LF ∉ l) → LF ∉ joinSpaces ls := by
        intro ls
        induction ls with
        | nil => intro _ h; cases h
        | cons l ls ih =>
          intro hl
          cases ls with
          | nil => exact hl l (List.mem_cons_self _ _)
          | cons l1 ls =>
            intro h
            rcases List.mem_append.1 h with h1 | h1
            · exact hl l (List.mem_cons_self _ _) h1
            · rcases List.mem_cons.1 h1 with h2 | h2
              · revert h2; decide
              · exact ih (fun x hx => hl x (List.mem_cons_of_mem _ hx)) h2
      apply hj
      intro l hl
      have h1 := (List.takeWhile_sublist _).subset hl
      have h2 := (List.dropWhile_sublist _).subset h1
      obtain ⟨x, hx, rfl⟩ := List.mem_map.1 h2
      intro hm
      have h3 : LF ∈ x.reverse.dropWhile isSpace := List.mem_reverse.1 hm
      have h4 : LF ∈ x := List.mem_reverse.1 ((List.dropWhile_sublist _).subset h3)
      have hx1 : x ∈ Split message LF := hx
      exact (List.rec (motive := fun s => ∀ f, f ∈ Split s LF → LF ∉ f)
        (fun f hf => by
          rw [Split, List.mem_singleton] at hf
          rw [hf]; exact List.not_mem_nil _)
        (fun c s ih f hf => by
          rw [Split] at hf
          split at hf
          · rcases List.mem_cons.1 hf with rfl | hf
            · exact List.not_mem_nil _
            · exact ih f hf
          · rename_i hc
            cases hs : Split s LF with
            | nil => rw [hs] at hf; simp only [consFirst, List.mem_singleton] at hf
                     rw [hf]; intro h5; exact hc (List.mem_singleton.1 h5).symm
            | cons f0 fs =>
              rw [hs] at hf
              simp only [consFirst, List.mem_cons] at hf
              rcases hf with rfl | hf
              · intro h5
                rcases List.mem_cons.1 h5 with h6 | h6
                · exact hc h6.symm
                · exact ih f0 (by rw [hs]; exact List.mem_cons_self _ _) h6
              · exact ih f (by rw [hs]; exact List.mem_cons_of_mem _ hf))
        message x hx1) h4⟩
  loc := UTC

/-- The diagnostic of git outside a repository. -/
def notARepository : GoString × GoString :=
  (bytes "fatal: not a git repository (or any of the parent directories): .git\n",
    bytes "exit status 128")

/-- A world for the examples: `/tmp/origin` and its other spelling `/tmp/origin/` reach
the repository 0, whose commits are `origin`; `/tmp/dest` reaches the repository 1,
whose commits are `dest`; no other path exists. -/
def exampleRepos (origin dest : List GitCommit) : World where
  pathExists := fun p =>
    decide (p = bytes "/tmp/origin" ∨ p = bytes "/tmp/origin/" ∨ p = bytes "/tmp/dest")
  repoAt := fun p =>
    if p = bytes "/tmp/origin" ∨ p = bytes "/tmp/origin/" then some 0
    else if p = bytes "/tmp/dest" then some 1
    else none
  commits := fun id => if id = 0 then origin else if id = 1 then dest else []
  diag := fun _ => notARepository

/-- A world for the examples: the origin holds two commits, the destination none. -/
def exampleWorld : World :=
  exampleRepos
    [⟨2, ⟨1700000060, by decide⟩, bytes "second", ⟨bytes "second", by decide⟩⟩,
      ⟨1, ⟨1700000000, by decide⟩, bytes "first", ⟨bytes "first", by decide⟩⟩] []

/-- A world for the examples: the origin holds one commit, and the destination holds its
marker twice. -/
def exampleWorldTwice : World :=
  exampleRepos [⟨1, ⟨1700000000, by decide⟩, bytes "first", ⟨bytes "first", by decide⟩⟩]
    [⟨8, ⟨1700000000, by decide⟩,
        bytes "3025005542-0000000000000000000000000000000000000001",
        ⟨bytes "3025005542-0000000000000000000000000000000000000001", by decide⟩⟩,
      ⟨7, ⟨1700000000, by decide⟩,
        bytes "3025005542-0000000000000000000000000000000000000001",
        ⟨bytes "3025005542-0000000000000000000000000000000000000001", by decide⟩⟩]

/-- A world for the examples: the origin holds two commits, and the destination holds
one commit, whose message and subject are the global identifier of the second followed
by `|x`. -/
def exampleWorldBar : World :=
  exampleRepos
    [⟨2, ⟨1700000060, by decide⟩, bytes "second", ⟨bytes "second", by decide⟩⟩,
      ⟨1, ⟨1700000000, by decide⟩, bytes "first", ⟨bytes "first", by decide⟩⟩]
    [⟨9, ⟨1700000060, by decide⟩,
      bytes "3025005542-0000000000000000000000000000000000000002|x",
      ⟨bytes "3025005542-0000000000000000000000000000000000000002|x", by decide⟩⟩]

/-- The run of the migration from `/tmp/origin` to `dest` in the world `w`, with the
example tool of limit `limit`, visiting the history as it is stored. -/
def exampleRun (limit : Nat) (dest : GoString) (w : World) :
    Except GoString Unit × St World :=
  MigrateToFakeCommitRepo (Git.sys (exampleTool limit)) RangeOrder.stored
    (bytes "/tmp/origin") dest ⟨w, []⟩

/-- The history of `/tmp/origin` in `exampleWorld`. -/
def exampleHistory : CommitsHistory :=
  ⟨[((originRecord (bytes "/tmp/origin") (hex40 1) 1700000000).GlobalID,
      originRecord (bytes "/tmp/origin") (hex40 1) 1700000000),
    ((originRecord (bytes "/tmp/origin") (hex40 2) 1700000060).GlobalID,
      originRecord (bytes "/tmp/origin") (hex40 2) 1700000060)]⟩

/-- The call of `CreateCommitsInRepo` on `/tmp/dest` in `exampleWorld`, with the example
tool of limit 1: its second creation fails. -/
def exampleFailure : Except GoString Unit × St World :=
  CreateCommitsInRepo (Git.sys (exampleTool 1)) RangeOrder.stored (bytes "/tmp/dest")
    exampleHistory ⟨exampleWorld, []⟩

/-! # Theorems -/

set_option maxRecDepth 100000

/-! ## Lemmas: strings -/

theorem Split_ne_nil (s : GoString) (sep : UInt8) : Split s sep ≠ [] := by
  induction s with
  | nil => simp [Split]
  | cons c s ih =>
    rw [Split]
    split
    · simp
    · cases Split s sep <;> simp [consFirst]

theorem Split_cons_sep (s : GoString) (sep : UInt8) :
    Split (sep :: s) sep = [] :: Split s sep := by
  rw [Split, if_pos rfl]

theorem Split_cons_ne (c : UInt8) (s : GoString) (sep : UInt8) (h : c ≠ sep) :
    Split (c :: s) sep = consFirst c (Split s sep) := by
  rw [Split, if_neg h]

theorem Split_of_not_mem (sep : UInt8) :
    ∀ s : GoString, sep ∉ s → Split s sep = [s] := by
  intro s
  induction s with
  | nil => intro _; rfl
  | cons c s ih =>
    intro h
    have hc : c ≠ sep := fun e => h (by simp [e])
    have hs : sep ∉ s := fun e => h (by simp [e])
    rw [Split_cons_ne c s sep hc, ih hs]; rfl

theorem Split_append_sep (sep : UInt8) (b : GoString) :
    ∀ a : GoString, sep ∉ a → Split (a ++ sep :: b) sep = a :: Split b sep := by
  intro a
  induction a with
  | nil => intro _; exact Split_cons_sep b sep
  | cons c a ih =>
    intro h
    have hc : c ≠ sep := fun e => h (by simp [e])
    have hs : sep ∉ a := fun e => h (by simp [e])
    show Split (c :: (a ++ sep :: b)) sep = _
    rw [Split_cons_ne c _ sep hc, ih hs]; rfl

theorem Split_intercalate (sep : UInt8) :
    ∀ ls : List GoString, ls ≠ [] → (∀ l ∈ ls, sep ∉ l) →
      Split ([sep].intercalate ls) sep = ls := by
  intro ls
  induction ls with
  | nil => intro h; exact absurd rfl h
  | cons l ls ih =>
    intro _ h
    cases ls with
    | nil =>
      simpa [List.intercalate] using Split_of_not_mem sep l (h l (by simp))
    | cons l2 ls =>
      have e : [sep].intercalate (l :: l2 :: ls) = l ++ sep :: [sep].intercalate (l2 :: ls) := by
        simp [List.intercalate]
      rw [e, Split_append_sep sep _ l (h l (by simp)), ih (by simp) (fun x hx => h x (by simp [hx]))]

theorem mem_of_mem_Split (sep : UInt8) :
    ∀ (s f : GoString), f ∈ Split s sep → ∀ x ∈ f, x ∈ s ∧ x ≠ sep := by
  intro s
  induction s with
  | nil => intro f hf x hx; simp [Split] at hf; subst hf; simp at hx
  | cons c s ih =>
    intro f hf x hx
    by_cases hc : c = sep
    · rw [hc, Split_cons_sep] at hf
      rcases List.mem_cons.1 hf with rfl | hf
      · simp at hx
      · exact ⟨List.mem_cons_of_mem _ (ih f hf x hx).1, (ih f hf x hx).2⟩
    · rw [Split_cons_ne c s sep hc] at hf
      cases hsp : Split s sep with
      | nil => exact absurd hsp (Split_ne_nil s sep)
      | cons f0 fs =>
        rw [hsp] at hf
        simp only [consFirst, List.mem_cons] at hf
        rcases hf with rfl | hf
        · rcases List.mem_cons.1 hx with rfl | hx
          · exact ⟨List.mem_cons_self _ _, hc⟩
          · have := ih f0 (by rw [hsp]; simp) x hx
            exact ⟨List.mem_cons_of_mem _ this.1, this.2⟩
        · have := ih f (by rw [hsp]; simp [hf]) x hx
          exact ⟨List.mem_cons_of_mem _ this.1, this.2⟩

/-! ## Lemmas: strconv -/

theorem digitByte_toNat (d : Nat) : (digitByte d).toNat = 48 + d % 10 := by
  have h : d % 10 < 10 := Nat.mod_lt _ (by decide)
  show (48 + d % 10) % 256 = 48 + d % 10
  omega

theorem isDigit_digitByte (d : Nat) : isDigit (digitByte d) = true := by
  have h : d % 10 < 10 := Nat.mod_lt _ (by decide)
  simp only [isDigit, digitByte_toNat, Bool.and_eq_true, decide_eq_true_eq]
  omega

theorem le_decVal (s : GoString) : ∀ a, a ≤ decVal a s := by
  induction s with
  | nil => intro a; exact Nat.le_refl _
  | cons c s ih =>
    intro a
    show a ≤ decVal (a * 10 + (c.toNat - 48)) s
    have := ih (a * 10 + (c.toNat - 48))
    omega

theorem parseUintLoop_of_digits (s : GoString) :
    ∀ a, (∀ c ∈ s, isDigit c = true) → decVal a s < 2 ^ 64 →
      parseUintLoop s a = .ok (decVal a s) := by
  induction s with
  | nil => intro a _ _; rfl
  | cons c s ih =>
    intro a hd hv
    have hc : isDigit c = true := hd c (by simp)
    have hv1 : decVal (a * 10 + (c.toNat - 48)) s < 2 ^ 64 := hv
    have hle := le_decVal s (a * 10 + (c.toNat - 48))
    have h1 : ¬ a ≥ (2 ^ 64 - 1) / 10 + 1 := by
      norm_num at hv1 hle ⊢
      omega
    have h2 : ¬ a * 10 + (c.toNat - 48) ≥ 2 ^ 64 := by omega
    rw [parseUintLoop]
    simp only [hc, Bool.not_true, Bool.false_eq_true, if_false, if_neg h1, if_neg h2]
    exact ih _ (fun x hx => hd x (by simp [hx])) hv1

theorem formatBits_spec (fuel : Nat) :
    ∀ (n : Nat) (acc : GoString), n < fuel →
      ∃ ds : GoString, formatBits fuel n acc = ds ++ acc ∧ ds ≠ [] ∧
        (∀ c ∈ ds, isDigit c = true) ∧ ∃ p, ∀ a, decVal a ds = a * p + n := by
  induction fuel with
  | zero => intro n acc h; exact absurd h (Nat.not_lt_zero _)
  | succ fuel ih =>
    intro n acc hn
    by_cases h10 : n < 10
    · refine ⟨[digitByte n], ?_, by simp, ?_, 10, ?_⟩
      · rw [formatBits, if_pos h10]; rfl
      · intro c hc
        rw [List.mem_singleton.1 hc]
        exact isDigit_digitByte n
      · intro a
        show a * 10 + ((digitByte n).toNat - 48) = a * 10 + n
        rw [digitByte_toNat]
        omega
    · obtain ⟨ds, hds, _, hdig, p, hp⟩ := ih (n / 10) (digitByte (n % 10) :: acc) (by omega)
      refine ⟨ds ++ [digitByte (n % 10)], ?_, by simp, ?_, p * 10, ?_⟩
      · rw [formatBits, if_neg h10, hds]; simp
      · intro c hc
        rcases List.mem_append.1 hc with hc | hc
        · exact hdig c hc
        · rw [List.mem_singleton.1 hc]; exact isDigit_digitByte _
      · intro a
        show List.foldl _ a (ds ++ [digitByte (n % 10)]) = _
        rw [List.foldl_append]
        show decVal a ds * 10 + ((digitByte (n % 10)).toNat - 48) = _
        rw [hp a, digitByte_toNat]
        have : n % 10 % 10 = n % 10 := Nat.mod_mod _ _
        have hdm := Nat.div_add_mod n 10
        rw [this, Nat.add_sub_cancel_left]
        nlinarith

theorem FormatUint_spec (n : Nat) :
    FormatUint n ≠ [] ∧ (∀ c ∈ FormatUint n, isDigit c = true) ∧ decVal 0 (FormatUint n) = n := by
  obtain ⟨ds, hds, hne, hdig, p, hp⟩ := formatBits_spec (n + 1) n [] (Nat.lt_succ_self n)
  have e : FormatUint n = ds := by rw [FormatUint, hds, List.append_nil]
  rw [e]
  exact ⟨hne, hdig, by rw [hp 0]; omega⟩

theorem ParseUint_FormatUint (n : Nat) (h : n < 2 ^ 64) : ParseUint (FormatUint n) = .ok n := by
  obtain ⟨hne, hdig, hv⟩ := FormatUint_spec n
  rw [ParseUint, if_neg hne, parseUintLoop_of_digits _ 0 hdig (by rw [hv]; exact h), hv]

theorem isDigit_ne (c : UInt8) (h : isDigit c = true) :
    c ≠ BAR ∧ c ≠ LF ∧ c ≠ PLUS ∧ c ≠ DASH := by
  simp only [isDigit, Bool.and_eq_true, decide_eq_true_eq] at h
  refine ⟨?_, ?_, ?_, ?_⟩ <;> intro e <;> rw [e] at h <;> revert h <;> decide

theorem parseUintLoop_ok_digits (s : GoString) :
    ∀ a v, parseUintLoop s a = .ok v → ∀ c ∈ s, isDigit c = true := by
  induction s with
  | nil => intro a v _ c hc; simp at hc
  | cons d s ih =>
    intro a v h c hc
    rw [parseUintLoop] at h
    by_cases hd : isDigit d = true
    · simp only [hd, Bool.not_true, Bool.false_eq_true, if_false] at h
      split at h
      · cases h
      · split at h
        · cases h
        · rcases List.mem_cons.1 hc with rfl | hc
          · exact hd
          · exact ih _ _ h c hc
    · simp [hd] at h

theorem ParseInt_ok_bytes (s : GoString) (n : Int) (h : ParseInt s = .ok n) :
    ∀ c ∈ s, c ≠ BAR ∧ c ≠ LF := by
  cases s with
  | nil => simp [ParseInt] at h
  | cons d rest =>
    simp only [ParseInt] at h
    split at h
    · cases h
    · rename_i un hun
      have hne : (if d = PLUS then rest else if d = DASH then rest else d :: rest) ≠ [] := by
        intro e
        rw [ParseUint, if_pos e] at hun
        cases hun
      rw [ParseUint, if_neg hne] at hun
      have hdig := parseUintLoop_ok_digits _ _ _ hun
      intro c hc
      by_cases h1 : d = PLUS
      · rw [if_pos h1] at hdig
        rcases List.mem_cons.1 hc with rfl | hc
        · rw [h1]; decide
        · exact ⟨(isDigit_ne c (hdig c hc)).1, (isDigit_ne c (hdig c hc)).2.1⟩
      · by_cases h2 : d = DASH
        · rw [if_neg h1, if_pos h2] at hdig
          rcases List.mem_cons.1 hc with rfl | hc
          · rw [h2]; decide
          · exact ⟨(isDigit_ne c (hdig c hc)).1, (isDigit_ne c (hdig c hc)).2.1⟩
        · rw [if_neg h1, if_neg h2] at hdig
          exact ⟨(isDigit_ne c (hdig c hc)).1, (isDigit_ne c (hdig c hc)).2.1⟩

theorem ParseInt_FormatUint (n : Nat) (h : n < 2 ^ 63) :
    ParseInt (FormatUint n) = .ok (n : Int) := by
  obtain ⟨hne, hdig, _⟩ := FormatUint_spec n
  have hp := ParseUint_FormatUint n (by omega)
  cases hf : FormatUint n with
  | nil => exact absurd hf hne
  | cons d rest =>
    have hd : isDigit d = true := hdig d (by rw [hf]; simp)
    obtain ⟨_, _, h1, h2⟩ := isDigit_ne d hd
    rw [hf] at hp
    have h3 : ¬ (n ≥ 2 ^ 63) := by omega
    simp only [ParseInt, if_neg h1, if_neg h2, hp, h2, decide_False, Bool.not_false,
      Bool.true_and, decide_eq_true_eq, h3, if_false, Bool.false_and, Bool.false_eq_true]

theorem FormatUint_not_mem (n : Nat) : BAR ∉ FormatUint n ∧ LF ∉ FormatUint n := by
  obtain ⟨_, hdig, _⟩ := FormatUint_spec n
  exact ⟨fun h => (isDigit_ne _ (hdig _ h)).1 rfl, fun h => (isDigit_ne _ (hdig _ h)).2.1 rfl⟩

/-! ## Lemmas: the path hash -/

theorem formatBits_digits (fuel : Nat) :
    ∀ (n : Nat) (acc : GoString), n < fuel → formatBits fuel n acc = decimal n ++ acc := by
  induction fuel with
  | zero => intro n acc h; exact absurd h (Nat.not_lt_zero _)
  | succ fuel ih =>
    intro n acc hn
    by_cases h10 : n < 10
    · rw [formatBits, if_pos h10]
      by_cases h0 : n = 0
      · subst h0; rfl
      · have hd : Nat.digits 10 n = [n] := Nat.digits_of_lt 10 n h0 h10
        simp only [decimal, if_neg h0, hd, List.reverse_singleton, List.map_singleton,
          List.singleton_append, digitByte, Nat.mod_eq_of_lt h10]
    · have hpos : 0 < n := by omega
      have hq : n / 10 ≠ 0 := by omega
      have hn0 : n ≠ 0 := by omega
      rw [formatBits, if_neg h10, ih (n / 10) _ (by omega)]
      have hd : Nat.digits 10 n = n % 10 :: Nat.digits 10 (n / 10) :=
        Nat.digits_def' (by decide) hpos
      simp only [decimal, if_neg hq, if_neg hn0, hd, List.reverse_cons, List.map_append,
        List.map_singleton, List.append_assoc, List.singleton_append, digitByte, Nat.mod_mod]

theorem FormatUint_eq_decimal (n : Nat) : FormatUint n = decimal n := by
  rw [FormatUint, formatBits_digits (n + 1) n [] (Nat.lt_succ_self n), List.append_nil]

theorem sum32a_Write_eq (s : GoString) : ∀ h, sum32a_Write h s = fnv1a32From h s := by
  induction s with
  | nil => intro h; rfl
  | cons b bs ih => intro h; exact ih _

theorem fnv1a32From_lt (s : GoString) : ∀ h, h < 2 ^ 32 → fnv1a32From h s < 2 ^ 32 := by
  induction s with
  | nil => intro h hh; exact hh
  | cons b bs ih =>
    intro h _
    exact ih _ (Nat.mod_lt _ (by decide))

theorem fnv1a32_lt (s : GoString) : fnv1a32 s < 2 ^ 32 :=
  fnv1a32From_lt s _ (by decide)

theorem toInt_of_lt (x : Nat) (h : x < 2 ^ 32) : toInt x = (x : Int) := by
  have h1 : x % 2 ^ intSize = x := Nat.mod_eq_of_lt (by simp only [intSize]; omega)
  have h2 : x < 2 ^ (intSize - 1) := by simp only [intSize]; omega
  simp only [toInt, h1, h2, if_true]

theorem getHashFromString_eq (s : GoString) : getHashFromString s = FormatUint (fnv1a32 s) := by
  have h := fnv1a32_lt s
  simp only [getHashFromString, New32a, offset32, Sum32, sum32a_Write_eq]
  rw [show fnv1a32From 2166136261 s = fnv1a32 s from rfl, toInt_of_lt _ h]
  simp [Itoa]

theorem getHashFromString_not_mem (s : GoString) :
    BAR ∉ getHashFromString s ∧ LF ∉ getHashFromString s := by
  rw [getHashFromString_eq]; exact FormatUint_not_mem _

/-! ## Lemmas: maps -/

theorem HistoryMap.get?_eq_none_iff (m : HistoryMap) (k : GoString) :
    m.get? k = none ↔ k ∉ m.keys := by
  induction m with
  | nil => simp [HistoryMap.get?, HistoryMap.keys]
  | cons e m ih =>
    obtain ⟨k1, v⟩ := e
    by_cases h : k1 = k
    · simp [HistoryMap.get?, HistoryMap.keys, h]
    · have h' : ¬ k = k1 := fun e => h e.symm
      simpa [HistoryMap.get?, HistoryMap.keys, h, h'] using ih

theorem HistoryMap.get?_mem (m : HistoryMap) (k : GoString) (v : History)
    (h : m.get? k = some v) : (k, v) ∈ m := by
  induction m with
  | nil => simp [HistoryMap.get?] at h
  | cons e m ih =>
    obtain ⟨k1, v1⟩ := e
    by_cases hk : k1 = k
    · simp only [HistoryMap.get?, hk, if_true, Option.some.injEq] at h
      simp [hk, h]
    · simp only [HistoryMap.get?, hk, if_false] at h
      exact List.mem_cons_of_mem _ (ih h)

theorem HistoryMap.get?_filter_ne (m : HistoryMap) (k k1 : GoString) (h : k1 ≠ k) :
    HistoryMap.get? (m.filter (fun e => decide (e.1 ≠ k))) k1 = m.get? k1 := by
  induction m with
  | nil => rfl
  | cons e m ih =>
    obtain ⟨k2, v⟩ := e
    by_cases h2 : k2 = k
    · have h3 : ¬ k2 = k1 := fun e => h (e.symm.trans h2)
      subst h2
      simp only [List.filter, ne_eq, not_true_eq_false, decide_False]
      rw [show (fun e : GoString × History => decide ¬e.1 = k2) =
        (fun e => decide (e.1 ≠ k2)) from rfl, ih]
      simp [HistoryMap.get?, h3]
    · simp only [List.filter, h2, ne_eq, not_false_eq_true, decide_True, HistoryMap.get?]
      rw [ih]

theorem HistoryMap.get?_set_self (m : HistoryMap) (k : GoString) (v : History) :
    (m.set k v).get? k = some v := by
  simp [HistoryMap.set, HistoryMap.get?]

theorem HistoryMap.get?_set_ne (m : HistoryMap) (k k1 : GoString) (v : History)
    (h : k1 ≠ k) : (m.set k v).get? k1 = m.get? k1 := by
  have h' : ¬ k = k1 := fun e => h e.symm
  simp only [HistoryMap.set, HistoryMap.get?, h', if_false]
  exact HistoryMap.get?_filter_ne m k k1 h

theorem HistoryMap.mem_set (m : HistoryMap) (k : GoString) (v : History)
    (e : GoString × History) (h : e ∈ m.set k v) : e = (k, v) ∨ e ∈ m := by
  simp only [HistoryMap.set, List.mem_cons, List.mem_filter] at h
  rcases h with h | h
  · exact Or.inl h
  · exact Or.inr h.1

theorem HistoryMap.keys_set_nodup (m : HistoryMap) (k : GoString) (v : History)
    (h : m.keys.Nodup) : (m.set k v).keys.Nodup := by
  simp only [HistoryMap.set, HistoryMap.keys, List.map_cons, List.nodup_cons, List.mem_map,
    List.mem_filter, not_exists, not_and]
  refine ⟨?_, ?_⟩
  · intro e he hk
    simp [hk] at he
  · exact List.Nodup.sublist (List.Sublist.map _ (List.filter_sublist _)) h

theorem HistoryMap.length_set_of_not_mem (m : HistoryMap) (k : GoString) (v : History)
    (h : k ∉ m.keys) : (m.set k v).length = m.length + 1 := by
  have : m.filter (fun e => decide (e.1 ≠ k)) = m := by
    rw [List.filter_eq_self]
    intro e he
    have : e.1 ≠ k := fun hk => h (by rw [← hk]; exact List.mem_map_of_mem _ he)
    simpa using this
  rw [HistoryMap.set, this]; rfl

theorem HistoryMap.mem_keys_set (m : HistoryMap) (k k1 : GoString) (v : History) :
    k1 ∈ (m.set k v).keys ↔ k1 = k ∨ k1 ∈ m.keys := by
  by_cases h : k1 = k
  · subst h; simp [HistoryMap.set, HistoryMap.keys]
  · have e1 := HistoryMap.get?_set_ne m k k1 v h
    have a := HistoryMap.get?_eq_none_iff (m.set k v) k1
    have b := HistoryMap.get?_eq_none_iff m k1
    rw [e1] at a
    constructor
    · intro hk; right; by_contra hn; exact (a.1 (b.2 hn)) hk
    · rintro (hk | hk)
      · exact absurd hk h
      · by_contra hn; exact (b.1 (a.2 hn)) hk

/-- The map after a sequence of optional assignments. -/
theorem foldl_apply_append (m : HistoryMap) (xs ys : List (Option (GoString × History))) :
    (xs ++ ys).foldl HistoryMap.apply m = ys.foldl HistoryMap.apply (xs.foldl HistoryMap.apply m) :=
  List.foldl_append _ _ _ _

theorem foldl_apply_mem (xs : List (Option (GoString × History))) :
    ∀ (m : HistoryMap) (e : GoString × History), e ∈ xs.foldl HistoryMap.apply m →
      e ∈ m ∨ some e ∈ xs := by
  induction xs with
  | nil => intro m e h; exact Or.inl h
  | cons x xs ih =>
    intro m e h
    rcases ih _ e h with h1 | h1
    · cases x with
      | none => exact Or.inl h1
      | some a =>
        rcases HistoryMap.mem_set m a.1 a.2 e h1 with h2 | h2
        · right; rw [h2]; simp
        · exact Or.inl h2
    · right; exact List.mem_cons_of_mem _ h1

theorem foldl_apply_nodup (xs : List (Option (GoString × History))) :
    ∀ (m : HistoryMap), m.keys.Nodup → (xs.foldl HistoryMap.apply m).keys.Nodup := by
  induction xs with
  | nil => intro m h; exact h
  | cons x xs ih =>
    intro m h
    cases x with
    | none => exact ih m h
    | some a => exact ih _ (HistoryMap.keys_set_nodup m a.1 a.2 h)

theorem foldl_apply_get?_of_not_key (xs : List (Option (GoString × History))) (k : GoString) :
    ∀ (m : HistoryMap), (∀ e, some e ∈ xs → e.1 ≠ k) →
      (xs.foldl HistoryMap.apply m).get? k = m.get? k := by
  induction xs with
  | nil => intro m _; rfl
  | cons x xs ih =>
    intro m h
    have h1 : ∀ e, some e ∈ xs → e.1 ≠ k := fun e he => h e (List.mem_cons_of_mem _ he)
    cases x with
    | none => exact ih m h1
    | some a =>
      show (xs.foldl HistoryMap.apply (m.set a.1 a.2)).get? k = _
      rw [ih _ h1]
      exact HistoryMap.get?_set_ne m a.1 k a.2 (fun e => h a (by simp) e.symm)

theorem foldl_apply_get?_last (pre post : List (Option (GoString × History)))
    (e : GoString × History) (m : HistoryMap) (h : ∀ e1, some e1 ∈ post → e1.1 ≠ e.1) :
    ((pre ++ some e :: post).foldl HistoryMap.apply m).get? e.1 = some e.2 := by
  rw [foldl_apply_append]
  show (post.foldl HistoryMap.apply ((pre.foldl HistoryMap.apply m).set e.1 e.2)).get? e.1 = _
  rw [foldl_apply_get?_of_not_key post e.1 _ h]
  exact HistoryMap.get?_set_self _ _ _

theorem foldl_apply_mem_keys (xs : List (Option (GoString × History))) (k : GoString) :
    ∀ (m : HistoryMap), k ∈ (xs.foldl HistoryMap.apply m).keys ↔
      k ∈ m.keys ∨ ∃ e, some e ∈ xs ∧ e.1 = k := by
  induction xs with
  | nil => intro m; simp
  | cons x xs ih =>
    intro m
    cases x with
    | none =>
      rw [List.foldl_cons, show HistoryMap.apply m none = m from rfl, ih m]
      simp
    | some a =>
      rw [List.foldl_cons, show HistoryMap.apply m (some a) = m.set a.1 a.2 from rfl, ih,
        HistoryMap.mem_keys_set]
      constructor
      · rintro ((h | h) | ⟨e, he, hk⟩)
        · exact Or.inr ⟨a, by simp, h.symm⟩
        · exact Or.inl h
        · exact Or.inr ⟨e, by simp [he], hk⟩
      · rintro (h | ⟨e, he, hk⟩)
        · exact Or.inl (Or.inr h)
        · simp only [List.mem_cons, Option.some.injEq] at he
          rcases he with he | he
          · exact Or.inl (Or.inl (by rw [← hk, he]))
          · exact Or.inr ⟨e, he, hk⟩

theorem foldl_apply_length (xs : List (GoString × History)) :
    (xs.map Prod.fst).Nodup →
      ((xs.map some).foldl HistoryMap.apply []).length = xs.length := by
  induction xs using List.reverseRecOn with
  | nil => intro _; rfl
  | append_singleton xs a ih =>
    intro h
    rw [List.map_append, List.nodup_append] at h
    obtain ⟨h1, _, h3⟩ := h
    rw [List.map_append, foldl_apply_append]
    show (HistoryMap.set _ a.1 a.2).length = _
    rw [HistoryMap.length_set_of_not_mem, ih h1, List.length_append]
    · rfl
    · rw [foldl_apply_mem_keys]
      rintro (hk | ⟨e, he, hk⟩)
      · simp [HistoryMap.keys] at hk
      · have he1 : e ∈ xs := by simpa using he
        exact h3 (List.mem_map_of_mem Prod.fst he1) (by simp [hk])

/-! ## Lemmas: the two readers -/

theorem GetCommits_body_eq (hash : GoString) (m : HistoryMap) (line : GoString) :
    GetCommits.body hash m line = m.apply (GetCommits.entry hash line) := by
  unfold GetCommits.body GetCommits.entry
  split
  · rfl
  · split
    · split <;> rfl
    · rfl

theorem getCommitsFakeRepo_body_eq (p : GoString) (m : HistoryMap) (line : GoString) :
    getCommitsFakeRepo.body p m line = m.apply (getCommitsFakeRepo.entry p line) := by
  unfold getCommitsFakeRepo.body getCommitsFakeRepo.entry
  split
  · rfl
  · split
    · split <;> rfl
    · rfl

theorem foldl_body_eq (hash : GoString) (lines : List GoString) (m : HistoryMap) :
    lines.foldl (GetCommits.body hash) m
      = (lines.map (GetCommits.entry hash)).foldl HistoryMap.apply m := by
  rw [List.foldl_map]
  congr 1
  funext m line
  exact GetCommits_body_eq hash m line

theorem foldl_fakeBody_eq (p : GoString) (lines : List GoString) (m : HistoryMap) :
    lines.foldl (getCommitsFakeRepo.body p) m
      = (lines.map (getCommitsFakeRepo.entry p)).foldl HistoryMap.apply m := by
  rw [List.foldl_map]
  congr 1
  funext m line
  exact getCommitsFakeRepo_body_eq p m line

theorem joinLines_nil : joinLines [] = [] := rfl

theorem Split_joinLines (ls : List GoString) (h : ∀ l ∈ ls, LF ∉ l) (hne : ls ≠ []) :
    Split (joinLines ls) LF = ls :=
  Split_intercalate LF ls hne h

theorem GetCommits_parse_nil (p : GoString) : GetCommits.parse p [] = [] := rfl

theorem getCommitsFakeRepo_parse_nil (p : GoString) : getCommitsFakeRepo.parse p [] = [] := rfl

theorem GetCommits_parse_joinLines (p : GoString) (ls : List GoString)
    (h : ∀ l ∈ ls, LF ∉ l) :
    GetCommits.parse p (joinLines ls)
      = (ls.map (GetCommits.entry (getHashFromString p))).foldl HistoryMap.apply [] := by
  cases ls with
  | nil => rfl
  | cons l ls =>
    rw [GetCommits.parse, Split_joinLines _ h (by simp), foldl_body_eq]

theorem getCommitsFakeRepo_parse_joinLines (p : GoString) (ls : List GoString)
    (h : ∀ l ∈ ls, LF ∉ l) :
    getCommitsFakeRepo.parse p (joinLines ls)
      = (ls.map (getCommitsFakeRepo.entry p)).foldl HistoryMap.apply [] := by
  cases ls with
  | nil => rfl
  | cons l ls =>
    rw [getCommitsFakeRepo.parse, Split_joinLines _ h (by simp), foldl_fakeBody_eq]

/-- What `GetCommits` returns when the folder exists and the listing succeeds. -/
theorem GetCommits_of_output {σ : Type} (sys : Sys σ) (p : GoString) (s : St σ)
    (out : GoString) (hstat : sys.statNotExist s.world p = false)
    (hrun : (sys.bash s.world (.logHashTime p)).1 = (out, none)) :
    GetCommits sys p s
      = (.ok ⟨GetCommits.parse p out⟩,
          ⟨(sys.bash s.world (.logHashTime p)).2, s.trace ++ [.logHashTime p]⟩) := by
  have h1 : (sys.bash s.world (.logHashTime p)).1.2 = none := by rw [hrun]
  have h2 : (sys.bash s.world (.logHashTime p)).1.1 = out := by rw [hrun]
  simp only [GetCommits, hstat, Bool.false_eq_true, if_false, runCommand, h1, h2]
  by_cases ho : out = []
  · rw [if_pos ho, ho, GetCommits_parse_nil]
  · rw [if_neg ho]

theorem getCommitsFakeRepo_of_output {σ : Type} (sys : Sys σ) (p : GoString) (s : St σ)
    (out : GoString) (hstat : sys.statNotExist s.world p = false)
    (hrun : (sys.bash s.world (.logHashTimeSubject p)).1 = (out, none)) :
    getCommitsFakeRepo sys p s
      = (.ok ⟨getCommitsFakeRepo.parse p out⟩,
          ⟨(sys.bash s.world (.logHashTimeSubject p)).2,
            s.trace ++ [.logHashTimeSubject p]⟩) := by
  have h1 : (sys.bash s.world (.logHashTimeSubject p)).1.2 = none := by rw [hrun]
  have h2 : (sys.bash s.world (.logHashTimeSubject p)).1.1 = out := by rw [hrun]
  simp only [getCommitsFakeRepo, hstat, Bool.false_eq_true, if_false, runCommand, h1, h2]
  by_cases ho : out = []
  · rw [if_pos ho, ho, getCommitsFakeRepo_parse_nil]
  · rw [if_neg ho]

/-- Every successful `GetCommits` returns the parse of some output. -/
theorem GetCommits_ok_parse {σ : Type} (sys : Sys σ) (p : GoString) (s s1 : St σ)
    (h : CommitsHistory) (hr : GetCommits sys p s = (.ok h, s1)) :
    ∃ out, h.History = GetCommits.parse p out := by
  unfold GetCommits at hr
  split at hr
  · cases hr
  · split at hr
    · split at hr
      · cases hr; exact ⟨[], rfl⟩
      · cases hr
    · split at hr
      · cases hr; exact ⟨[], rfl⟩
      · rename_i output _ _ _
        cases hr; exact ⟨output, rfl⟩

theorem listingLine_ne_nil (h t : GoString) : listingLine h t ≠ [] := by
  simp [listingLine]

theorem GetCommits_entry_listingLine (hash h t : GoString) (n : Int) (hb : BAR ∉ h)
    (ht : ParseInt t = .ok n) :
    GetCommits.entry hash (listingLine h t)
      = some (hash ++ bytes "-" ++ h,
          { GlobalID := hash ++ bytes "-" ++ h, PathHash := hash, CommitID := h,
            Timestamp := Time.Unix n }) := by
  have hs : Split (listingLine h t) BAR = [h, t] := by
    rw [listingLine, Split_append_sep BAR t h hb,
      Split_of_not_mem BAR t (fun hm => (ParseInt_ok_bytes t n ht BAR hm).1 rfl)]
  simp only [GetCommits.entry, listingLine_ne_nil, if_false, hs, ht]

theorem GetCommits_entry_malformed (hash line : GoString) (h : Malformed line) :
    GetCommits.entry hash line = none := by
  unfold GetCommits.entry
  split
  · rfl
  · split
    · rename_i c0 c1 rest hs
      rcases h with h | ⟨e, he⟩
      · rw [hs] at h; simp only [List.length_cons] at h; omega
      · rw [hs] at he
        simp only [List.getD_cons_succ, List.getD_cons_zero] at he
        rw [he]
    · rfl

theorem GetCommits_entry_inv (hash line : GoString) (e : GoString × History)
    (hl : LF ∉ line) (h : GetCommits.entry hash line = some e) :
    e.1 = e.2.GlobalID ∧ e.2.GlobalID = e.2.PathHash ++ bytes "-" ++ e.2.CommitID
      ∧ e.2.PathHash = hash ∧ BAR ∉ e.2.CommitID ∧ LF ∉ e.2.CommitID := by
  unfold GetCommits.entry at h
  split at h
  · cases h
  · split at h
    · rename_i c0 c1 rest hs
      split at h
      · cases h
      · cases h
        have hm := mem_of_mem_Split BAR line c0 (by rw [hs]; simp)
        exact ⟨rfl, rfl, rfl, fun hb => (hm BAR hb).2 rfl, fun hb => hl (hm LF hb).1⟩
    · cases h

theorem GetCommits_parse_mem (p out : GoString) (e : GoString × History)
    (h : e ∈ GetCommits.parse p out) :
    ∃ line, LF ∉ line ∧ GetCommits.entry (getHashFromString p) line = some e := by
  rw [GetCommits.parse, foldl_body_eq] at h
  rcases foldl_apply_mem _ _ e h with h1 | h1
  · simp at h1
  · obtain ⟨line, hl, he⟩ := List.mem_map.1 h1
    exact ⟨line, fun hm => (mem_of_mem_Split LF out line hl LF hm).2 rfl, he⟩

theorem GetCommits_parse_inv (p out : GoString) (e : GoString × History)
    (h : e ∈ GetCommits.parse p out) :
    e.1 = e.2.GlobalID ∧ e.2.GlobalID = e.2.PathHash ++ bytes "-" ++ e.2.CommitID
      ∧ e.2.PathHash = getHashFromString p ∧ BAR ∉ e.2.GlobalID ∧ LF ∉ e.2.GlobalID := by
  obtain ⟨line, hl, he⟩ := GetCommits_parse_mem p out e h
  obtain ⟨h1, h2, h3, h4, h5⟩ := GetCommits_entry_inv _ line e hl he
  have hh := getHashFromString_not_mem p
  refine ⟨h1, h2, h3, ?_, ?_⟩
  · rw [h2, h3]
    simp only [List.mem_append, not_or]
    exact ⟨⟨hh.1, by decide⟩, h4⟩
  · rw [h2, h3]
    simp only [List.mem_append, not_or]
    exact ⟨⟨hh.2, by decide⟩, h5⟩

theorem GetCommits_parse_keys_nodup (p out : GoString) :
    HistoryMap.keys (GetCommits.parse p out) |>.Nodup := by
  rw [GetCommits.parse, foldl_body_eq]
  exact foldl_apply_nodup _ [] List.nodup_nil

theorem getCommitsFakeRepo_entry_listingLine3 (p c0 c1 m : GoString) (n : Int)
    (hb : BAR ∉ c0) (ht : ParseInt c1 = .ok n) :
    getCommitsFakeRepo.entry p (listingLine3 c0 c1 m)
      = some (firstField m,
          { GlobalID := firstField m, PathHash := (Split p DASH).headD [], CommitID := c0,
            Timestamp := Time.Unix n }) := by
  have hs : Split (listingLine3 c0 c1 m) BAR = c0 :: c1 :: Split m BAR := by
    rw [listingLine3, Split_append_sep BAR _ c0 hb,
      Split_append_sep BAR _ c1 (fun hm => (ParseInt_ok_bytes c1 n ht BAR hm).1 rfl)]
  have hne : listingLine3 c0 c1 m ≠ [] := by simp [listingLine3]
  cases hm : Split m BAR with
  | nil => exact absurd hm (Split_ne_nil m BAR)
  | cons f fs =>
    simp only [getCommitsFakeRepo.entry, hne, if_false, hs, hm, ht, firstField,
      List.headD_cons]

theorem firstField_of_not_mem (m : GoString) (h : BAR ∉ m) : firstField m = m := by
  rw [firstField, Split_of_not_mem BAR m h]; rfl

theorem getCommitsFakeRepo_entry_inv (p line : GoString) (e : GoString × History)
    (h : getCommitsFakeRepo.entry p line = some e) : e.1 = e.2.GlobalID := by
  unfold getCommitsFakeRepo.entry at h
  split at h
  · cases h
  · split at h
    · split at h
      · cases h
      · cases h; rfl
    · cases h

theorem getCommitsFakeRepo_parse_inv (p out : GoString) (e : GoString × History)
    (h : e ∈ getCommitsFakeRepo.parse p out) : e.1 = e.2.GlobalID := by
  rw [getCommitsFakeRepo.parse, foldl_fakeBody_eq] at h
  rcases foldl_apply_mem _ _ e h with h1 | h1
  · simp at h1
  · obtain ⟨line, _, he⟩ := List.mem_map.1 h1
    exact getCommitsFakeRepo_entry_inv p line e he

theorem HistoryMap.get?_of_mem_keys (m : HistoryMap) (k : GoString) (h : k ∈ m.keys) :
    ∃ v, m.get? k = some v ∧ (k, v) ∈ m := by
  cases hg : m.get? k with
  | none => exact absurd h ((HistoryMap.get?_eq_none_iff m k).1 hg)
  | some v => exact ⟨v, rfl, HistoryMap.get?_mem m k v hg⟩

theorem globalID_injective (hash a b : GoString)
    (h : hash ++ bytes "-" ++ a = hash ++ bytes "-" ++ b) : a = b :=
  List.append_cancel_left h

/-! ## Lemmas: the writer -/

theorem runCommand_state {σ : Type} (sys : Sys σ) (c : Command) (s : St σ) :
    (runCommand sys c s).2 = ⟨(sys.bash s.world c).2, s.trace ++ [c]⟩ := by
  cases hb : (sys.bash s.world c).1.2 <;> simp only [runCommand, hb]

theorem runCommand_ok {σ : Type} (sys : Sys σ) (c : Command) (s s1 : St σ) (out : GoString)
    (h : runCommand sys c s = (.ok out, s1)) :
    (sys.bash s.world c).1 = (out, none) := by
  cases hb : (sys.bash s.world c).1.2 with
  | some err => simp only [runCommand, hb] at h; cases h
  | none =>
    simp only [runCommand, hb] at h
    cases h
    exact Prod.ext rfl hb

/-- A creation that succeeds has run its command line, and nothing else. -/
theorem createCommit_ok {σ : Type} (sys : Sys σ) (dest : GoString) (t : Time)
    (g : GoString) (s s1 : St σ) (c : GoString)
    (h : createCommitWithTimestampInRepo sys dest t g s = (.ok c, s1)) :
    sys.statNotExist s.world dest = false
      ∧ s1 = ⟨(sys.bash s.world (.commitAllowEmpty dest g (t.Format sys.loc))).2,
          s.trace ++ [.commitAllowEmpty dest g (t.Format sys.loc)]⟩
      ∧ (sys.bash s.world (.commitAllowEmpty dest g (t.Format sys.loc))).1.2 = none := by
  unfold createCommitWithTimestampInRepo at h
  split at h
  · cases h
  · rename_i hst
    have hs := runCommand_state sys (.commitAllowEmpty dest g (t.Format sys.loc)) s
    split at h
    · cases h
    · rename_i output s2 hrun
      rw [hrun] at hs
      have hnone : (sys.bash s.world (.commitAllowEmpty dest g (t.Format sys.loc))).1.2
          = none := by
        rw [runCommand_ok sys _ s s2 output hrun]
      split at h
      · cases h
        exact ⟨by simpa using hst, hs, hnone⟩
      · cases h

/-- A creation that fails has run its command line at most once, and nothing else. -/
theorem createCommit_error {σ : Type} (sys : Sys σ) (dest : GoString) (t : Time)
    (g : GoString) (s s1 : St σ) (err : GoString)
    (h : createCommitWithTimestampInRepo sys dest t g s = (.error err, s1)) :
    s1 = s ∨ s1 = ⟨(sys.bash s.world (.commitAllowEmpty dest g (t.Format sys.loc))).2,
          s.trace ++ [.commitAllowEmpty dest g (t.Format sys.loc)]⟩ := by
  unfold createCommitWithTimestampInRepo at h
  split at h
  · cases h; exact Or.inl rfl
  · have hs := runCommand_state sys (.commitAllowEmpty dest g (t.Format sys.loc)) s
    split at h
    · rename_i e s2 hrun
      rw [hrun] at hs
      cases h
      exact Or.inr hs
    · rename_i output s2 hrun
      rw [hrun] at hs
      split at h
      · cases h
      · cases h
        exact Or.inr hs

theorem loop_missing {σ : Type} (sys : Sys σ) (dest : GoString) (ex : CommitsHistory) :
    ∀ (l : HistoryMap) (s : St σ),
      CreateCommitsInRepo.loop sys dest ex l s
        = CreateCommitsInRepo.loop sys dest ex (missingEntries ex l) s := by
  intro l
  induction l with
  | nil => intro s; rfl
  | cons e l ih =>
    intro s
    obtain ⟨k, v⟩ := e
    by_cases hm : (ex.History.get? v.GlobalID).isNone = true
    · have e1 : missingEntries ex ((k, v) :: l) = (k, v) :: missingEntries ex l := by
        simp [missingEntries, hm]
      rw [e1]
      simp only [CreateCommitsInRepo.loop, hm, if_true]
      split
      · rfl
      · exact ih _
    · have e1 : missingEntries ex ((k, v) :: l) = missingEntries ex l := by
        simp [missingEntries, hm]
      rw [e1]
      simp only [CreateCommitsInRepo.loop, hm, if_false]
      exact ih s

/-- A loop that returns no error has run one creation per missing entry, in order. -/
theorem loop_ok_trace {σ : Type} (sys : Sys σ) (dest : GoString) (ex : CommitsHistory) :
    ∀ (l : HistoryMap) (s s2 : St σ),
      CreateCommitsInRepo.loop sys dest ex l s = (.ok (), s2) →
      s2.trace = s.trace ++ (missingEntries ex l).map
        fun e => creationCommand sys.loc dest e.2 := by
  intro l
  induction l with
  | nil => intro s s2 h; cases h; simp [missingEntries]
  | cons e l ih =>
    intro s s2 h
    obtain ⟨k, v⟩ := e
    by_cases hm : (ex.History.get? v.GlobalID).isNone = true
    · have e1 : missingEntries ex ((k, v) :: l) = (k, v) :: missingEntries ex l := by
        simp [missingEntries, hm]
      rw [e1]
      simp only [CreateCommitsInRepo.loop, hm, if_true] at h
      split at h
      · cases h
      · rename_i c s1 hc
        obtain ⟨_, hs1, _⟩ := createCommit_ok sys dest _ _ s s1 c hc
        rw [ih s1 s2 h, hs1]
        simp [creationCommand]
    · have e1 : missingEntries ex ((k, v) :: l) = missingEntries ex l := by
        simp [missingEntries, hm]
      rw [e1]
      simp only [CreateCommitsInRepo.loop, hm, if_false] at h
      exact ih s s2 h

theorem missingEntries_eq (ex : CommitsHistory) (l : HistoryMap) :
    missingEntries ex l = l.filter fun e => decide (e.2.GlobalID ∉ ex.History.keys) := by
  unfold missingEntries
  apply List.filter_congr
  intro e _
  by_cases h : e.2.GlobalID ∈ ex.History.keys
  · obtain ⟨v, hv, _⟩ := HistoryMap.get?_of_mem_keys _ _ h
    simp [hv, h]
  · simp [(HistoryMap.get?_eq_none_iff _ _).2 h, h]

theorem CreateCommitsInRepo_unfold {σ : Type} (sys : Sys σ) (ord : RangeOrder)
    (dest : GoString) (history ex : CommitsHistory) (s s1 : St σ) (hdest : dest ≠ [])
    (hread : getCommitsFakeRepo sys dest s = (.ok ex, s1)) :
    CreateCommitsInRepo sys ord dest history s
      = CreateCommitsInRepo.loop sys dest ex (ord.pick history.History) s1 := by
  simp only [CreateCommitsInRepo, if_neg hdest, hread]

theorem CreateCommitsInRepo_ok_dest {σ : Type} (sys : Sys σ) (ord : RangeOrder)
    (dest : GoString) (history : CommitsHistory) (s s2 : St σ)
    (h : CreateCommitsInRepo sys ord dest history s = (.ok (), s2)) : dest ≠ [] := by
  intro hd
  simp [CreateCommitsInRepo, hd] at h

theorem GetCommits_state {σ : Type} (sys : Sys σ) (p : GoString) (s : St σ) :
    (sys.statNotExist s.world p = true ∧ (GetCommits sys p s).2 = s
        ∧ ∃ e, (GetCommits sys p s).1 = .error e)
      ∨ (sys.statNotExist s.world p = false ∧ (GetCommits sys p s).2
          = ⟨(sys.bash s.world (.logHashTime p)).2, s.trace ++ [.logHashTime p]⟩) := by
  cases hst : sys.statNotExist s.world p with
  | true =>
    left
    refine ⟨rfl, ?_, ?_⟩
    · simp only [GetCommits, hst, if_true]
    · simp only [GetCommits, hst, if_true]
      exact ⟨_, rfl⟩
  | false =>
    right
    have hs := runCommand_state sys (.logHashTime p) s
    refine ⟨rfl, ?_⟩
    simp only [GetCommits, hst, Bool.false_eq_true, if_false]
    cases hrun : runCommand sys (.logHashTime p) s with
    | mk r s1 =>
      rw [hrun] at hs
      cases r with
      | error err => simp only []; split <;> exact hs
      | ok out => simp only []; split <;> exact hs

theorem getCommitsFakeRepo_state {σ : Type} (sys : Sys σ) (p : GoString) (s : St σ) :
    (sys.statNotExist s.world p = true ∧ (getCommitsFakeRepo sys p s).2 = s
        ∧ ∃ e, (getCommitsFakeRepo sys p s).1 = .error e)
      ∨ (sys.statNotExist s.world p = false ∧ (getCommitsFakeRepo sys p s).2
          = ⟨(sys.bash s.world (.logHashTimeSubject p)).2,
              s.trace ++ [.logHashTimeSubject p]⟩) := by
  cases hst : sys.statNotExist s.world p with
  | true =>
    left
    refine ⟨rfl, ?_, ?_⟩
    · simp only [getCommitsFakeRepo, hst, if_true]
    · simp only [getCommitsFakeRepo, hst, if_true]
      exact ⟨_, rfl⟩
  | false =>
    right
    have hs := runCommand_state sys (.logHashTimeSubject p) s
    refine ⟨rfl, ?_⟩
    simp only [getCommitsFakeRepo, hst, Bool.false_eq_true, if_false]
    cases hrun : runCommand sys (.logHashTimeSubject p) s with
    | mk r s1 =>
      rw [hrun] at hs
      cases r with
      | error err => simp only []; split <;> exact hs
      | ok out => simp only []; split <;> exact hs

theorem getCommitsFakeRepo_ok_state {σ : Type} (sys : Sys σ) (p : GoString) (s s1 : St σ)
    (ex : CommitsHistory) (h : getCommitsFakeRepo sys p s = (.ok ex, s1)) :
    sys.statNotExist s.world p = false
      ∧ s1 = ⟨(sys.bash s.world (.logHashTimeSubject p)).2,
          s.trace ++ [.logHashTimeSubject p]⟩ := by
  rcases getCommitsFakeRepo_state sys p s with ⟨_, _, e, he⟩ | ⟨h1, h2⟩
  · rw [h] at he; cases he
  · rw [h] at h2; exact ⟨h1, h2⟩

theorem GetCommits_ok_state {σ : Type} (sys : Sys σ) (p : GoString) (s s1 : St σ)
    (hist : CommitsHistory) (h : GetCommits sys p s = (.ok hist, s1)) :
    sys.statNotExist s.world p = false
      ∧ s1 = ⟨(sys.bash s.world (.logHashTime p)).2, s.trace ++ [.logHashTime p]⟩ := by
  rcases GetCommits_state sys p s with ⟨_, _, e, he⟩ | ⟨h1, h2⟩
  · rw [h] at he; cases he
  · rw [h] at h2; exact ⟨h1, h2⟩

/-- With no commits in the origin, `GetCommits` returns the empty map. -/
theorem GetCommits_noCommitsYet {σ : Type} (sys : Sys σ) (p : GoString) (s : St σ)
    (hstat : sys.statNotExist s.world p = false)
    (h : NoCommitsYet (runCommand sys (.logHashTime p) s).1) :
    GetCommits sys p s = (.ok ⟨[]⟩, (runCommand sys (.logHashTime p) s).2) := by
  simp only [GetCommits, hstat, Bool.false_eq_true, if_false]
  cases hr : runCommand sys (.logHashTime p) s with
  | mk r s1 =>
    rw [hr] at h
    cases r with
    | error err =>
      simp only [NoCommitsYet] at h
      simp only [h.1, h.2, Bool.and_self, if_true]
    | ok out =>
      simp only [NoCommitsYet] at h
      simp only [h, if_true]

theorem GetCommits_other_failure {σ : Type} (sys : Sys σ) (p : GoString) (s : St σ)
    (err : GoString) (hstat : sys.statNotExist s.world p = false)
    (hr : (runCommand sys (.logHashTime p) s).1 = .error err)
    (h : ¬ NoCommitsYet (.error err)) :
    GetCommits sys p s = (.error err, (runCommand sys (.logHashTime p) s).2) := by
  simp only [GetCommits, hstat, Bool.false_eq_true, if_false]
  cases hrr : runCommand sys (.logHashTime p) s with
  | mk r s1 =>
    rw [hrr] at hr
    simp only at hr
    subst hr
    have : ¬ (Contains err (bytes "fatal: your current branch")
          && Contains err (bytes "does not have any commits yet")) = true := by
      intro hc
      rw [Bool.and_eq_true] at hc
      exact h hc
    simp only [this, if_false, Bool.false_eq_true]

theorem Migrate_of_GetCommits_ok {σ : Type} (sys : Sys σ) (ord : RangeOrder)
    (A B : GoString) (s s1 : St σ) (h : CommitsHistory)
    (hg : GetCommits sys A s = (.ok h, s1)) :
    MigrateToFakeCommitRepo sys ord A B s = CreateCommitsInRepo sys ord B h s1 := by
  simp only [MigrateToFakeCommitRepo, hg]
  cases hc : CreateCommitsInRepo sys ord B h s1 with
  | mk r s2 =>
    cases r with
    | error e => rfl
    | ok u => rfl

theorem Migrate_of_GetCommits_error {σ : Type} (sys : Sys σ) (ord : RangeOrder)
    (A B : GoString) (s s1 : St σ) (err : GoString)
    (hg : GetCommits sys A s = (.error err, s1)) :
    MigrateToFakeCommitRepo sys ord A B s = (.error err, s1) := by
  simp only [MigrateToFakeCommitRepo, hg]

theorem Contains_append (a b c sub : GoString) (h : Contains b sub = true) :
    Contains (a ++ b ++ c) sub = true := by
  simp only [Contains, decide_eq_true_eq] at h ⊢
  obtain ⟨x, y, hxy⟩ := h
  exact ⟨a ++ x, y ++ c, by rw [← hxy]; simp⟩

theorem loop_nil {σ : Type} (sys : Sys σ) (dest : GoString) (ex : CommitsHistory)
    (s : St σ) : CreateCommitsInRepo.loop sys dest ex [] s = (.ok (), s) := rfl

theorem RangeOrder.pick_nil (ord : RangeOrder) : ord.pick [] = [] :=
  List.Perm.eq_nil (ord.perm [])

/-! ## Lemmas: the model of the tool -/

theorem hexDigit_ne (d : Nat) : hexDigit d ≠ BAR ∧ hexDigit d ≠ LF ∧ isPlain (hexDigit d) = true := by
  have h : d % 16 < 16 := Nat.mod_lt _ (by decide)
  unfold hexDigit
  generalize d % 16 = x at h
  interval_cases x <;> decide

theorem hex40_not_mem (n : Nat) : BAR ∉ hex40 n ∧ LF ∉ hex40 n := by
  constructor
  · intro h
    obtain ⟨i, _, hi⟩ := List.mem_map.1 h
    exact (hexDigit_ne _).1 hi
  · intro h
    obtain ⟨i, _, hi⟩ := List.mem_map.1 h
    exact (hexDigit_ne _).2.1 hi

theorem hex40_plain (n : Nat) : ∀ c ∈ hex40 n, isPlain c = true := by
  intro c h
  obtain ⟨i, _, hi⟩ := List.mem_map.1 h
  rw [← hi]
  exact (hexDigit_ne _).2.2

theorem isPlain_of_isDigit (c : UInt8) (h : isDigit c = true) : isPlain c = true := by
  simp [isPlain, h]

theorem isPlain_ne (c : UInt8) (h : isPlain c = true) : c ≠ BAR ∧ c ≠ LF := by
  constructor <;> intro e <;> rw [e] at h <;> revert h <;> decide

/-- The subject of a commit created with a message of plain bytes is the message, and
so is its marker. -/
theorem Git.subjectFor_plain (g : Git) (m : GoString) (h : ∀ c ∈ m, isPlain c = true) :
    (g.subjectFor m).1 = m := by
  have ha : m.all isPlain = true := List.all_eq_true.2 h
  simp only [Git.subjectFor, ha, dite_true]

theorem marker_of_plain (g : Git) (hh : Nat) (t : Fin (2 ^ 63)) (m : GoString)
    (h : ∀ c ∈ m, isPlain c = true) :
    GitCommit.marker ⟨hh, t, m, g.subjectFor m⟩ = m := by
  rw [GitCommit.marker, Git.subjectFor_plain g m h]
  exact firstField_of_not_mem m (fun hb => (isPlain_ne _ (h _ hb)).1 rfl)

theorem line3_not_mem (c : GitCommit) : LF ∉ c.line3 := by
  have h1 := (hex40_not_mem c.hash).2
  have h2 := (FormatUint_not_mem c.authorTime).2
  have h3 := c.subject.2
  simp only [GitCommit.line3, listingLine3, List.mem_append, List.mem_cons, not_or]
  exact ⟨h1, by decide, h2, by decide, h3⟩

theorem line2_not_mem (c : GitCommit) : LF ∉ c.line2 := by
  have h1 := (hex40_not_mem c.hash).2
  have h2 := (FormatUint_not_mem c.authorTime).2
  simp only [GitCommit.line2, listingLine, List.mem_append, List.mem_cons, not_or]
  exact ⟨h1, by decide, h2⟩

theorem entry_line3 (p : GoString) (c : GitCommit) :
    ∃ v, getCommitsFakeRepo.entry p c.line3 = some (c.marker, v) :=
  ⟨_, getCommitsFakeRepo_entry_listingLine3 p _ _ _ _ (hex40_not_mem c.hash).1
    (ParseInt_FormatUint c.authorTime c.authorTime.isLt)⟩

theorem entry_line2 (hash : GoString) (c : GitCommit) :
    ∃ v, GetCommits.entry hash c.line2 = some (hash ++ bytes "-" ++ hex40 c.hash, v)
      ∧ v.GlobalID = hash ++ bytes "-" ++ hex40 c.hash :=
  ⟨_, GetCommits_entry_listingLine hash _ _ _ (hex40_not_mem c.hash).1
    (ParseInt_FormatUint c.authorTime c.authorTime.isLt), rfl⟩

/-- The keys the destination reader gets from the listing of a repository are the
markers of its commits. -/
theorem parse_line3_keys (p : GoString) (repo : List GitCommit) (k : GoString) :
    k ∈ HistoryMap.keys (getCommitsFakeRepo.parse p (joinLines (repo.map GitCommit.line3)))
      ↔ ∃ c ∈ repo, c.marker = k := by
  have hl : ∀ l ∈ repo.map GitCommit.line3, LF ∉ l := by
    intro l hl
    obtain ⟨c, _, rfl⟩ := List.mem_map.1 hl
    exact line3_not_mem c
  rw [getCommitsFakeRepo_parse_joinLines p _ hl, foldl_apply_mem_keys]
  constructor
  · rintro (h | ⟨e, he, hk⟩)
    · simp [HistoryMap.keys] at h
    · obtain ⟨l, hl1, hl2⟩ := List.mem_map.1 he
      obtain ⟨c, hc, rfl⟩ := List.mem_map.1 hl1
      obtain ⟨v, hv⟩ := entry_line3 p c
      rw [hv] at hl2
      refine ⟨c, hc, ?_⟩
      rw [← hk, ← Option.some.inj hl2]
  · rintro ⟨c, hc, hk⟩
    right
    obtain ⟨v, hv⟩ := entry_line3 p c
    exact ⟨(c.marker, v), List.mem_map.2 ⟨c.line3, List.mem_map_of_mem _ hc, hv⟩, hk⟩

/-- The global identifiers the origin reader gets from the listing of a repository are
made of plain bytes. -/
theorem parse_line2_plain (p : GoString) (repo : List GitCommit) :
    ∀ e ∈ GetCommits.parse p (joinLines (repo.map GitCommit.line2)),
      ∀ c ∈ e.2.GlobalID, isPlain c = true := by
  have hl : ∀ l ∈ repo.map GitCommit.line2, LF ∉ l := by
    intro l hl
    obtain ⟨c, _, rfl⟩ := List.mem_map.1 hl
    exact line2_not_mem c
  intro e he
  rw [GetCommits_parse_joinLines p _ hl] at he
  rcases foldl_apply_mem _ _ e he with h | h
  · simp at h
  · obtain ⟨l, hl1, hl2⟩ := List.mem_map.1 h
    obtain ⟨c, _, rfl⟩ := List.mem_map.1 hl1
    obtain ⟨v, hv, hg⟩ := entry_line2 (getHashFromString p) c
    rw [hv] at hl2
    rw [← Option.some.inj hl2]
    simp only [hg]
    intro x hx
    rcases List.mem_append.1 hx with hx1 | hx1
    · rcases List.mem_append.1 hx1 with hx2 | hx2
      · rw [getHashFromString_eq] at hx2
        exact isPlain_of_isDigit x ((FormatUint_spec _).2.1 x hx2)
      · have hd : x = DASH := by
          have : bytes "-" = [DASH] := by decide
          rw [this] at hx2
          exact List.mem_singleton.1 hx2
        rw [hd]; decide
    · exact hex40_plain _ x hx1

theorem Git.statNotExist_false (g : Git) (w : World) (p : GoString) :
    (Git.sys g).statNotExist w p = false ↔ p ≠ [] ∧ w.pathExists p = true := by
  simp only [Git.sys, Bool.or_eq_false_iff, decide_eq_false_iff_not, Bool.not_eq_false']

theorem Git.bash_log_world (g : Git) (w : World) (p : GoString) :
    ((Git.sys g).bash w (.logHashTime p)).2 = w
      ∧ ((Git.sys g).bash w (.logHashTimeSubject p)).2 = w := ⟨rfl, rfl⟩

theorem Git.getCommitsFakeRepo_world (g : Git) (s : St World) (p : GoString) :
    (getCommitsFakeRepo (Git.sys g) p s).2.world = s.world := by
  rcases getCommitsFakeRepo_state (Git.sys g) p s with ⟨_, h, _⟩ | ⟨_, h⟩
  · rw [h]
  · rw [h]; rfl

theorem Git.GetCommits_world (g : Git) (w : World) (tr : List Command) (p : GoString) :
    (GetCommits (Git.sys g) p ⟨w, tr⟩).2.world = w := by
  rcases GetCommits_state (Git.sys g) p ⟨w, tr⟩ with ⟨_, h, _⟩ | ⟨_, h⟩
  · rw [h]
  · rw [h]; rfl

/-- A reader whose listing failed returns the empty map or an error. -/
theorem getCommitsFakeRepo_of_failure {σ : Type} (sys : Sys σ) (p : GoString) (s s1 : St σ)
    (ex : CommitsHistory) (e : GoString)
    (hb : (sys.bash s.world (.logHashTimeSubject p)).1.2 = some e)
    (h : getCommitsFakeRepo sys p s = (.ok ex, s1)) : ex = ⟨[]⟩ := by
  unfold getCommitsFakeRepo at h
  split at h
  · cases h
  · simp only [runCommand, hb] at h
    split at h
    · cases h; rfl
    · cases h

theorem GetCommits_of_failure {σ : Type} (sys : Sys σ) (p : GoString) (s s1 : St σ)
    (ex : CommitsHistory) (e : GoString)
    (hb : (sys.bash s.world (.logHashTime p)).1.2 = some e)
    (h : GetCommits sys p s = (.ok ex, s1)) : ex = ⟨[]⟩ := by
  unfold GetCommits at h
  split at h
  · cases h
  · simp only [runCommand, hb] at h
    split at h
    · cases h; rfl
    · cases h

/-- What the listing of the model is, by the repository reached. -/
theorem Git.log_cases (fmt : GitCommit → GoString) (w : World) (cmd : Command)
    (p : GoString) :
    (∃ e, (Git.log fmt w cmd p).2 = some e ∧ w.commitsAt p = [])
      ∨ (w.commitsAt p ≠ [] ∧ Git.log fmt w cmd p
          = (joinLines ((w.commitsAt p).map fmt), none)) := by
  unfold Git.log World.commitsAt
  cases w.repoAt p with
  | none => exact Or.inl ⟨_, rfl, rfl⟩
  | some id =>
    simp only []
    cases w.commits id with
    | nil => exact Or.inl ⟨_, rfl, rfl⟩
    | cons c cs => exact Or.inr ⟨by simp, rfl⟩

/-- What the destination reader returns on the model, when it returns a map: its keys
are the markers of the commits found at the path. -/
theorem Git.getCommitsFakeRepo_keys (g : Git) (w : World) (tr : List Command)
    (p : GoString) (ex : CommitsHistory) (s1 : St World)
    (h : getCommitsFakeRepo (Git.sys g) p ⟨w, tr⟩ = (.ok ex, s1)) :
    s1 = ⟨w, tr ++ [.logHashTimeSubject p]⟩
      ∧ ∀ k, k ∈ ex.History.keys ↔ ∃ c ∈ w.commitsAt p, c.marker = k := by
  obtain ⟨hst, hs1⟩ := getCommitsFakeRepo_ok_state (Git.sys g) p ⟨w, tr⟩ s1 ex h
  refine ⟨hs1, ?_⟩
  have hb : ((Git.sys g).bash w (.logHashTimeSubject p)).1
      = Git.log GitCommit.line3 w (.logHashTimeSubject p) p := rfl
  rcases Git.log_cases GitCommit.line3 w (.logHashTimeSubject p) p with ⟨e, he, hc⟩ | ⟨_, hl⟩
  · have := getCommitsFakeRepo_of_failure (Git.sys g) p ⟨w, tr⟩ s1 ex e (by rw [hb]; exact he) h
    rw [this, hc]
    intro k
    simp [HistoryMap.keys]
  · have h2 := getCommitsFakeRepo_of_output (Git.sys g) p ⟨w, tr⟩ _ hst (by rw [hb]; exact hl)
    rw [h] at h2
    have h3 : ex = ⟨getCommitsFakeRepo.parse p (joinLines ((w.commitsAt p).map GitCommit.line3))⟩ := by
      have := (Prod.ext_iff.1 h2).1
      simpa using this
    rw [h3]
    exact fun k => parse_line3_keys p _ k

/-- On the model the destination reader returns a map at a path that exists and
reaches a repository. -/
theorem Git.getCommitsFakeRepo_ok (g : Git) (w : World) (tr : List Command)
    (p : GoString) (id : Nat) (hp : p ≠ []) (he : w.pathExists p = true)
    (hr : w.repoAt p = some id) :
    ∃ ex, getCommitsFakeRepo (Git.sys g) p ⟨w, tr⟩
      = (.ok ex, ⟨w, tr ++ [.logHashTimeSubject p]⟩) := by
  have hst : (Git.sys g).statNotExist w p = false :=
    (Git.statNotExist_false g w p).2 ⟨hp, he⟩
  cases hc : w.commits id with
  | nil =>
    refine ⟨⟨[]⟩, ?_⟩
    have hb : (Git.sys g).bash w (.logHashTimeSubject p)
        = ((bytes "fatal: your current branch 'master' does not have any commits yet\n",
            some (bytes "exit status 128")), w) := by
      simp only [Git.sys, Git.bash, Git.log, hr, hc]
    simp only [getCommitsFakeRepo, hst, Bool.false_eq_true, if_false, runCommand, hb]
    rw [if_pos (by decide)]
  | cons c repo =>
    have hb : (Git.sys g).bash w (.logHashTimeSubject p)
        = ((joinLines ((c :: repo).map GitCommit.line3), none), w) := by
      simp only [Git.sys, Git.bash, Git.log, hr, hc]
    refine ⟨⟨getCommitsFakeRepo.parse p (joinLines ((c :: repo).map GitCommit.line3))⟩, ?_⟩
    rw [getCommitsFakeRepo_of_output (Git.sys g) p ⟨w, tr⟩ _ hst (by rw [hb]), hb]

/-- On the model, what a reader returns depends on the machine alone, not on the tool
or on the commands run before. -/
theorem Git.getCommitsFakeRepo_congr (g g1 : Git) (w : World) (tr tr1 : List Command)
    (p : GoString) :
    (getCommitsFakeRepo (Git.sys g) p ⟨w, tr⟩).1
      = (getCommitsFakeRepo (Git.sys g1) p ⟨w, tr1⟩).1 := by
  have hb : ((Git.sys g).bash w (.logHashTimeSubject p)).1
      = ((Git.sys g1).bash w (.logHashTimeSubject p)).1 := rfl
  have hs : (Git.sys g).statNotExist w p = (Git.sys g1).statNotExist w p := rfl
  cases hst : (Git.sys g1).statNotExist w p with
  | true =>
    rw [hst] at hs
    simp only [getCommitsFakeRepo, hs, hst, if_true]
  | false =>
    rw [hst] at hs
    simp only [getCommitsFakeRepo, hs, hst, Bool.false_eq_true, if_false, runCommand, hb]
    cases ((Git.sys g1).bash w (.logHashTimeSubject p)).1.2 with
    | some err => simp only []; split <;> rfl
    | none => simp only []; split <;> rfl

/-- On the model, what `GetCommits` returns depends only on whether the path exists, on
the repository it reaches and its commits, and on the diagnostic of the listing. -/
theorem Git.GetCommits_congr (g g1 : Git) (w w1 : World) (tr tr1 : List Command)
    (p : GoString) (he : w.pathExists = w1.pathExists) (hr : w.repoAt = w1.repoAt)
    (hd : w.diag = w1.diag) (hc : ∀ id, w.repoAt p = some id → w.commits id = w1.commits id) :
    (GetCommits (Git.sys g) p ⟨w, tr⟩).1 = (GetCommits (Git.sys g1) p ⟨w1, tr1⟩).1 := by
  have hb : ((Git.sys g).bash w (.logHashTime p)).1
      = ((Git.sys g1).bash w1 (.logHashTime p)).1 := by
    simp only [Git.sys, Git.bash, Git.log, ← hr, ← hd]
    cases hrp : w.repoAt p with
    | none => rfl
    | some id => simp only [hc id hrp]
  have hs : (Git.sys g).statNotExist w p = (Git.sys g1).statNotExist w1 p := by
    simp only [Git.sys, he]
  cases hst : (Git.sys g1).statNotExist w1 p with
  | true =>
    rw [hst] at hs
    simp only [GetCommits, hs, hst, if_true]
  | false =>
    rw [hst] at hs
    simp only [GetCommits, hs, hst, Bool.false_eq_true, if_false, runCommand, hb]
    cases ((Git.sys g1).bash w1 (.logHashTime p)).1.2 with
    | some err => simp only []; split <;> rfl
    | none => simp only []; split <;> rfl

/-- On the model, the global identifiers `GetCommits` returns are made of plain
bytes. -/
theorem Git.GetCommits_plain (g : Git) (w : World) (tr : List Command) (p : GoString)
    (h : CommitsHistory) (hr : (GetCommits (Git.sys g) p ⟨w, tr⟩).1 = .ok h) :
    ∀ e ∈ h.History, ∀ c ∈ e.2.GlobalID, isPlain c = true := by
  have hfull : GetCommits (Git.sys g) p ⟨w, tr⟩
      = (.ok h, (GetCommits (Git.sys g) p ⟨w, tr⟩).2) := Prod.ext hr rfl
  obtain ⟨hst, _⟩ := GetCommits_ok_state (Git.sys g) p ⟨w, tr⟩ _ h hfull
  have hb : ((Git.sys g).bash w (.logHashTime p)).1
      = Git.log GitCommit.line2 w (.logHashTime p) p := rfl
  rcases Git.log_cases GitCommit.line2 w (.logHashTime p) p with ⟨e, he, _⟩ | ⟨_, hl⟩
  · have := GetCommits_of_failure (Git.sys g) p ⟨w, tr⟩ _ h e (by rw [hb]; exact he) hfull
    rw [this]
    intro e he; simp at he
  · have h2 := GetCommits_of_output (Git.sys g) p ⟨w, tr⟩ _ hst (by rw [hb]; exact hl)
    rw [hfull] at h2
    have h3 : h = ⟨GetCommits.parse p (joinLines ((w.commitsAt p).map GitCommit.line2))⟩ := by
      have := (Prod.ext_iff.1 h2).1
      simpa using this
    rw [h3]
    exact parse_line2_plain p _

theorem World.extend_nil (w : World) (id : Nat) : w.extend id [] = w := by
  cases w with
  | mk e r c d =>
    simp only [World.extend, World.mk.injEq, true_and, and_true]
    funext i
    split <;> rfl

theorem World.extendAt_nil (w : World) (p : GoString) : w.extendAt p [] = w := by
  unfold World.extendAt
  cases w.repoAt p with
  | none => rfl
  | some id => exact World.extend_nil w id

theorem World.repoAt_extendAt (w : World) (p : GoString) (new : List GitCommit) :
    (w.extendAt p new).repoAt = w.repoAt
      ∧ (w.extendAt p new).pathExists = w.pathExists
      ∧ (w.extendAt p new).diag = w.diag := by
  unfold World.extendAt
  cases w.repoAt p with
  | none => exact ⟨rfl, rfl, rfl⟩
  | some id => exact ⟨rfl, rfl, rfl⟩

theorem World.commits_extendAt (w : World) (p : GoString) (new : List GitCommit)
    (i : Nat) :
    (w.extendAt p new).commits i
      = if w.repoAt p = some i then new ++ w.commits i else w.commits i := by
  unfold World.extendAt
  cases hr : w.repoAt p with
  | none => simp
  | some id =>
    simp only [World.extend, Option.some.injEq]
    by_cases h : i = id
    · simp [h]
    · have h1 : ¬ id = i := fun e => h e.symm
      simp [h, h1]

theorem World.extendAt_extendAt (w : World) (p : GoString) (a b : List GitCommit) :
    (w.extendAt p a).extendAt p b = w.extendAt p (b ++ a) := by
  unfold World.extendAt
  cases hr : w.repoAt p with
  | none => simp only [hr]
  | some id =>
    simp only [World.extend, World.mk.injEq, true_and, and_true, hr]
    funext i
    by_cases h : i = id
    · simp [h]
    · simp [h]

theorem World.commitsAt_extendAt (w : World) (p : GoString) (new : List GitCommit)
    (h : new ≠ [] → (w.repoAt p).isSome = true) :
    (w.extendAt p new).commitsAt p = new ++ w.commitsAt p := by
  unfold World.commitsAt
  rw [(World.repoAt_extendAt w p new).1]
  cases hr : w.repoAt p with
  | none =>
    by_cases hn : new = []
    · rw [hn]; rfl
    · have := h hn
      rw [hr] at this
      cases this
  | some id =>
    simp only [World.commits_extendAt, hr, if_true]

/-- On the model, a commit command adds at most one commit, with the message it was
given, and exactly one when it succeeds, to the repository it reaches. -/
theorem Git.bash_commit (g : Git) (w : World) (p k d : GoString) :
    ∃ new : List GitCommit,
      ((Git.sys g).bash w (.commitAllowEmpty p k d)).2 = w.extendAt p new
        ∧ (new = [] ∨ (w.repoAt p).isSome = true ∧ ∃ h t, new = [⟨h, t, k, g.subjectFor k⟩])
        ∧ (((Git.sys g).bash w (.commitAllowEmpty p k d)).1.2 = none →
            ∃ h t, new = [⟨h, t, k, g.subjectFor k⟩]) := by
  cases hw : w.repoAt p with
  | none =>
    refine ⟨[], ?_, Or.inl rfl, ?_⟩
    · simp only [Git.sys, Git.bash, hw, World.extendAt_nil]
    · simp only [Git.sys, Git.bash, hw]
      intro h; cases h
  | some id =>
    cases hc : g.commit p (w.commits id) k d with
    | error e =>
      refine ⟨[], ?_, Or.inl rfl, ?_⟩
      · simp only [Git.sys, Git.bash, hw, hc, World.extendAt_nil]
      · simp only [Git.sys, Git.bash, hw, hc]
        intro h; cases h
    | ok r =>
      obtain ⟨h, t, out⟩ := r
      refine ⟨[⟨h, t, k, g.subjectFor k⟩], ?_, Or.inr ⟨rfl, h, t, rfl⟩, fun _ => ⟨h, t, rfl⟩⟩
      simp only [Git.sys, Git.bash, hw, hc, World.extendAt]

/-- On the model, a creation adds at most one commit, with the global identifier as its
message, and exactly one when it returns no error. -/
theorem Git.createCommit_world (g : Git) (p : GoString) (t : Time) (k : GoString)
    (s s1 : St World) (r : Except GoString GoString)
    (h : createCommitWithTimestampInRepo (Git.sys g) p t k s = (r, s1)) :
    ∃ new : List GitCommit, s1.world = s.world.extendAt p new
      ∧ (new = [] ∨ (s.world.repoAt p).isSome = true
          ∧ ∃ h t, new = [⟨h, t, k, g.subjectFor k⟩])
      ∧ (∀ c, r = .ok c → ∃ h t, new = [⟨h, t, k, g.subjectFor k⟩]) := by
  obtain ⟨new, h1, h2, h3⟩ := Git.bash_commit g s.world p k (t.Format (Git.sys g).loc)
  cases r with
  | ok c =>
    obtain ⟨_, hs1, hnone⟩ := createCommit_ok (Git.sys g) p t k s s1 c h
    refine ⟨new, ?_, h2, fun _ _ => h3 hnone⟩
    rw [hs1]; exact h1
  | error e =>
    rcases createCommit_error (Git.sys g) p t k s s1 e h with hs1 | hs1
    · refine ⟨[], ?_, Or.inl rfl, fun c hc => by cases hc⟩
      rw [hs1, World.extendAt_nil]
    · refine ⟨new, ?_, h2, fun c hc => by cases hc⟩
      rw [hs1]; exact h1

/-- A loop that returns an error ran the creations of the missing entries before the
failing one, which all succeeded, then the failing one, and nothing after it. -/
theorem loop_error_split {σ : Type} (sys : Sys σ) (dest : GoString) (ex : CommitsHistory) :
    ∀ (l : HistoryMap) (s s2 : St σ) (err : GoString),
      CreateCommitsInRepo.loop sys dest ex l s = (.error err, s2) →
      ∃ (done : HistoryMap) (r : GoString × History) (rest : HistoryMap) (sk : St σ),
        missingEntries ex l = done ++ r :: rest
          ∧ CreateCommitsInRepo.loop sys dest ex done s = (.ok (), sk)
          ∧ createCommitWithTimestampInRepo sys dest r.2.Timestamp r.2.GlobalID sk
              = (.error err, s2) := by
  intro l
  induction l with
  | nil => intro s s2 err h; cases h
  | cons e l ih =>
    intro s s2 err h
    obtain ⟨k, v⟩ := e
    by_cases hm : (ex.History.get? v.GlobalID).isNone = true
    · have e1 : missingEntries ex ((k, v) :: l) = (k, v) :: missingEntries ex l := by
        simp [missingEntries, hm]
      rw [e1]
      simp only [CreateCommitsInRepo.loop, hm, if_true] at h
      cases hc : createCommitWithTimestampInRepo sys dest v.Timestamp v.GlobalID s with
      | mk r s1 =>
        rw [hc] at h
        cases r with
        | error e0 =>
          simp only at h
          cases h
          exact ⟨[], (k, v), missingEntries ex l, s, rfl, rfl, hc⟩
        | ok c =>
          simp only at h
          obtain ⟨done, r, rest, sk, h1, h2, h3⟩ := ih s1 s2 err h
          refine ⟨(k, v) :: done, r, rest, sk, by rw [h1]; rfl, ?_, h3⟩
          simp only [CreateCommitsInRepo.loop, hm, if_true, hc]
          exact h2
    · have e1 : missingEntries ex ((k, v) :: l) = missingEntries ex l := by
        simp [missingEntries, hm]
      rw [e1]
      simp only [CreateCommitsInRepo.loop, hm, if_false] at h
      obtain ⟨done, r, rest, sk, h1, h2, h3⟩ := ih s s2 err h
      exact ⟨done, r, rest, sk, h1, by rw [loop_missing] at h2 ⊢; exact h2, h3⟩

/-- On the model, a loop that returns no error has added one commit per missing entry,
in order, each with the global identifier of its entry as message. -/
theorem Git.loop_ok_world (g : Git) (dest : GoString) (ex : CommitsHistory) :
    ∀ (l : HistoryMap) (s s2 : St World),
      CreateCommitsInRepo.loop (Git.sys g) dest ex l s = (.ok (), s2) →
      ∃ new : List GitCommit, s2.world = s.world.extendAt dest new
        ∧ new.reverse.map (fun c => c.message)
            = (missingEntries ex l).map (fun e => e.2.GlobalID)
        ∧ (∀ c ∈ new, c.subject = g.subjectFor c.message)
        ∧ (new ≠ [] → (s.world.repoAt dest).isSome = true) := by
  intro l
  induction l with
  | nil =>
    intro s s2 h
    cases h
    exact ⟨[], (World.extendAt_nil _ _).symm, rfl, by simp, by simp⟩
  | cons e l ih =>
    intro s s2 h
    obtain ⟨k, v⟩ := e
    by_cases hm : (ex.History.get? v.GlobalID).isNone = true
    · have e1 : missingEntries ex ((k, v) :: l) = (k, v) :: missingEntries ex l := by
        simp [missingEntries, hm]
      rw [e1]
      simp only [CreateCommitsInRepo.loop, hm, if_true] at h
      cases hc : createCommitWithTimestampInRepo (Git.sys g) dest v.Timestamp v.GlobalID s with
      | mk r s1 =>
        rw [hc] at h
        cases r with
        | error e0 => simp only at h; cases h
        | ok c =>
          simp only at h
          obtain ⟨n1, hw1, hor, hn1⟩ := Git.createCommit_world g dest _ _ s s1 _ hc
          obtain ⟨hh, tt, rfl⟩ := hn1 c rfl
          have hsome : (s.world.repoAt dest).isSome = true := by
            rcases hor with h0 | ⟨h0, _⟩
            · cases h0
            · exact h0
          obtain ⟨n2, hw2, hn2, hs2, _⟩ := ih s1 s2 h
          refine ⟨n2 ++ [⟨hh, tt, v.GlobalID, g.subjectFor v.GlobalID⟩], ?_, ?_, ?_,
            fun _ => hsome⟩
          · rw [hw2, hw1, World.extendAt_extendAt]
          · simp [hn2]
          · intro c1 hc1
            rcases List.mem_append.1 hc1 with h1 | h1
            · exact hs2 c1 h1
            · rw [List.mem_singleton.1 h1]
    · have e1 : missingEntries ex ((k, v) :: l) = missingEntries ex l := by
        simp [missingEntries, hm]
      rw [e1]
      simp only [CreateCommitsInRepo.loop, hm, if_false] at h
      exact ih s s2 h

theorem missingEntries_of_append (ex : CommitsHistory) (l done rest : HistoryMap)
    (h : missingEntries ex l = done ++ rest) : missingEntries ex done = done := by
  unfold missingEntries at h ⊢
  rw [List.filter_eq_self]
  intro e he
  have : e ∈ l.filter fun e => (ex.History.get? e.2.GlobalID).isNone := by
    rw [h]; exact List.mem_append_left _ he
  exact (List.mem_filter.1 this).2

/-- On the model, whatever a loop returns, it has only added commits to the destination,
each with the global identifier of a missing entry as message. -/
theorem Git.loop_world (g : Git) (dest : GoString) (ex : CommitsHistory) :
    ∀ (l : HistoryMap) (s s2 : St World) (r : Except GoString Unit),
      CreateCommitsInRepo.loop (Git.sys g) dest ex l s = (r, s2) →
      ∃ new : List GitCommit, s2.world = s.world.extendAt dest new
        ∧ (∀ c ∈ new, c.subject = g.subjectFor c.message
            ∧ ∃ e ∈ l, c.message = e.2.GlobalID)
        ∧ (new ≠ [] → (s.world.repoAt dest).isSome = true) := by
  intro l
  induction l with
  | nil =>
    intro s s2 r h
    cases h
    exact ⟨[], (World.extendAt_nil _ _).symm, by simp, by simp⟩
  | cons e l ih =>
    intro s s2 r h
    obtain ⟨k, v⟩ := e
    by_cases hm : (ex.History.get? v.GlobalID).isNone = true
    · simp only [CreateCommitsInRepo.loop, hm, if_true] at h
      cases hc : createCommitWithTimestampInRepo (Git.sys g) dest v.Timestamp v.GlobalID s with
      | mk r1 s1 =>
        rw [hc] at h
        obtain ⟨n1, hw1, hn1, _⟩ := Git.createCommit_world g dest _ _ s s1 _ hc
        have hmem : ∀ c ∈ n1, c.subject = g.subjectFor c.message
            ∧ ∃ e ∈ (k, v) :: l, c.message = e.2.GlobalID := by
          intro c hc1
          rcases hn1 with rfl | ⟨_, hh, tt, rfl⟩
          · simp at hc1
          · rw [List.mem_singleton.1 hc1]
            exact ⟨rfl, (k, v), by simp, rfl⟩
        have hsome : n1 ≠ [] → (s.world.repoAt dest).isSome = true := by
          intro hne
          rcases hn1 with h0 | ⟨h0, _⟩
          · exact absurd h0 hne
          · exact h0
        cases r1 with
        | error e0 =>
          simp only at h
          cases h
          exact ⟨n1, hw1, hmem, hsome⟩
        | ok c =>
          simp only at h
          obtain ⟨n2, hw2, hn2, hs2⟩ := ih s1 s2 r h
          refine ⟨n2 ++ n1, by rw [hw2, hw1, World.extendAt_extendAt], ?_, ?_⟩
          · intro c1 hc1
            rcases List.mem_append.1 hc1 with h1 | h1
            · obtain ⟨hsub, e, he, hce⟩ := hn2 c1 h1
              exact ⟨hsub, e, List.mem_cons_of_mem _ he, hce⟩
            · exact hmem c1 h1
          · intro hne
            by_cases h1 : n1 = []
            · have h2 : n2 ≠ [] := by
                intro h2; apply hne; rw [h1, h2]; rfl
              have := hs2 h2
              rw [hw1, (World.repoAt_extendAt s.world dest n1).1] at this
              exact this
            · exact hsome h1
    · simp only [CreateCommitsInRepo.loop, hm, if_false] at h
      obtain ⟨n2, hw2, hn2, hs2⟩ := ih s s2 r h
      refine ⟨n2, hw2, ?_, hs2⟩
      intro c1 hc1
      obtain ⟨hsub, e, he, hce⟩ := hn2 c1 hc1
      exact ⟨hsub, e, List.mem_cons_of_mem _ he, hce⟩

/-- On the model, `GetCommits` in full. -/
theorem Git.GetCommits_eq (g : Git) (w : World) (tr : List Command) (p : GoString)
    (h : CommitsHistory) (hr : (GetCommits (Git.sys g) p ⟨w, tr⟩).1 = .ok h) :
    GetCommits (Git.sys g) p ⟨w, tr⟩ = (.ok h, ⟨w, tr ++ [.logHashTime p]⟩) := by
  rcases GetCommits_state (Git.sys g) p ⟨w, tr⟩ with ⟨_, _, e, he⟩ | ⟨_, h2⟩
  · rw [hr] at he; cases he
  · exact Prod.ext hr h2

/-- On the model, whatever a migration returns, it has only added commits to the
destination, each with the global identifier of a record of the origin's history as
message. -/
theorem Git.Migrate_world (g : Git) (ord : RangeOrder) (A B : GoString) (w : World)
    (tr : List Command) (r : Except GoString Unit) (s1 : St World)
    (hrun : MigrateToFakeCommitRepo (Git.sys g) ord A B ⟨w, tr⟩ = (r, s1)) :
    ∃ new : List GitCommit, s1.world = w.extendAt B new
      ∧ (∀ c ∈ new, c.subject = g.subjectFor c.message
          ∧ ∃ h e, (GetCommits (Git.sys g) A ⟨w, tr⟩).1 = .ok h
            ∧ e ∈ h.History ∧ c.message = e.2.GlobalID)
      ∧ (new ≠ [] → (w.repoAt B).isSome = true) := by
  have hnil : ∀ (P : GitCommit → Prop) (p : GoString) (s : St World), s.world = w →
      ∃ new : List GitCommit, s.world = w.extendAt p new ∧ (∀ c ∈ new, P c)
        ∧ (new ≠ [] → (w.repoAt p).isSome = true) :=
    fun _ _ s hs => ⟨[], by rw [hs, World.extendAt_nil], by simp, by simp⟩
  cases hg : GetCommits (Git.sys g) A ⟨w, tr⟩ with
  | mk rg sg =>
    have hgw : sg.world = w := by
      have := Git.GetCommits_world g w tr A
      rw [hg] at this; exact this
    cases rg with
    | error e =>
      rw [Migrate_of_GetCommits_error (Git.sys g) ord A B _ _ e hg] at hrun
      cases hrun
      exact hnil _ _ _ hgw
    | ok h =>
      rw [Migrate_of_GetCommits_ok (Git.sys g) ord A B _ _ h hg] at hrun
      by_cases hB : B = []
      · simp only [CreateCommitsInRepo, hB, if_true] at hrun
        cases hrun
        exact hnil _ _ _ hgw
      · cases hf : getCommitsFakeRepo (Git.sys g) B sg with
        | mk rf sf =>
          have hfw : sf.world = w := by
            have := Git.getCommitsFakeRepo_world g sg B
            rw [hf, hgw] at this; exact this
          cases rf with
          | error e =>
            simp only [CreateCommitsInRepo, if_neg hB, hf] at hrun
            cases hrun
            exact hnil _ _ _ hfw
          | ok ex =>
            rw [CreateCommitsInRepo_unfold (Git.sys g) ord B h ex sg sf hB hf] at hrun
            obtain ⟨new, hw, hn, hs⟩ := Git.loop_world g B ex _ sf s1 r hrun
            refine ⟨new, by rw [hw, hfw], ?_, by rw [← hfw]; exact hs⟩
            intro c hc
            obtain ⟨hsub, e, he, hce⟩ := hn c hc
            exact ⟨hsub, h, e, rfl, (ord.perm _).subset he, hce⟩

/-- On the model, a migration that returns no error. -/
theorem Git.Migrate_ok (g : Git) (ord : RangeOrder) (A B : GoString) (w : World)
    (tr : List Command) (s1 : St World)
    (hrun : MigrateToFakeCommitRepo (Git.sys g) ord A B ⟨w, tr⟩ = (.ok (), s1)) :
    ∃ (h ex : CommitsHistory) (new : List GitCommit),
      (GetCommits (Git.sys g) A ⟨w, tr⟩).1 = .ok h
        ∧ B ≠ [] ∧ w.pathExists B = true
        ∧ (getCommitsFakeRepo (Git.sys g) B ⟨w, tr ++ [.logHashTime A]⟩).1 = .ok ex
        ∧ (∀ k, k ∈ ex.History.keys ↔ ∃ c ∈ w.commitsAt B, c.marker = k)
        ∧ s1.world = w.extendAt B new
        ∧ new.reverse.map (fun c => c.message)
            = (missingEntries ex (ord.pick h.History)).map (fun e => e.2.GlobalID)
        ∧ (∀ c ∈ new, c.subject = g.subjectFor c.message)
        ∧ (new ≠ [] → (w.repoAt B).isSome = true) := by
  cases hg : GetCommits (Git.sys g) A ⟨w, tr⟩ with
  | mk rg sg =>
    cases rg with
    | error e =>
      rw [Migrate_of_GetCommits_error (Git.sys g) ord A B _ _ e hg] at hrun
      cases hrun
    | ok h =>
      have hg1 : (GetCommits (Git.sys g) A ⟨w, tr⟩).1 = .ok h := by rw [hg]
      have hsg := Git.GetCommits_eq g w tr A h hg1
      rw [hg] at hsg
      have hsg2 : sg = ⟨w, tr ++ [.logHashTime A]⟩ := (Prod.ext_iff.1 hsg).2
      subst hsg2
      rw [Migrate_of_GetCommits_ok (Git.sys g) ord A B _ _ h hg] at hrun
      have hB := CreateCommitsInRepo_ok_dest (Git.sys g) ord B h _ s1 hrun
      cases hf : getCommitsFakeRepo (Git.sys g) B ⟨w, tr ++ [.logHashTime A]⟩ with
      | mk rf sf =>
        cases rf with
        | error e =>
          simp only [CreateCommitsInRepo, if_neg hB, hf] at hrun
          cases hrun
        | ok ex =>
          obtain ⟨hst, _⟩ := getCommitsFakeRepo_ok_state (Git.sys g) B _ sf ex hf
          obtain ⟨_, hex⟩ := (Git.statNotExist_false g w B).1 hst
          obtain ⟨hsf, hkeys⟩ := Git.getCommitsFakeRepo_keys g w _ B ex sf hf
          rw [CreateCommitsInRepo_unfold (Git.sys g) ord B h ex _ sf hB hf] at hrun
          obtain ⟨new, hnw, hnm, hsub, hsome⟩ := Git.loop_ok_world g B ex _ sf s1 hrun
          have hsfw : sf.world = w := by rw [hsf]
          exact ⟨h, ex, new, rfl, hB, hex, rfl, hkeys, by rw [hnw, hsfw], hnm, hsub,
            by rw [← hsfw]; exact hsome⟩

/-- On the model, the destination reader in full. -/
theorem Git.getCommitsFakeRepo_eq (g : Git) (w : World) (tr : List Command) (p : GoString)
    (ex : CommitsHistory) (hr : (getCommitsFakeRepo (Git.sys g) p ⟨w, tr⟩).1 = .ok ex) :
    getCommitsFakeRepo (Git.sys g) p ⟨w, tr⟩
      = (.ok ex, ⟨w, tr ++ [.logHashTimeSubject p]⟩) := by
  rcases getCommitsFakeRepo_state (Git.sys g) p ⟨w, tr⟩ with ⟨_, _, e, he⟩ | ⟨_, h2⟩
  · rw [hr] at he; cases he
  · exact Prod.ext hr h2

/-- On the model, a destination that was read can be read again after commits were
added to it. -/
theorem Git.getCommitsFakeRepo_after (g g1 : Git) (w : World) (tr tr1 : List Command)
    (p : GoString) (ex : CommitsHistory) (new : List GitCommit)
    (hr : (getCommitsFakeRepo (Git.sys g) p ⟨w, tr⟩).1 = .ok ex) :
    ∃ ex1, getCommitsFakeRepo (Git.sys g1) p ⟨w.extendAt p new, tr1⟩
      = (.ok ex1, ⟨w.extendAt p new, tr1 ++ [.logHashTimeSubject p]⟩) := by
  have hfull := Git.getCommitsFakeRepo_eq g w tr p ex hr
  obtain ⟨hst, _⟩ := getCommitsFakeRepo_ok_state (Git.sys g) p ⟨w, tr⟩ _ ex hfull
  obtain ⟨hp, he⟩ := (Git.statNotExist_false g w p).1 hst
  cases hrp : w.repoAt p with
  | none =>
    have hw : w.extendAt p new = w := by
      simp only [World.extendAt, hrp]
    rw [hw]
    refine ⟨ex, Git.getCommitsFakeRepo_eq g1 w tr1 p ex ?_⟩
    rw [← hr]
    exact Git.getCommitsFakeRepo_congr g1 g w tr1 tr p
  | some id =>
    exact Git.getCommitsFakeRepo_ok g1 (w.extendAt p new) tr1 p id hp
      (by rw [(World.repoAt_extendAt w p new).2.1]; exact he)
      (by rw [(World.repoAt_extendAt w p new).1]; exact hrp)

theorem GetCommits_ok_inv {σ : Type} (sys : Sys σ) (p : GoString) (s : St σ)
    (h : CommitsHistory) (hr : (GetCommits sys p s).1 = .ok h) :
    h.History.keys.Nodup
      ∧ ∀ e ∈ h.History, e.1 = e.2.GlobalID ∧ BAR ∉ e.2.GlobalID ∧ LF ∉ e.2.GlobalID := by
  obtain ⟨out, hout⟩ :=
    GetCommits_ok_parse sys p s (GetCommits sys p s).2 h (Prod.ext hr rfl)
  rw [hout]
  refine ⟨GetCommits_parse_keys_nodup p out, fun e he => ?_⟩
  have i := GetCommits_parse_inv p out e he
  exact ⟨i.1, i.2.2.2.1, i.2.2.2.2⟩

theorem GitCommit.marker_eq_message (g : Git) (c : GitCommit)
    (hs : c.subject = g.subjectFor c.message) (hp : ∀ x ∈ c.message, isPlain x = true) :
    c.marker = c.message := by
  cases c with
  | mk h t m sub =>
    simp only at hs hp
    rw [hs]
    exact marker_of_plain g h t m hp

theorem mem_missingEntries (ex : CommitsHistory) (l : HistoryMap) (e : GoString × History) :
    e ∈ missingEntries ex l ↔ e ∈ l ∧ e.2.GlobalID ∉ ex.History.keys := by
  rw [missingEntries_eq, List.mem_filter]
  simp

theorem countP_eq_of_nodup (l : List GoString) (k : GoString) (hnd : l.Nodup) :
    l.countP (fun x => decide (x = k)) = if k ∈ l then 1 else 0 := by
  induction l with
  | nil => rfl
  | cons a l ih =>
    rw [List.nodup_cons] at hnd
    rw [List.countP_cons, ih hnd.2]
    by_cases h : a = k
    · subst h
      simp [hnd.1]
    · have h1 : ¬ k = a := fun e => h e.symm
      simp [h, h1]

/-- The global identifiers of the missing entries of a history whose entries are stored
under their global identifier: each missing key once. -/
theorem count_missing (ex : CommitsHistory) (ord : RangeOrder) (m : HistoryMap)
    (hnd : m.keys.Nodup) (hinv : ∀ e ∈ m, e.1 = e.2.GlobalID) (k : GoString) :
    ((missingEntries ex (ord.pick m)).map fun e => e.2.GlobalID).countP
        (fun x => decide (x = k))
      = if k ∈ m.keys ∧ k ∉ ex.History.keys then 1 else 0 := by
  have hperm : ((missingEntries ex (ord.pick m)).map fun e => e.2.GlobalID).Perm
      ((missingEntries ex m).map fun e => e.2.GlobalID) :=
    List.Perm.map _ (List.Perm.filter _ (ord.perm m))
  rw [hperm.countP_eq]
  have hmap : (missingEntries ex m).map (fun e => e.2.GlobalID)
      = (missingEntries ex m).map Prod.fst := by
    apply List.map_congr_left
    intro e he
    exact (hinv e ((mem_missingEntries ex m e).1 he).1).symm
  have hnd1 : ((missingEntries ex m).map Prod.fst).Nodup :=
    List.Nodup.sublist (List.Sublist.map _ (List.filter_sublist _)) hnd
  rw [hmap, countP_eq_of_nodup _ k hnd1]
  have hiff : k ∈ (missingEntries ex m).map Prod.fst ↔ k ∈ m.keys ∧ k ∉ ex.History.keys := by
    constructor
    · intro hk
      obtain ⟨e, he, hek⟩ := List.mem_map.1 hk
      obtain ⟨he1, he2⟩ := (mem_missingEntries ex m e).1 he
      refine ⟨List.mem_map.2 ⟨e, he1, hek⟩, ?_⟩
      rw [← hek, hinv e he1]
      exact he2
    · rintro ⟨hk, hkex⟩
      obtain ⟨e, he, hek⟩ := List.mem_map.1 hk
      refine List.mem_map.2 ⟨e, (mem_missingEntries ex m e).2 ⟨he, ?_⟩, hek⟩
      rw [← hinv e he, hek]
      exact hkex
  by_cases hc : k ∈ m.keys ∧ k ∉ ex.History.keys
  · rw [if_pos hc, if_pos (hiff.2 hc)]
  · rw [if_neg hc, if_neg (fun h => hc (hiff.1 h))]

theorem map_filter_keys (m : HistoryMap) (p : GoString → Bool)
    (q : GoString × History → Bool) (hinv : ∀ e ∈ m, e.1 = e.2.GlobalID)
    (hpq : ∀ e ∈ m, q e = p e.1) :
    (m.filter q).map (fun e => e.2.GlobalID) = (m.map Prod.fst).filter p := by
  induction m with
  | nil => rfl
  | cons e m ih =>
    have ih1 := ih (fun x hx => hinv x (List.mem_cons_of_mem _ hx))
      (fun x hx => hpq x (List.mem_cons_of_mem _ hx))
    have h1 := hinv e (by simp)
    have h2 := hpq e (by simp)
    cases hq : q e with
    | true =>
      rw [List.filter_cons_of_pos hq, List.map_cons, List.map_cons,
        List.filter_cons_of_pos (by rw [← h2]; exact hq), ih1, h1]
    | false =>
      rw [List.filter_cons_of_neg (by simp [hq]), List.map_cons,
        List.filter_cons_of_neg (by rw [← h2]; simp [hq]), ih1]

theorem countP_marker_eq (new : List GitCommit) (k : GoString)
    (h : ∀ c ∈ new, c.marker = c.message) :
    new.countP (fun c => decide (c.marker = k))
      = (new.reverse.map fun c => c.message).countP (fun x => decide (x = k)) := by
  rw [List.countP_map, List.countP_reverse]
  apply List.countP_congr
  intro c hc
  simp [h c hc]

/-! ## The path hash (C7) -/

/-- C7: for every string `s`, `getHashFromString s` is the decimal rendering, without
sign, of the 32-bit FNV-1a hash of the bytes of `s` (offset basis 2166136261, per byte
xor then multiply by 16777619 modulo 2^32); it consists of digits only, reads back
(`strconv.ParseInt`) as that value, which lies in `[0, 2^32)`; and it depends on `s`
alone: whatever the listing prints, every record `GetCommits` builds for the path `s`
carries this same `PathHash`. -/
theorem getHashFromString_fnv1a32 (s : GoString) :
    getHashFromString s = decimal (fnv1a32 s)
      ∧ fnv1a32 s < 2 ^ 32
      ∧ (∀ c ∈ getHashFromString s, isDigit c = true)
      ∧ ParseInt (getHashFromString s) = .ok (fnv1a32 s : Int)
      ∧ ∀ out : GoString, ∀ e ∈ GetCommits.parse s out,
          e.2.PathHash = getHashFromString s := by
  have hlt := fnv1a32_lt s
  refine ⟨?_, hlt, ?_, ?_, ?_⟩
  · rw [getHashFromString_eq, FormatUint_eq_decimal]
  · rw [getHashFromString_eq]; exact (FormatUint_spec _).2.1
  · rw [getHashFromString_eq]; exact ParseInt_FormatUint _ (by omega)
  · intro out e he
    exact (GetCommits_parse_inv s out e he).2.2.1

/-- Witness of C7: the path `/tmp/origin` hashes to 3025005542. -/
theorem getHashFromString_fnv1a32_witness :
    (getHashFromString (bytes "/tmp/origin") = decimal (fnv1a32 (bytes "/tmp/origin"))
      ∧ fnv1a32 (bytes "/tmp/origin") < 2 ^ 32
      ∧ (∀ c ∈ getHashFromString (bytes "/tmp/origin"), isDigit c = true)
      ∧ ParseInt (getHashFromString (bytes "/tmp/origin"))
          = .ok (fnv1a32 (bytes "/tmp/origin") : Int)
      ∧ ∀ out : GoString, ∀ e ∈ GetCommits.parse (bytes "/tmp/origin") out,
          e.2.PathHash = getHashFromString (bytes "/tmp/origin"))
    ∧ fnv1a32 (bytes "/tmp/origin") = 3025005542
    ∧ getHashFromString (bytes "/tmp/origin") = bytes "3025005542" :=
  ⟨getHashFromString_fnv1a32 (bytes "/tmp/origin"), by decide, by decide⟩

/-! ## The origin reader (C1, C5, C10) -/

/-- C10: every entry of the map `GetCommits` returns is stored under its record's
`GlobalID`; that `GlobalID` is `PathHash + "-" + CommitID` and contains neither `|` nor
a line feed. Hence looking a record up by its `GlobalID` field is looking it up by its
key, and a listing line `c0|c1|GlobalID` with an integer `c1` gives the destination
reader exactly this `GlobalID` as key. -/
theorem GetCommits_globalID_invariant {σ : Type} (sys : Sys σ) (p : GoString)
    (s s1 : St σ) (h : CommitsHistory) (hr : GetCommits sys p s = (.ok h, s1)) :
    ∀ e ∈ h.History,
      e.1 = e.2.GlobalID
        ∧ e.2.GlobalID = e.2.PathHash ++ bytes "-" ++ e.2.CommitID
        ∧ BAR ∉ e.2.GlobalID ∧ LF ∉ e.2.GlobalID
        ∧ (∀ existing : CommitsHistory,
            existing.History.get? e.2.GlobalID = existing.History.get? e.1)
        ∧ ∀ (dest c0 c1 : GoString) (n : Int), BAR ∉ c0 → ParseInt c1 = .ok n →
            (getCommitsFakeRepo.entry dest (listingLine3 c0 c1 e.2.GlobalID)).map Prod.fst
              = some e.1 := by
  obtain ⟨out, hout⟩ := GetCommits_ok_parse sys p s s1 h hr
  intro e he
  rw [hout] at he
  obtain ⟨h1, h2, _, h4, h5⟩ := GetCommits_parse_inv p out e he
  refine ⟨h1, h2, h4, h5, fun _ => by rw [h1], ?_⟩
  intro dest c0 c1 n hb hp
  rw [getCommitsFakeRepo_entry_listingLine3 dest c0 c1 _ n hb hp,
    firstField_of_not_mem _ h4, h1]
  rfl

/-- Witness of C10: the listing `abc123|1700000000` of `/tmp/origin`. -/
theorem GetCommits_globalID_invariant_witness :
    GetCommits (scripted []) (bytes "/tmp/origin")
        ⟨[(bytes "abc123|1700000000", none)], []⟩
      = (.ok ⟨[(bytes "3025005542-abc123",
            originRecord (bytes "/tmp/origin") (bytes "abc123") 1700000000)]⟩,
          ⟨[], [.logHashTime (bytes "/tmp/origin")]⟩)
    ∧ ∀ e ∈ [(bytes "3025005542-abc123",
          originRecord (bytes "/tmp/origin") (bytes "abc123") 1700000000)],
        e.1 = e.2.GlobalID ∧ BAR ∉ e.2.GlobalID ∧ LF ∉ e.2.GlobalID :=
  ⟨by decide, fun e he =>
    have h := GetCommits_globalID_invariant (scripted []) (bytes "/tmp/origin")
      ⟨[(bytes "abc123|1700000000", none)], []⟩
      ⟨[], [.logHashTime (bytes "/tmp/origin")]⟩
      ⟨[(bytes "3025005542-abc123",
          originRecord (bytes "/tmp/origin") (bytes "abc123") 1700000000)]⟩
      (by decide) e he
    ⟨h.1, h.2.2.1, h.2.2.2.1⟩⟩

/-- C1 (amended): for every path `p` and every listing made only of well-formed lines
`h|t` (`h` without `|` or line feed, `t` accepted by `strconv.ParseInt(t, 10, 64)` with
value `n`), `GetCommits` returns a map with pairwise distinct keys in which every entry
is the record of some line (`CommitID = h`, `PathHash = getHashFromString p`,
`GlobalID = PathHash + "-" + h`, `Timestamp` = `n` seconds after the epoch) stored under
its `GlobalID`; every line that no later line with the same hash follows has its record
in the map; and with pairwise distinct hashes the map has exactly one record per
line. -/
theorem GetCommits_wellformed_listing {σ : Type} (sys : Sys σ) (p : GoString) (s : St σ)
    (ls : List (GoString × GoString × Int))
    (hstat : sys.statNotExist s.world p = false)
    (hrun : (sys.bash s.world (.logHashTime p)).1
      = (joinLines (ls.map fun l => listingLine l.1 l.2.1), none))
    (hwf : ∀ l ∈ ls, BAR ∉ l.1 ∧ LF ∉ l.1 ∧ ParseInt l.2.1 = .ok l.2.2) :
    ∃ m : HistoryMap, (GetCommits sys p s).1 = .ok ⟨m⟩
      ∧ m.keys.Nodup
      ∧ (∀ e ∈ m, ∃ l ∈ ls,
          e = ((originRecord p l.1 l.2.2).GlobalID, originRecord p l.1 l.2.2))
      ∧ (∀ pre l post, ls = pre ++ l :: post → (∀ l1 ∈ post, l1.1 ≠ l.1) →
          m.get? (originRecord p l.1 l.2.2).GlobalID = some (originRecord p l.1 l.2.2))
      ∧ ((ls.map fun l => l.1).Nodup → m.length = ls.length) := by
  have hlf : ∀ line ∈ ls.map (fun l => listingLine l.1 l.2.1), LF ∉ line := by
    intro line hl
    obtain ⟨l, hl1, rfl⟩ := List.mem_map.1 hl
    obtain ⟨_, h2, h3⟩ := hwf l hl1
    simp only [listingLine, List.mem_append, List.mem_cons, not_or]
    exact ⟨h2, by decide, fun hm => (ParseInt_ok_bytes _ _ h3 LF hm).2 rfl⟩
  have hent : (ls.map fun l => listingLine l.1 l.2.1).map
        (GetCommits.entry (getHashFromString p))
      = (ls.map fun l => ((originRecord p l.1 l.2.2).GlobalID,
          originRecord p l.1 l.2.2)).map some := by
    rw [List.map_map, List.map_map]
    apply List.map_congr_left
    intro l hl
    obtain ⟨h1, _, h3⟩ := hwf l hl
    exact GetCommits_entry_listingLine _ l.1 l.2.1 l.2.2 h1 h3
  refine ⟨GetCommits.parse p (joinLines (ls.map fun l => listingLine l.1 l.2.1)), ?_,
    GetCommits_parse_keys_nodup _ _, ?_, ?_, ?_⟩
  · rw [GetCommits_of_output sys p s _ hstat hrun]
  · intro e he
    rw [GetCommits_parse_joinLines p _ hlf, hent] at he
    rcases foldl_apply_mem _ _ e he with h1 | h1
    · simp at h1
    · obtain ⟨e1, he1, he2⟩ := List.mem_map.1 h1
      obtain ⟨l, hl, rfl⟩ := List.mem_map.1 he1
      exact ⟨l, hl, (Option.some.inj he2).symm⟩
  · intro pre l post hsplit hpost
    rw [GetCommits_parse_joinLines p _ hlf, hent, hsplit]
    simp only [List.map_append, List.map_cons]
    apply foldl_apply_get?_last _ _
      ((originRecord p l.1 l.2.2).GlobalID, originRecord p l.1 l.2.2)
    intro e1 he1 hk
    obtain ⟨e2, he2, he3⟩ := List.mem_map.1 he1
    obtain ⟨l1, hl1, rfl⟩ := List.mem_map.1 he2
    rw [← Option.some.inj he3] at hk
    exact hpost l1 hl1 (globalID_injective _ _ _ hk)
  · intro hnd
    rw [GetCommits_parse_joinLines p _ hlf, hent, foldl_apply_length, List.length_map]
    have hinj : Function.Injective fun a : GoString => getHashFromString p ++ bytes "-" ++ a :=
      fun a b hab => globalID_injective _ a b hab
    have e : (ls.map fun l => ((originRecord p l.1 l.2.2).GlobalID,
          originRecord p l.1 l.2.2)).map Prod.fst
        = (ls.map fun l => l.1).map fun a => getHashFromString p ++ bytes "-" ++ a := by
      rw [List.map_map, List.map_map]; rfl
    rw [e]
    exact List.Nodup.map hinj hnd

/-- Witness of C1: path `/tmp/origin`, line `abc123|1700000000`: the map holds the one
record with `GlobalID` `3025005542-abc123`, whose timestamp is 2023-11-14T22:13:20Z. -/
theorem GetCommits_wellformed_listing_witness :
    (∃ m : HistoryMap,
      (GetCommits (scripted []) (bytes "/tmp/origin")
          ⟨[(bytes "abc123|1700000000", none)], []⟩).1 = .ok ⟨m⟩
        ∧ m.keys.Nodup
        ∧ (∀ e ∈ m, ∃ l ∈ [(bytes "abc123", bytes "1700000000", (1700000000 : Int))],
            e = ((originRecord (bytes "/tmp/origin") l.1 l.2.2).GlobalID,
              originRecord (bytes "/tmp/origin") l.1 l.2.2))
        ∧ (∀ pre l post,
            [(bytes "abc123", bytes "1700000000", (1700000000 : Int))] = pre ++ l :: post →
            (∀ l1 ∈ post, l1.1 ≠ l.1) →
            m.get? (originRecord (bytes "/tmp/origin") l.1 l.2.2).GlobalID
              = some (originRecord (bytes "/tmp/origin") l.1 l.2.2))
        ∧ (([(bytes "abc123", bytes "1700000000", (1700000000 : Int))].map
              fun l => l.1).Nodup →
            m.length = [(bytes "abc123", bytes "1700000000", (1700000000 : Int))].length))
    ∧ (GetCommits (scripted []) (bytes "/tmp/origin")
          ⟨[(bytes "abc123|1700000000", none)], []⟩).1
        = .ok ⟨[(bytes "3025005542-abc123",
            { GlobalID := bytes "3025005542-abc123", PathHash := bytes "3025005542",
              CommitID := bytes "abc123", Timestamp := Time.Unix 1700000000 })]⟩
    ∧ (Time.Unix 1700000000).Format UTC = bytes "2023-11-14T22:13:20Z" :=
  ⟨GetCommits_wellformed_listing (scripted []) (bytes "/tmp/origin")
      ⟨[(bytes "abc123|1700000000", none)], []⟩
      [(bytes "abc123", bytes "1700000000", 1700000000)] (by decide) (by decide) (by decide),
    by decide, by decide⟩

/-- Counterexample to C1 as stated: the listing `a|1`, `a|2` is made of well-formed
lines, yet the map holds a single record, with the timestamp of the second line, and no
record with the timestamp of the first; and the line `a|9223372036854775808`, whose
second field is a decimal integer, gives no record at all. -/
theorem GetCommits_wellformed_listing_counterexample :
    (GetCommits (scripted []) (bytes "/tmp/origin") ⟨[(bytes "a|1\na|2", none)], []⟩).1
        = .ok ⟨[(bytes "3025005542-a",
            { GlobalID := bytes "3025005542-a", PathHash := bytes "3025005542",
              CommitID := bytes "a", Timestamp := Time.Unix 2 })]⟩
      ∧ originRecord (bytes "/tmp/origin") (bytes "a") 1
          ≠ { GlobalID := bytes "3025005542-a", PathHash := bytes "3025005542",
              CommitID := bytes "a", Timestamp := Time.Unix 2 }
      ∧ (∀ c ∈ bytes "9223372036854775808", isDigit c = true)
      ∧ (GetCommits (scripted []) (bytes "/tmp/origin")
          ⟨[(bytes "a|9223372036854775808", none)], []⟩).1 = .ok ⟨[]⟩ := by
  decide

theorem GetCommits_entry_key (hash line : GoString) (e : GoString × History)
    (h : GetCommits.entry hash line = some e) : e.1 = hash ++ bytes "-" ++ firstField line := by
  unfold GetCommits.entry at h
  split at h
  · cases h
  · split at h
    · rename_i c0 c1 rest hs
      split at h
      · cases h
      · cases h
        simp only [firstField, hs, List.headD_cons]
    · cases h

/-- C5 (amended): when one line of the listing is malformed (fewer than two `|`-separated fields,
or a second field that is not an integer), `GetCommits` returns no error, and the map it
returns is the map the other lines alone give: the bad line is skipped and leaves no
record, and every other well-formed line `h|t` that no later line with first field `h`
follows has its record in the map. -/
theorem GetCommits_skips_malformed_line {σ : Type} (sys : Sys σ) (p : GoString)
    (s : St σ) (pre post : List GoString) (bad : GoString)
    (hstat : sys.statNotExist s.world p = false)
    (hrun : (sys.bash s.world (.logHashTime p)).1 = (joinLines (pre ++ bad :: post), none))
    (hlines : ∀ l ∈ pre ++ bad :: post, LF ∉ l)
    (hbad : Malformed bad) :
    (GetCommits sys p s).1 = .ok ⟨GetCommits.parse p (joinLines (pre ++ post))⟩
      ∧ GetCommits.parse p (joinLines (pre ++ post))
          = (pre ++ post).foldl (GetCommits.body (getHashFromString p)) []
      ∧ ∀ (a b : List GoString) (h t : GoString) (n : Int),
          pre ++ post = a ++ listingLine h t :: b → BAR ∉ h → ParseInt t = .ok n →
          (∀ l ∈ b, firstField l ≠ h) →
          HistoryMap.get? (GetCommits.parse p (joinLines (pre ++ post)))
              (originRecord p h n).GlobalID = some (originRecord p h n) := by
  have hl2 : ∀ l ∈ pre ++ post, LF ∉ l := by
    intro l hl
    apply hlines l
    rcases List.mem_append.1 hl with h | h
    · exact List.mem_append_left _ h
    · exact List.mem_append_right _ (List.mem_cons_of_mem _ h)
  have hp := GetCommits_parse_joinLines p (pre ++ post) hl2
  refine ⟨?_, ?_, ?_⟩
  · rw [GetCommits_of_output sys p s _ hstat hrun, GetCommits_parse_joinLines p _ hlines, hp]
    simp only [List.map_append, List.map_cons, foldl_apply_append, List.foldl_cons,
      GetCommits_entry_malformed _ bad hbad, HistoryMap.apply]
  · rw [hp, foldl_body_eq]
  · intro a b h t n hsplit hb ht hlater
    rw [hp, hsplit]
    simp only [List.map_append, List.map_cons,
      GetCommits_entry_listingLine (getHashFromString p) h t n hb ht]
    apply foldl_apply_get?_last _ _
      ((originRecord p h n).GlobalID, originRecord p h n)
    intro e1 he1 hk
    obtain ⟨l, hl, he⟩ := List.mem_map.1 he1
    rw [GetCommits_entry_key _ l e1 he] at hk
    exact hlater l hl (globalID_injective _ _ _ hk)

/-- Witness of C5: the listing `abc|1`, `xx|yy`, `def|2` of `/tmp/origin`. -/
theorem GetCommits_skips_malformed_line_witness :
    ((GetCommits (scripted []) (bytes "/tmp/origin")
          ⟨[(bytes "abc|1\nxx|yy\ndef|2", none)], []⟩).1
        = .ok ⟨GetCommits.parse (bytes "/tmp/origin") (joinLines ([bytes "abc|1"] ++ [bytes "def|2"]))⟩
      ∧ GetCommits.parse (bytes "/tmp/origin") (joinLines ([bytes "abc|1"] ++ [bytes "def|2"]))
          = ([bytes "abc|1"] ++ [bytes "def|2"]).foldl
              (GetCommits.body (getHashFromString (bytes "/tmp/origin"))) []
      ∧ ∀ (a b : List GoString) (h t : GoString) (n : Int),
          [bytes "abc|1"] ++ [bytes "def|2"] = a ++ listingLine h t :: b → BAR ∉ h →
          ParseInt t = .ok n → (∀ l ∈ b, firstField l ≠ h) →
          HistoryMap.get?
              (GetCommits.parse (bytes "/tmp/origin")
                (joinLines ([bytes "abc|1"] ++ [bytes "def|2"])))
              (originRecord (bytes "/tmp/origin") h n).GlobalID
            = some (originRecord (bytes "/tmp/origin") h n))
    ∧ GetCommits.parse (bytes "/tmp/origin") (joinLines ([bytes "abc|1"] ++ [bytes "def|2"]))
        = [(bytes "3025005542-def", originRecord (bytes "/tmp/origin") (bytes "def") 2),
           (bytes "3025005542-abc", originRecord (bytes "/tmp/origin") (bytes "abc") 1)] :=
  ⟨GetCommits_skips_malformed_line (scripted []) (bytes "/tmp/origin")
      ⟨[(bytes "abc|1\nxx|yy\ndef|2", none)], []⟩ [bytes "abc|1"] [bytes "def|2"]
      (bytes "xx|yy") (by decide) (by decide) (by decide) (Or.inr ⟨.ErrSyntax, by decide⟩),
    by decide⟩

/-- Counterexample to C5 as stated: in the listing `a|1`, `a|2`, `xx|yy` the third line
is malformed and the first is well-formed, yet the map returned holds a single record,
that of the second line, and not the record of the first. -/
theorem GetCommits_skips_malformed_line_counterexample :
    Malformed (bytes "xx|yy")
      ∧ (GetCommits (scripted []) (bytes "/tmp/origin")
          ⟨[(bytes "a|1\na|2\nxx|yy", none)], []⟩).1
        = .ok ⟨[((originRecord (bytes "/tmp/origin") (bytes "a") 2).GlobalID,
            originRecord (bytes "/tmp/origin") (bytes "a") 2)]⟩
      ∧ originRecord (bytes "/tmp/origin") (bytes "a") 1
          ≠ originRecord (bytes "/tmp/origin") (bytes "a") 2 :=
  ⟨Or.inr ⟨.ErrSyntax, by decide⟩, by decide, by decide⟩

/-! ## The destination reader (C8) -/

/-- C8 (amended): for every commit of the destination listed as a line `hash|ts|m` where
`ts` is an integer and neither `hash` nor the message `m` contains `|` or a line feed,
`getCommitsFakeRepo` returns a map in which `m` itself is a key, and the `GlobalID` of
the record under it: such a message is recovered verbatim. -/
theorem getCommitsFakeRepo_recovers_message {σ : Type} (sys : Sys σ) (dest : GoString)
    (s : St σ) (pre post : List GoString) (hash ts m : GoString) (n : Int)
    (hstat : sys.statNotExist s.world dest = false)
    (hrun : (sys.bash s.world (.logHashTimeSubject dest)).1
      = (joinLines (pre ++ listingLine3 hash ts m :: post), none))
    (hlines : ∀ l ∈ pre ++ post, LF ∉ l)
    (hhash : BAR ∉ hash ∧ LF ∉ hash) (hts : ParseInt ts = .ok n)
    (hm : BAR ∉ m ∧ LF ∉ m) :
    ∃ (h : CommitsHistory) (r : History),
      (getCommitsFakeRepo sys dest s).1 = .ok h ∧ h.History.get? m = some r
        ∧ r.GlobalID = m := by
  have hl : ∀ l ∈ pre ++ listingLine3 hash ts m :: post, LF ∉ l := by
    intro l hl
    rcases List.mem_append.1 hl with h | h
    · exact hlines l (List.mem_append_left _ h)
    · rcases List.mem_cons.1 h with h | h
      · rw [h]
        simp only [listingLine3, List.mem_append, List.mem_cons, not_or]
        exact ⟨hhash.2, by decide,
          fun hx => (ParseInt_ok_bytes _ _ hts LF hx).2 rfl, by decide, hm.2⟩
      · exact hlines l (List.mem_append_right _ h)
  have hk : m ∈ HistoryMap.keys (getCommitsFakeRepo.parse dest
      (joinLines (pre ++ listingLine3 hash ts m :: post))) := by
    rw [getCommitsFakeRepo_parse_joinLines dest _ hl, foldl_apply_mem_keys]
    right
    refine ⟨_, List.mem_map.2 ⟨listingLine3 hash ts m, by simp,
      getCommitsFakeRepo_entry_listingLine3 dest hash ts m n hhash.1 hts⟩, ?_⟩
    exact firstField_of_not_mem m hm.1
  obtain ⟨v, hv, hmem⟩ := HistoryMap.get?_of_mem_keys _ m hk
  refine ⟨⟨_⟩, v, ?_, hv, ?_⟩
  · exact congrArg Prod.fst (getCommitsFakeRepo_of_output sys dest s _ hstat hrun)
  · exact (getCommitsFakeRepo_parse_inv dest _ (m, v) hmem).symm

/-- Witness of C8: the destination listing `aa|5|other`, `bb|1700000000|3025005542-abc123`. -/
theorem getCommitsFakeRepo_recovers_message_witness :
    ∃ (h : CommitsHistory) (r : History),
      (getCommitsFakeRepo (scripted []) (bytes "/tmp/dest")
          ⟨[(bytes "aa|5|other\nbb|1700000000|3025005542-abc123", none)], []⟩).1 = .ok h
        ∧ h.History.get? (bytes "3025005542-abc123") = some r
        ∧ r.GlobalID = bytes "3025005542-abc123" :=
  getCommitsFakeRepo_recovers_message (scripted []) (bytes "/tmp/dest")
    ⟨[(bytes "aa|5|other\nbb|1700000000|3025005542-abc123", none)], []⟩
    [bytes "aa|5|other"] [] (bytes "bb") (bytes "1700000000") (bytes "3025005542-abc123")
    1700000000 (by decide) (by decide) (by decide) (by decide) (by decide) (by decide)

/-- Counterexample to C8 as stated: the commit whose message is `x|y`, listed as the line
`aa|1|x|y`, is read back under the key `x`; the message `x|y` is not a key of the map. -/
theorem getCommitsFakeRepo_recovers_message_counterexample :
    (getCommitsFakeRepo (scripted []) (bytes "/tmp/dest")
        ⟨[(listingLine3 (bytes "aa") (bytes "1") (bytes "x|y"), none)], []⟩).1
      = .ok ⟨[(bytes "x",
          { GlobalID := bytes "x", PathHash := bytes "/tmp/dest", CommitID := bytes "aa",
            Timestamp := Time.Unix 1 })]⟩
    ∧ HistoryMap.get? [(bytes "x",
          { GlobalID := bytes "x", PathHash := bytes "/tmp/dest", CommitID := bytes "aa",
            Timestamp := Time.Unix 1 })] (bytes "x|y") = none := by
  decide

/-! ## The writer (C2) -/

/-- C2: for every history map and every destination whose existing markers are read as
the map `existing`, a `CreateCommitsInRepo` that returns no error (no creation failed)
has run, after the listing, exactly one empty-commit creation for each record whose
`GlobalID` is not a key of `existing` and none for the others: the creations it ran are
a rearrangement of the records with a missing `GlobalID`. Each creation carries the
record's `GlobalID` as its message and the record's `Timestamp` in RFC3339 as its date,
in the command line `cd <dest> && git commit --allow-empty -m "<GlobalID>" --date
"<RFC3339>"`. -/
theorem CreateCommitsInRepo_creates_missing {σ : Type} (sys : Sys σ) (ord : RangeOrder)
    (dest : GoString) (history existing : CommitsHistory) (s s1 s2 : St σ)
    (hread : getCommitsFakeRepo sys dest s = (.ok existing, s1))
    (hok : CreateCommitsInRepo sys ord dest history s = (.ok (), s2)) :
    ∃ created : HistoryMap,
      created.Perm
          (history.History.filter fun e => decide (e.2.GlobalID ∉ existing.History.keys))
        ∧ s1.trace = s.trace ++ [.logHashTimeSubject dest]
        ∧ s2.trace = s1.trace ++ created.map
            (fun e => Command.commitAllowEmpty dest e.2.GlobalID
              (e.2.Timestamp.Format sys.loc))
        ∧ ∀ e ∈ created,
            (Command.commitAllowEmpty dest e.2.GlobalID (e.2.Timestamp.Format sys.loc)).text
              = bytes "cd " ++ dest ++ bytes " && git commit --allow-empty -m \""
                  ++ e.2.GlobalID ++ bytes "\" --date \""
                  ++ e.2.Timestamp.Format sys.loc ++ bytes "\"" := by
  have hdest := CreateCommitsInRepo_ok_dest sys ord dest history s s2 hok
  rw [CreateCommitsInRepo_unfold sys ord dest history existing s s1 hdest hread] at hok
  refine ⟨missingEntries existing (ord.pick history.History), ?_, ?_, ?_, ?_⟩
  · rw [missingEntries_eq]
    exact List.Perm.filter _ (ord.perm _)
  · rw [(getCommitsFakeRepo_ok_state sys dest s s1 existing hread).2]
  · exact loop_ok_trace sys dest existing _ s1 s2 hok
  · intro e _; rfl

/-- Witness of C2: the destination already holds the marker `H-1`; the history holds the
records `H-1` and `H-2`; one creation is run, for `H-2`. -/
theorem CreateCommitsInRepo_creates_missing_witness :
    ∃ created : HistoryMap,
      created.Perm
          ([(bytes "H-1", (⟨bytes "H-1", bytes "H", bytes "1", Time.Unix 5⟩ : History)),
            (bytes "H-2", ⟨bytes "H-2", bytes "H", bytes "2", Time.Unix 1700000000⟩)].filter
            fun e => decide (e.2.GlobalID ∉ HistoryMap.keys
              [(bytes "H-1", ⟨bytes "H-1", bytes "/tmp/dest", bytes "aa", Time.Unix 5⟩)]))
        ∧ [Command.logHashTimeSubject (bytes "/tmp/dest")]
            = [] ++ [Command.logHashTimeSubject (bytes "/tmp/dest")]
        ∧ [Command.logHashTimeSubject (bytes "/tmp/dest"),
            Command.commitAllowEmpty (bytes "/tmp/dest") (bytes "H-2")
              (bytes "2023-11-14T22:13:20Z")]
          = [Command.logHashTimeSubject (bytes "/tmp/dest")] ++ created.map
            (fun e => Command.commitAllowEmpty (bytes "/tmp/dest") e.2.GlobalID
              (e.2.Timestamp.Format UTC))
        ∧ ∀ e ∈ created,
            (Command.commitAllowEmpty (bytes "/tmp/dest") e.2.GlobalID
                (e.2.Timestamp.Format UTC)).text
              = bytes "cd " ++ bytes "/tmp/dest"
                  ++ bytes " && git commit --allow-empty -m \""
                  ++ e.2.GlobalID ++ bytes "\" --date \""
                  ++ e.2.Timestamp.Format UTC ++ bytes "\"" :=
  CreateCommitsInRepo_creates_missing (scripted []) RangeOrder.stored (bytes "/tmp/dest")
    ⟨[(bytes "H-1", ⟨bytes "H-1", bytes "H", bytes "1", Time.Unix 5⟩),
      (bytes "H-2", ⟨bytes "H-2", bytes "H", bytes "2", Time.Unix 1700000000⟩)]⟩
    ⟨[(bytes "H-1", ⟨bytes "H-1", bytes "/tmp/dest", bytes "aa", Time.Unix 5⟩)]⟩
    ⟨[(bytes "aa|5|H-1", none), (bytes "[master 1a2b3c4] H-2\n", none)], []⟩
    ⟨[(bytes "[master 1a2b3c4] H-2\n", none)],
      [Command.logHashTimeSubject (bytes "/tmp/dest")]⟩
    ⟨[], [Command.logHashTimeSubject (bytes "/tmp/dest"),
      Command.commitAllowEmpty (bytes "/tmp/dest") (bytes "H-2")
        (bytes "2023-11-14T22:13:20Z")]⟩
    (by decide) (by decide)

/-! ## An origin without commits (C6) -/

/-- C6 (amended): given an origin with zero commits (the listing command fails with an
error text containing both `fatal: your current branch` and `does not have any commits
yet`, for which it is enough that its diagnostic output contains both, or it succeeds
with empty output), `GetCommits` returns an empty map with no error and
`MigrateToFakeCommitRepo` runs no commit creation and returns what `CreateCommitsInRepo`
returns on the empty history: no error when the destination path is not empty and the
markers of the destination can be read, the error `gitFolder path is empty` when the
destination path is empty, and the error of the destination reader when reading the
markers fails. Any other failure of the listing command is returned as an error, by
`GetCommits` and by `MigrateToFakeCommitRepo`. -/
theorem Migrate_origin_without_commits {σ : Type} (sys : Sys σ) (ord : RangeOrder)
    (A B : GoString) (s : St σ) (hstat : sys.statNotExist s.world A = false) :
    (NoCommitsYet (runCommand sys (.logHashTime A) s).1 →
        (GetCommits sys A s).1 = .ok ⟨[]⟩
          ∧ (∃ l, (MigrateToFakeCommitRepo sys ord A B s).2.trace = s.trace ++ l
              ∧ ∀ c ∈ l, c.isCommit = false)
          ∧ (∀ existing s2, B ≠ [] →
              getCommitsFakeRepo sys B (GetCommits sys A s).2 = (.ok existing, s2) →
              MigrateToFakeCommitRepo sys ord A B s = (.ok (), s2))
          ∧ MigrateToFakeCommitRepo sys ord A B s
              = CreateCommitsInRepo sys ord B ⟨[]⟩ (GetCommits sys A s).2
          ∧ (B = [] → MigrateToFakeCommitRepo sys ord A B s
              = (.error (bytes "gitFolder path is empty"), (GetCommits sys A s).2))
          ∧ ∀ err s2, B ≠ [] →
              getCommitsFakeRepo sys B (GetCommits sys A s).2 = (.error err, s2) →
              MigrateToFakeCommitRepo sys ord A B s = (.error err, s2))
      ∧ (∀ out err, (sys.bash s.world (.logHashTime A)).1 = (out, some err) →
          Contains out (bytes "fatal: your current branch") = true →
          Contains out (bytes "does not have any commits yet") = true →
          NoCommitsYet (runCommand sys (.logHashTime A) s).1)
      ∧ ∀ err, (runCommand sys (.logHashTime A) s).1 = .error err →
          ¬ NoCommitsYet (.error err) →
          (GetCommits sys A s).1 = .error err
            ∧ (MigrateToFakeCommitRepo sys ord A B s).1 = .error err := by
  refine ⟨?_, ?_, ?_⟩
  · intro hempty
    have hg := GetCommits_noCommitsYet sys A s hstat hempty
    have hs1 := runCommand_state sys (.logHashTime A) s
    refine ⟨by rw [hg], ?_, ?_, ?_, ?_, ?_⟩
    · rw [Migrate_of_GetCommits_ok sys ord A B s _ _ hg]
      by_cases hB : B = []
      · refine ⟨[.logHashTime A], ?_, by simp [Command.isCommit]⟩
        simp only [CreateCommitsInRepo, hB, if_true, hs1]
      · cases hf : getCommitsFakeRepo sys B (runCommand sys (.logHashTime A) s).2 with
        | mk r s2 =>
          have hst := getCommitsFakeRepo_state sys B (runCommand sys (.logHashTime A) s).2
          rw [hf] at hst
          have htr : s2.trace = s.trace ++ [.logHashTime A]
              ∨ s2.trace = s.trace ++ [.logHashTime A, .logHashTimeSubject B] := by
            rcases hst with ⟨_, h2, _⟩ | ⟨_, h2⟩
            · left; simp only at h2; rw [h2, hs1]
            · right; simp only at h2; rw [h2, hs1]; simp
          have hfin : (CreateCommitsInRepo sys ord B ⟨[]⟩
                (runCommand sys (.logHashTime A) s).2).2 = s2 := by
            simp only [CreateCommitsInRepo, if_neg hB, hf]
            cases r with
            | error e => rfl
            | ok ex => simp only [RangeOrder.pick_nil, loop_nil]
          rw [hfin]
          rcases htr with h | h
          · exact ⟨_, h, by simp [Command.isCommit]⟩
          · exact ⟨_, h, by simp [Command.isCommit]⟩
    · intro existing s2 hB hread
      rw [hg] at hread
      rw [Migrate_of_GetCommits_ok sys ord A B s _ _ hg]
      simp only [CreateCommitsInRepo, if_neg hB, hread, RangeOrder.pick_nil, loop_nil]
    · rw [Migrate_of_GetCommits_ok sys ord A B s _ _ hg, hg]
    · intro hB
      rw [Migrate_of_GetCommits_ok sys ord A B s _ _ hg, hg]
      simp only [CreateCommitsInRepo, hB, if_true]
    · intro err s2 hB hread
      rw [hg] at hread
      rw [Migrate_of_GetCommits_ok sys ord A B s _ _ hg]
      simp only [CreateCommitsInRepo, if_neg hB, hread]
  · intro out err hb h1 h2
    have e1 : (sys.bash s.world (.logHashTime A)).1.2 = some err := by rw [hb]
    have e2 : (sys.bash s.world (.logHashTime A)).1.1 = out := by rw [hb]
    simp only [runCommand, e1, e2, NoCommitsYet]
    constructor
    · have := Contains_append (bytes "command execution failed: " ++ err ++ bytes ", output: ")
        out [] _ h1
      simpa using this
    · have := Contains_append (bytes "command execution failed: " ++ err ++ bytes ", output: ")
        out [] _ h2
      simpa using this
  · intro err hr hne
    have hg := GetCommits_other_failure sys A s err hstat hr hne
    refine ⟨by rw [hg], ?_⟩
    rw [Migrate_of_GetCommits_error sys ord A B s _ err hg]

/-- Witness of C6: the listing of `/tmp/origin` fails with git's diagnostic for a branch
without commits; the destination `/tmp/dest` holds one commit. -/
theorem Migrate_origin_without_commits_witness :
    ((GetCommits (scripted []) (bytes "/tmp/origin")
          ⟨[(bytes "fatal: your current branch 'master' does not have any commits yet\n",
              some (bytes "exit status 128")), (bytes "aa|5|x", none)], []⟩).1 = .ok ⟨[]⟩
      ∧ (∃ l, (MigrateToFakeCommitRepo (scripted []) RangeOrder.stored (bytes "/tmp/origin")
            (bytes "/tmp/dest")
            ⟨[(bytes "fatal: your current branch 'master' does not have any commits yet\n",
              some (bytes "exit status 128")), (bytes "aa|5|x", none)], []⟩).2.trace = [] ++ l
          ∧ ∀ c ∈ l, c.isCommit = false)
      ∧ (∀ existing s2, bytes "/tmp/dest" ≠ [] →
          getCommitsFakeRepo (scripted []) (bytes "/tmp/dest")
            (GetCommits (scripted []) (bytes "/tmp/origin")
              ⟨[(bytes "fatal: your current branch 'master' does not have any commits yet\n",
                some (bytes "exit status 128")), (bytes "aa|5|x", none)], []⟩).2
            = (.ok existing, s2) →
          MigrateToFakeCommitRepo (scripted []) RangeOrder.stored (bytes "/tmp/origin")
            (bytes "/tmp/dest")
            ⟨[(bytes "fatal: your current branch 'master' does not have any commits yet\n",
              some (bytes "exit status 128")), (bytes "aa|5|x", none)], []⟩ = (.ok (), s2))
      ∧ MigrateToFakeCommitRepo (scripted []) RangeOrder.stored (bytes "/tmp/origin")
          (bytes "/tmp/dest")
          ⟨[(bytes "fatal: your current branch 'master' does not have any commits yet\n",
            some (bytes "exit status 128")), (bytes "aa|5|x", none)], []⟩
        = CreateCommitsInRepo (scripted []) RangeOrder.stored (bytes "/tmp/dest") ⟨[]⟩
            (GetCommits (scripted []) (bytes "/tmp/origin")
              ⟨[(bytes "fatal: your current branch 'master' does not have any commits yet\n",
                some (bytes "exit status 128")), (bytes "aa|5|x", none)], []⟩).2
      ∧ (bytes "/tmp/dest" = [] →
          MigrateToFakeCommitRepo (scripted []) RangeOrder.stored (bytes "/tmp/origin")
            (bytes "/tmp/dest")
            ⟨[(bytes "fatal: your current branch 'master' does not have any commits yet\n",
              some (bytes "exit status 128")), (bytes "aa|5|x", none)], []⟩
          = (.error (bytes "gitFolder path is empty"),
              (GetCommits (scripted []) (bytes "/tmp/origin")
                ⟨[(bytes "fatal: your current branch 'master' does not have any commits yet\n",
                  some (bytes "exit status 128")), (bytes "aa|5|x", none)], []⟩).2))
      ∧ ∀ err s2, bytes "/tmp/dest" ≠ [] →
          getCommitsFakeRepo (scripted []) (bytes "/tmp/dest")
            (GetCommits (scripted []) (bytes "/tmp/origin")
              ⟨[(bytes "fatal: your current branch 'master' does not have any commits yet\n",
                some (bytes "exit status 128")), (bytes "aa|5|x", none)], []⟩).2
            = (.error err, s2) →
          MigrateToFakeCommitRepo (scripted []) RangeOrder.stored (bytes "/tmp/origin")
            (bytes "/tmp/dest")
            ⟨[(bytes "fatal: your current branch 'master' does not have any commits yet\n",
              some (bytes "exit status 128")), (bytes "aa|5|x", none)], []⟩
          = (.error err, s2))
    ∧ MigrateToFakeCommitRepo (scripted []) RangeOrder.stored (bytes "/tmp/origin")
        (bytes "/tmp/dest")
        ⟨[(bytes "fatal: your current branch 'master' does not have any commits yet\n",
          some (bytes "exit status 128")), (bytes "aa|5|x", none)], []⟩
      = (.ok (), ⟨[], [.logHashTime (bytes "/tmp/origin"),
          .logHashTimeSubject (bytes "/tmp/dest")]⟩) :=
  ⟨(Migrate_origin_without_commits (scripted []) RangeOrder.stored (bytes "/tmp/origin")
      (bytes "/tmp/dest")
      ⟨[(bytes "fatal: your current branch 'master' does not have any commits yet\n",
          some (bytes "exit status 128")), (bytes "aa|5|x", none)], []⟩
      (by decide)).1 (by decide),
    by decide⟩

/-- Counterexample to C6 as stated: the origin has zero commits, yet
`MigrateToFakeCommitRepo` returns an error: with the empty destination path, the error
of the guard at the head of `CreateCommitsInRepo`; with a destination whose listing
fails (here: not a repository), that failure. -/
theorem Migrate_origin_without_commits_counterexample :
    NoCommitsYet (runCommand (scripted []) (.logHashTime (bytes "/tmp/origin"))
        ⟨[(bytes "fatal: your current branch 'master' does not have any commits yet\n",
          some (bytes "exit status 128"))], []⟩).1
      ∧ (MigrateToFakeCommitRepo (scripted []) RangeOrder.stored (bytes "/tmp/origin") []
          ⟨[(bytes "fatal: your current branch 'master' does not have any commits yet\n",
            some (bytes "exit status 128"))], []⟩).1
        = .error (bytes "gitFolder path is empty")
      ∧ (MigrateToFakeCommitRepo (scripted []) RangeOrder.stored (bytes "/tmp/origin")
          (bytes "/tmp/dest")
          ⟨[(bytes "fatal: your current branch 'master' does not have any commits yet\n",
            some (bytes "exit status 128")),
            (bytes "fatal: not a git repository (or any of the parent directories): .git\n",
              some (bytes "exit status 128"))], []⟩).1
        = .error (bytes ("command execution failed: exit status 128, output: "
            ++ "fatal: not a git repository (or any of the parent directories): .git\n")) := by
  decide

/-! ## Failure of a creation (C9) -/

/-- C9: when a commit creation fails during `CreateCommitsInRepo` (the markers were read
and the call returns the error `err`), the creations of the missing records before the
failing one all succeeded, the failing creation returned `err`, and nothing is run after
it: no further creation, no rollback. In the model of the tool every commit that existed
before the failure is still there unchanged: the destination holds its old commits below
those created earlier in the run (and the one of the failing creation, if the tool made
it before reporting the failure), every repository still holds its old commits, and no
repository other than the one the destination path reaches changed. The migration that
called `CreateCommitsInRepo` returns the same error in the same state. -/
theorem CreateCommitsInRepo_aborts_on_failure (g : Git) (ord : RangeOrder)
    (dest : GoString) (history existing : CommitsHistory) (w : World) (tr : List Command)
    (s1 s2 : St World) (err : GoString)
    (hread : getCommitsFakeRepo (Git.sys g) dest ⟨w, tr⟩ = (.ok existing, s1))
    (hfail : CreateCommitsInRepo (Git.sys g) ord dest history ⟨w, tr⟩ = (.error err, s2)) :
    ∃ (done : HistoryMap) (r : GoString × History) (rest : HistoryMap) (sk : St World)
        (created extra : List GitCommit),
      missingEntries existing (ord.pick history.History) = done ++ r :: rest
        ∧ sk.trace = tr ++ .logHashTimeSubject dest
            :: done.map (fun e => creationCommand g.loc dest e.2)
        ∧ sk.world = w.extendAt dest created
        ∧ created.reverse.map (fun c => c.message) = done.map (fun e => e.2.GlobalID)
        ∧ createCommitWithTimestampInRepo (Git.sys g) dest r.2.Timestamp r.2.GlobalID sk
            = (.error err, s2)
        ∧ (s2.trace = sk.trace ∨ s2.trace = sk.trace ++ [creationCommand g.loc dest r.2])
        ∧ s2.world = w.extendAt dest (extra ++ created)
        ∧ (extra = [] ∨ ∃ h t, extra = [⟨h, t, r.2.GlobalID, g.subjectFor r.2.GlobalID⟩])
        ∧ s2.world.commitsAt dest = extra ++ created ++ w.commitsAt dest
        ∧ (∀ q, ∃ new, s2.world.commitsAt q = new ++ w.commitsAt q)
        ∧ (∀ id, ∃ new, s2.world.commits id = new ++ w.commits id)
        ∧ (∀ id, w.repoAt dest ≠ some id → s2.world.commits id = w.commits id)
        ∧ s2.world.repoAt = w.repoAt ∧ s2.world.pathExists = w.pathExists
        ∧ ∀ (A : GoString) (s0 : St World),
            GetCommits (Git.sys g) A s0 = (.ok history, ⟨w, tr⟩) →
            MigrateToFakeCommitRepo (Git.sys g) ord A dest s0 = (.error err, s2) := by
  obtain ⟨hst, hs1⟩ := getCommitsFakeRepo_ok_state (Git.sys g) dest ⟨w, tr⟩ s1 existing hread
  have hdest : dest ≠ [] := ((Git.statNotExist_false g w dest).1 hst).1
  have hs1w : s1.world = w := by rw [hs1]; rfl
  have hs1t : s1.trace = tr ++ [.logHashTimeSubject dest] := by rw [hs1]
  have hloop := hfail
  rw [CreateCommitsInRepo_unfold (Git.sys g) ord dest history existing _ s1 hdest hread]
    at hloop
  obtain ⟨done, r, rest, sk, hsplit, hdone, hcreate⟩ :=
    loop_error_split (Git.sys g) dest existing _ s1 s2 err hloop
  have hmd : missingEntries existing done = done :=
    missingEntries_of_append existing _ done (r :: rest) hsplit
  have htrace := loop_ok_trace (Git.sys g) dest existing done s1 sk hdone
  obtain ⟨created, hcw, hcm, _, hcsome⟩ :=
    Git.loop_ok_world g dest existing done s1 sk hdone
  obtain ⟨extra, hew, hex, _⟩ :=
    Git.createCommit_world g dest r.2.Timestamp r.2.GlobalID sk s2 _ hcreate
  rw [hmd] at htrace hcm
  rw [hs1w] at hcw hcsome
  have hw2 : s2.world = w.extendAt dest (extra ++ created) := by
    rw [hew, hcw, World.extendAt_extendAt]
  have hsome : extra ++ created ≠ [] → (w.repoAt dest).isSome = true := by
    intro hne
    by_cases hc : created = []
    · rcases hex with h0 | ⟨h0, _⟩
      · exact absurd (by rw [h0, hc]; rfl) hne
      · rw [hcw, (World.repoAt_extendAt w dest created).1] at h0
        exact h0
    · exact hcsome hc
  have hex1 : extra = [] ∨ ∃ h t, extra = [⟨h, t, r.2.GlobalID, g.subjectFor r.2.GlobalID⟩] := by
    rcases hex with h0 | ⟨_, h0⟩
    · exact Or.inl h0
    · exact Or.inr h0
  have hcommits : ∀ id, s2.world.commits id
      = if w.repoAt dest = some id then (extra ++ created) ++ w.commits id
        else w.commits id := by
    intro id
    rw [hw2, World.commits_extendAt]
  refine ⟨done, r, rest, sk, created, extra, hsplit, ?_, hcw, hcm, hcreate, ?_, hw2, hex1,
    ?_, ?_, ?_, ?_, ?_, ?_, ?_⟩
  · rw [htrace, hs1t]
    simp only [List.append_assoc, List.singleton_append]
    rfl
  · rcases createCommit_error (Git.sys g) dest _ _ sk s2 err hcreate with h | h
    · left; rw [h]
    · right; rw [h]; rfl
  · rw [hw2, World.commitsAt_extendAt w dest _ hsome]
  · intro q
    unfold World.commitsAt
    rw [hw2, (World.repoAt_extendAt w dest _).1]
    cases hq : w.repoAt q with
    | none => exact ⟨[], rfl⟩
    | some id =>
      simp only [World.commits_extendAt]
      split
      · exact ⟨extra ++ created, rfl⟩
      · exact ⟨[], rfl⟩
  · intro id
    rw [hcommits]
    split
    · exact ⟨extra ++ created, rfl⟩
    · exact ⟨[], rfl⟩
  · intro id hid
    rw [hcommits, if_neg hid]
  · rw [hw2]; exact (World.repoAt_extendAt w dest _).1
  · rw [hw2]; exact (World.repoAt_extendAt w dest _).2.1
  · intro A s0 hget
    rw [Migrate_of_GetCommits_ok (Git.sys g) ord A dest s0 _ _ hget, hfail]

/-! ## Running the migration again (C3, C4) -/

/-- C3 (amended): for paths `A` and `B` at which the command lines do not reach the same
repository, when a first run of `MigrateToFakeCommitRepo(A, B)` returns no error, a
second run in succession reads the same history of `A`, returns no error, runs the two
listings and no commit creation, and leaves the machine as the first run left it; and
for every global identifier `k` of `A`'s history, the number of commits of `B` the
destination reader takes for `k` is then one if `B` held none before the first run, and
unchanged otherwise: exactly one if `B` held at most one. -/
theorem Migrate_twice_idempotent (g1 g2 : Git) (ord1 ord2 : RangeOrder) (A B : GoString)
    (w : World) (s1 : St World)
    (hAB : ∀ id, w.repoAt A = some id → w.repoAt B ≠ some id)
    (hrun1 : MigrateToFakeCommitRepo (Git.sys g1) ord1 A B ⟨w, []⟩ = (.ok (), s1)) :
    ∃ h : CommitsHistory,
      (GetCommits (Git.sys g1) A ⟨w, []⟩).1 = .ok h
        ∧ (GetCommits (Git.sys g2) A ⟨s1.world, []⟩).1 = .ok h
        ∧ MigrateToFakeCommitRepo (Git.sys g2) ord2 A B ⟨s1.world, []⟩
            = (.ok (), ⟨s1.world, [.logHashTime A, .logHashTimeSubject B]⟩)
        ∧ ∀ k ∈ h.History.keys,
            markerCount k (s1.world.commitsAt B) = max 1 (markerCount k (w.commitsAt B))
              ∧ (markerCount k (w.commitsAt B) ≤ 1 →
                  markerCount k (s1.world.commitsAt B) = 1) := by
  obtain ⟨h, ex, new, hget, hB, _, hfake, hkeys, hs1w, hnew, hsub, hsome⟩ :=
    Git.Migrate_ok g1 ord1 A B w [] s1 hrun1
  obtain ⟨hnd, hinv⟩ := GetCommits_ok_inv (Git.sys g1) A ⟨w, []⟩ h hget
  have hplain := Git.GetCommits_plain g1 w [] A h hget
  have hnewmem : ∀ c ∈ new, ∃ e ∈ h.History,
      c.message = e.2.GlobalID ∧ e.2.GlobalID ∉ ex.History.keys := by
    intro c hc
    have hm : c.message ∈ new.reverse.map (fun c => c.message) :=
      List.mem_map_of_mem _ (List.mem_reverse.2 hc)
    rw [hnew] at hm
    obtain ⟨e, he, hce⟩ := List.mem_map.1 hm
    obtain ⟨he1, he2⟩ := (mem_missingEntries ex _ e).1 he
    exact ⟨e, (ord1.perm _).subset he1, hce.symm, he2⟩
  have hmark : ∀ c ∈ new, c.marker = c.message := by
    intro c hc
    obtain ⟨e, he, hce, _⟩ := hnewmem c hc
    exact GitCommit.marker_eq_message g1 c (hsub c hc) (by rw [hce]; exact hplain e he)
  have hs1B : s1.world.commitsAt B = new ++ w.commitsAt B := by
    rw [hs1w, World.commitsAt_extendAt w B new hsome]
  obtain ⟨hrep, hpe, hdg⟩ := World.repoAt_extendAt w B new
  have hget2 : (GetCommits (Git.sys g2) A ⟨s1.world, []⟩).1 = .ok h := by
    rw [← hget, hs1w]
    apply Git.GetCommits_congr g2 g1 _ _ _ _ A hpe hrep hdg
    intro id hid
    rw [hrep] at hid
    rw [World.commits_extendAt, if_neg (hAB id hid)]
  have hG2 := Git.GetCommits_eq g2 s1.world [] A h hget2
  obtain ⟨ex2, hex2⟩ : ∃ ex2, getCommitsFakeRepo (Git.sys g2) B
      ⟨s1.world, [] ++ [.logHashTime A]⟩
        = (.ok ex2, ⟨s1.world, ([] ++ [.logHashTime A]) ++ [.logHashTimeSubject B]⟩) := by
    rw [hs1w]
    exact Git.getCommitsFakeRepo_after g1 g2 w _ _ B ex new hfake
  have hkeys2 := (Git.getCommitsFakeRepo_keys g2 s1.world _ B ex2 _ hex2).2
  have hmiss2 : missingEntries ex2 (ord2.pick h.History) = [] := by
    rw [List.eq_nil_iff_forall_not_mem]
    intro e he
    obtain ⟨he1, he2⟩ := (mem_missingEntries ex2 _ e).1 he
    have heH : e ∈ h.History := (ord2.perm _).subset he1
    apply he2
    rw [hkeys2, hs1B]
    by_cases hk : e.2.GlobalID ∈ ex.History.keys
    · obtain ⟨c, hc, hck⟩ := (hkeys _).1 hk
      exact ⟨c, List.mem_append_right _ hc, hck⟩
    · have hm : e.2.GlobalID ∈ new.reverse.map (fun c => c.message) := by
        rw [hnew]
        exact List.mem_map_of_mem _
          ((mem_missingEntries ex _ e).2 ⟨(ord1.perm _).symm.subset heH, hk⟩)
      obtain ⟨c, hc, hcm⟩ := List.mem_map.1 hm
      have hc1 : c ∈ new := List.mem_reverse.1 hc
      exact ⟨c, List.mem_append_left _ hc1, by rw [hmark c hc1]; exact hcm⟩
  refine ⟨h, hget, hget2, ?_, ?_⟩
  · rw [Migrate_of_GetCommits_ok (Git.sys g2) ord2 A B _ _ h hG2,
      CreateCommitsInRepo_unfold (Git.sys g2) ord2 B h ex2 _ _ hB hex2, loop_missing, hmiss2]
    rfl
  · intro k hk
    have hcount : markerCount k (s1.world.commitsAt B)
        = (if k ∈ h.History.keys ∧ k ∉ ex.History.keys then 1 else 0)
          + markerCount k (w.commitsAt B) := by
      simp only [markerCount, hs1B, List.countP_append]
      rw [countP_marker_eq new k hmark, hnew, count_missing ex ord1 h.History hnd
        (fun e he => (hinv e he).1) k]
    have hzero : k ∉ ex.History.keys ↔ markerCount k (w.commitsAt B) = 0 := by
      simp only [markerCount, List.countP_eq_zero, decide_eq_true_eq]
      rw [hkeys]
      constructor
      · intro h1 c hc hck; exact h1 ⟨c, hc, hck⟩
      · rintro h1 ⟨c, hc, hck⟩; exact h1 c hc hck
    by_cases hkex : k ∈ ex.History.keys
    · have hpos : markerCount k (w.commitsAt B) ≠ 0 := fun h0 => (hzero.2 h0) hkex
      rw [hcount, if_neg (fun hh => hh.2 hkex)]
      constructor
      · omega
      · intro hle; omega
    · have h0 := hzero.1 hkex
      rw [hcount, if_pos ⟨hk, hkex⟩, h0]
      exact ⟨rfl, fun _ => rfl⟩

/-- C4 (amended): if a run of `MigrateToFakeCommitRepo(A, B)` stopped (with whatever
result) after creating the commits `new1`, a re-run with the same two paths that returns
no error creates a commit for exactly the global identifiers of `A`'s history, as the
re-run reads it, that are neither the message of a commit of `new1` nor the marker of a
commit `B` held before the first run (the part, before a first `|`, of the subject the
listing shows for it), one commit each, and creates no commit for a global identifier
that is the marker of a commit of the destination. The commits of the first run are
still there, the listing shows every created commit with its message as marker, and when
`A` and `B` do not reach the same repository the history is the one the first run
read. -/
theorem Migrate_resumes (g1 g2 : Git) (ord1 ord2 : RangeOrder) (A B : GoString)
    (w : World) (r1 : Except GoString Unit) (s1 s2 : St World)
    (hrun1 : MigrateToFakeCommitRepo (Git.sys g1) ord1 A B ⟨w, []⟩ = (r1, s1))
    (hrun2 : MigrateToFakeCommitRepo (Git.sys g2) ord2 A B ⟨s1.world, []⟩ = (.ok (), s2)) :
    ∃ (h : CommitsHistory) (new1 new2 : List GitCommit),
      (GetCommits (Git.sys g2) A ⟨s1.world, []⟩).1 = .ok h
        ∧ s1.world.commitsAt B = new1 ++ w.commitsAt B
        ∧ s2.world.commitsAt B = new2 ++ (new1 ++ w.commitsAt B)
        ∧ (new2.map fun c => c.message).Perm
            (h.History.keys.filter fun k =>
              decide (k ∉ new1.map (fun c => c.message)
                ∧ ∀ c ∈ w.commitsAt B, c.marker ≠ k))
        ∧ (∀ c ∈ new2, ∀ c1 ∈ new1 ++ w.commitsAt B, c.message ≠ c1.marker)
        ∧ (∀ c ∈ new1 ++ new2, c.marker = c.message)
        ∧ ((∀ id, w.repoAt A = some id → w.repoAt B ≠ some id) →
            (GetCommits (Git.sys g1) A ⟨w, []⟩).1 = .ok h) := by
  obtain ⟨new1, hs1w, hnew1, hsome1⟩ := Git.Migrate_world g1 ord1 A B w [] r1 s1 hrun1
  obtain ⟨h, ex, new2, hget, hB, _, _, hkeys, hs2w, hnew2, hsub2, hsome2⟩ :=
    Git.Migrate_ok g2 ord2 A B s1.world [] s2 hrun2
  obtain ⟨hnd, hinv⟩ := GetCommits_ok_inv (Git.sys g2) A ⟨s1.world, []⟩ h hget
  have hplain2 := Git.GetCommits_plain g2 s1.world [] A h hget
  have hmark1 : ∀ c ∈ new1, c.marker = c.message := by
    intro c hc
    obtain ⟨hsub, h0, e, hg0, he, hce⟩ := hnew1 c hc
    exact GitCommit.marker_eq_message g1 c hsub
      (by rw [hce]; exact Git.GetCommits_plain g1 w [] A h0 hg0 e he)
  have hmark2 : ∀ c ∈ new2, c.marker = c.message := by
    intro c hc
    have hm : c.message ∈ new2.reverse.map (fun c => c.message) :=
      List.mem_map_of_mem _ (List.mem_reverse.2 hc)
    rw [hnew2] at hm
    obtain ⟨e, he, hce⟩ := List.mem_map.1 hm
    have heH : e ∈ h.History := (ord2.perm _).subset ((mem_missingEntries ex _ e).1 he).1
    exact GitCommit.marker_eq_message g2 c (hsub2 c hc) (by rw [← hce]; exact hplain2 e heH)
  have hs1B : s1.world.commitsAt B = new1 ++ w.commitsAt B := by
    rw [hs1w, World.commitsAt_extendAt w B new1 hsome1]
  have hs2B : s2.world.commitsAt B = new2 ++ (new1 ++ w.commitsAt B) := by
    rw [hs2w, World.commitsAt_extendAt s1.world B new2 hsome2, hs1B]
  rw [hs1B] at hkeys
  have hkeys' : ∀ k, k ∈ ex.History.keys ↔
      ¬ (k ∉ new1.map (fun c => c.message) ∧ ∀ c ∈ w.commitsAt B, c.marker ≠ k) := by
    intro k
    rw [hkeys]
    constructor
    · rintro ⟨c, hc, hck⟩ ⟨h1, h2⟩
      rcases List.mem_append.1 hc with hc1 | hc1
      · exact h1 (List.mem_map.2 ⟨c, hc1, by rw [← hmark1 c hc1]; exact hck⟩)
      · exact h2 c hc1 hck
    · intro hn
      by_contra hne
      apply hn
      constructor
      · intro hm
        obtain ⟨c, hc, hcm⟩ := List.mem_map.1 hm
        exact hne ⟨c, List.mem_append_left _ hc, by rw [hmark1 c hc]; exact hcm⟩
      · intro c hc hck
        exact hne ⟨c, List.mem_append_right _ hc, hck⟩
  have hperm : (new2.map fun c => c.message).Perm
      (h.History.keys.filter fun k =>
        decide (k ∉ new1.map (fun c => c.message) ∧ ∀ c ∈ w.commitsAt B, c.marker ≠ k)) := by
    have e1 : (missingEntries ex h.History).map (fun e => e.2.GlobalID)
        = h.History.keys.filter fun k =>
            decide (k ∉ new1.map (fun c => c.message)
              ∧ ∀ c ∈ w.commitsAt B, c.marker ≠ k) := by
      rw [missingEntries_eq]
      apply map_filter_keys _ _ _ (fun e he => (hinv e he).1)
      intro e he
      rw [(hinv e he).1]
      by_cases hk : e.2.GlobalID ∈ ex.History.keys
      · have := (hkeys' _).1 hk
        rw [decide_eq_false this]
        simp only [hk, not_true_eq_false, decide_False]
      · have : (e.2.GlobalID ∉ new1.map (fun c => c.message)
            ∧ ∀ c ∈ w.commitsAt B, c.marker ≠ e.2.GlobalID) := by
          by_contra hn; exact hk ((hkeys' _).2 hn)
        rw [decide_eq_true this]
        simp only [hk, not_false_eq_true, decide_True]
    rw [← e1]
    refine (List.reverse_perm _).symm.trans ?_
    rw [← List.map_reverse, hnew2]
    exact List.Perm.map _ (List.Perm.filter _ (ord2.perm _))
  refine ⟨h, new1, new2, hget, hs1B, hs2B, hperm, ?_, ?_, ?_⟩
  · intro c hc c1 hc1 heq
    have hm : c.message ∈ new2.map fun c => c.message := List.mem_map_of_mem _ hc
    have hm2 := (List.mem_filter.1 (hperm.subset hm)).2
    have hm3 : c.message ∈ ex.History.keys := (hkeys _).2 ⟨c1, hc1, heq.symm⟩
    exact (hkeys' _).1 hm3 (by simpa using hm2)
  · intro c hc
    rcases List.mem_append.1 hc with h1 | h1
    · exact hmark1 c h1
    · exact hmark2 c h1
  · intro hAB
    obtain ⟨hrep, hpe, hdg⟩ := World.repoAt_extendAt w B new1
    rw [← hget, hs1w]
    apply Git.GetCommits_congr g1 g2 _ _ _ _ A hpe.symm hrep.symm hdg.symm
    intro id hid
    rw [World.commits_extendAt, if_neg (hAB id hid)]

/-- Witness of C9: in `exampleWorld`, with a tool that fails once the destination holds
one commit, the second creation fails. -/
theorem CreateCommitsInRepo_aborts_on_failure_witness :
    (∃ (done : HistoryMap) (r : GoString × History) (rest : HistoryMap) (sk : St World)
        (created extra : List GitCommit),
      missingEntries ⟨[]⟩ (RangeOrder.stored.pick exampleHistory.History)
          = done ++ r :: rest
        ∧ sk.trace = [] ++ .logHashTimeSubject (bytes "/tmp/dest")
            :: done.map (fun e => creationCommand (exampleTool 1).loc (bytes "/tmp/dest") e.2)
        ∧ sk.world = exampleWorld.extendAt (bytes "/tmp/dest") created
        ∧ created.reverse.map (fun c => c.message) = done.map (fun e => e.2.GlobalID)
        ∧ createCommitWithTimestampInRepo (Git.sys (exampleTool 1)) (bytes "/tmp/dest")
            r.2.Timestamp r.2.GlobalID sk
            = (.error (bytes ("command execution failed: exit status 128, output: "
                ++ "error: unable to write the commit\n")), exampleFailure.2)
        ∧ (exampleFailure.2.trace = sk.trace
            ∨ exampleFailure.2.trace
              = sk.trace ++ [creationCommand (exampleTool 1).loc (bytes "/tmp/dest") r.2])
        ∧ exampleFailure.2.world = exampleWorld.extendAt (bytes "/tmp/dest") (extra ++ created)
        ∧ (extra = [] ∨ ∃ h t, extra
            = [⟨h, t, r.2.GlobalID, (exampleTool 1).subjectFor r.2.GlobalID⟩])
        ∧ exampleFailure.2.world.commitsAt (bytes "/tmp/dest")
            = extra ++ created ++ exampleWorld.commitsAt (bytes "/tmp/dest")
        ∧ (∀ q, ∃ new, exampleFailure.2.world.commitsAt q = new ++ exampleWorld.commitsAt q)
        ∧ (∀ id, ∃ new, exampleFailure.2.world.commits id = new ++ exampleWorld.commits id)
        ∧ (∀ id, exampleWorld.repoAt (bytes "/tmp/dest") ≠ some id →
            exampleFailure.2.world.commits id = exampleWorld.commits id)
        ∧ exampleFailure.2.world.repoAt = exampleWorld.repoAt
        ∧ exampleFailure.2.world.pathExists = exampleWorld.pathExists
        ∧ ∀ (A : GoString) (s0 : St World),
            GetCommits (Git.sys (exampleTool 1)) A s0
              = (.ok exampleHistory, ⟨exampleWorld, []⟩) →
            MigrateToFakeCommitRepo (Git.sys (exampleTool 1)) RangeOrder.stored A
                (bytes "/tmp/dest") s0
              = (.error (bytes ("command execution failed: exit status 128, output: "
                  ++ "error: unable to write the commit\n")), exampleFailure.2))
      ∧ exampleFailure.2.world.commitsAt (bytes "/tmp/dest")
          = [⟨1, ⟨1700000000, by decide⟩,
              bytes "3025005542-0000000000000000000000000000000000000001",
              ⟨bytes "3025005542-0000000000000000000000000000000000000001", by decide⟩⟩]
      ∧ exampleFailure.2.world.commitsAt (bytes "/tmp/origin")
          = exampleWorld.commitsAt (bytes "/tmp/origin")
      ∧ exampleFailure.2.trace.map Command.text
          = [bytes "cd /tmp/dest && git log --pretty=format:\"%H|%at|%s\"",
             bytes ("cd /tmp/dest && git commit --allow-empty -m "
               ++ "\"3025005542-0000000000000000000000000000000000000001\" "
               ++ "--date \"2023-11-14T22:13:20Z\""),
             bytes ("cd /tmp/dest && git commit --allow-empty -m "
               ++ "\"3025005542-0000000000000000000000000000000000000002\" "
               ++ "--date \"2023-11-14T22:14:20Z\"")] :=
  ⟨CreateCommitsInRepo_aborts_on_failure (exampleTool 1) RangeOrder.stored
      (bytes "/tmp/dest") exampleHistory ⟨[]⟩ exampleWorld []
      (getCommitsFakeRepo (Git.sys (exampleTool 1)) (bytes "/tmp/dest")
        ⟨exampleWorld, []⟩).2
      exampleFailure.2
      (bytes ("command execution failed: exit status 128, output: "
        ++ "error: unable to write the commit\n"))
      (Prod.ext (by decide) rfl) (Prod.ext (by decide) rfl),
    by decide, by decide, by decide⟩

/-- Witness of C3: in `exampleWorld`, where `/tmp/origin` and `/tmp/dest` reach two
repositories, with a tool that does not fail, the first run creates the two markers and
the second run creates nothing. -/
theorem Migrate_twice_idempotent_witness :
    (∃ h : CommitsHistory,
      (GetCommits (Git.sys (exampleTool 5)) (bytes "/tmp/origin") ⟨exampleWorld, []⟩).1
          = .ok h
        ∧ (GetCommits (Git.sys (exampleTool 5)) (bytes "/tmp/origin")
            ⟨(exampleRun 5 (bytes "/tmp/dest") exampleWorld).2.world, []⟩).1 = .ok h
        ∧ MigrateToFakeCommitRepo (Git.sys (exampleTool 5)) RangeOrder.reversed
            (bytes "/tmp/origin") (bytes "/tmp/dest")
            ⟨(exampleRun 5 (bytes "/tmp/dest") exampleWorld).2.world, []⟩
          = (.ok (), ⟨(exampleRun 5 (bytes "/tmp/dest") exampleWorld).2.world,
              [.logHashTime (bytes "/tmp/origin"), .logHashTimeSubject (bytes "/tmp/dest")]⟩)
        ∧ ∀ k ∈ h.History.keys,
            markerCount k ((exampleRun 5 (bytes "/tmp/dest") exampleWorld).2.world.commitsAt
                (bytes "/tmp/dest"))
              = max 1 (markerCount k (exampleWorld.commitsAt (bytes "/tmp/dest")))
            ∧ (markerCount k (exampleWorld.commitsAt (bytes "/tmp/dest")) ≤ 1 →
                markerCount k ((exampleRun 5 (bytes "/tmp/dest") exampleWorld).2.world.commitsAt
                  (bytes "/tmp/dest")) = 1))
      ∧ (GetCommits (Git.sys (exampleTool 5)) (bytes "/tmp/origin") ⟨exampleWorld, []⟩).1
          = .ok exampleHistory
      ∧ (exampleRun 5 (bytes "/tmp/dest") exampleWorld).2.world.commitsAt (bytes "/tmp/dest")
          = [⟨2, ⟨1700000060, by decide⟩,
              bytes "3025005542-0000000000000000000000000000000000000002",
              ⟨bytes "3025005542-0000000000000000000000000000000000000002", by decide⟩⟩,
            ⟨1, ⟨1700000000, by decide⟩,
              bytes "3025005542-0000000000000000000000000000000000000001",
              ⟨bytes "3025005542-0000000000000000000000000000000000000001", by decide⟩⟩] :=
  ⟨Migrate_twice_idempotent (exampleTool 5) (exampleTool 5) RangeOrder.stored
      RangeOrder.reversed (bytes "/tmp/origin") (bytes "/tmp/dest") exampleWorld
      (exampleRun 5 (bytes "/tmp/dest") exampleWorld).2
      (fun _ h1 h2 => absurd (h1.trans h2.symm) (by decide))
      (Prod.ext (by decide) rfl),
    by decide, by decide⟩

/-- Counterexample to C3 as stated. With the origin `/tmp/origin` and the destination
`/tmp/origin/`, another spelling that reaches the same repository, the first run returns
no error and the second run, which returns no error either, creates two new commits: the
commits of the first run are new commits of the origin. And in `exampleWorldTwice`, where
the destination `/tmp/dest` already holds the marker of the origin's commit twice, both
runs return no error and the destination ends with two commits for that global
identifier, not one. -/
theorem Migrate_twice_idempotent_counterexample :
    bytes "/tmp/origin" ≠ bytes "/tmp/origin/"
      ∧ (exampleRun 10 (bytes "/tmp/origin/") exampleWorld).1 = .ok ()
      ∧ (exampleRun 10 (bytes "/tmp/origin/")
          (exampleRun 10 (bytes "/tmp/origin/") exampleWorld).2.world).1 = .ok ()
      ∧ ((exampleRun 10 (bytes "/tmp/origin/")
          (exampleRun 10 (bytes "/tmp/origin/") exampleWorld).2.world).2.trace.filter
            Command.isCommit).length = 2
      ∧ (exampleRun 10 (bytes "/tmp/dest") exampleWorldTwice).1 = .ok ()
      ∧ (exampleRun 10 (bytes "/tmp/dest")
          (exampleRun 10 (bytes "/tmp/dest") exampleWorldTwice).2.world).1 = .ok ()
      ∧ (GetCommits (Git.sys (exampleTool 10)) (bytes "/tmp/origin")
          ⟨exampleWorldTwice, []⟩).1
        = .ok ⟨[(bytes "3025005542-0000000000000000000000000000000000000001",
            originRecord (bytes "/tmp/origin") (hex40 1) 1700000000)]⟩
      ∧ markerCount (bytes "3025005542-0000000000000000000000000000000000000001")
          ((exampleRun 10 (bytes "/tmp/dest")
            (exampleRun 10 (bytes "/tmp/dest") exampleWorldTwice).2.world).2.world.commitsAt
              (bytes "/tmp/dest")) = 2 := by
  decide

/-- Witness of C4: in `exampleWorld`, a first run with a tool that fails once the
destination holds one commit stops after one creation; the re-run, with a tool that does
not fail, creates the other commit. -/
theorem Migrate_resumes_witness :
    (∃ (h : CommitsHistory) (new1 new2 : List GitCommit),
      (GetCommits (Git.sys (exampleTool 5)) (bytes "/tmp/origin")
          ⟨(exampleRun 1 (bytes "/tmp/dest") exampleWorld).2.world, []⟩).1 = .ok h
        ∧ (exampleRun 1 (bytes "/tmp/dest") exampleWorld).2.world.commitsAt (bytes "/tmp/dest")
            = new1 ++ exampleWorld.commitsAt (bytes "/tmp/dest")
        ∧ (exampleRun 5 (bytes "/tmp/dest")
            (exampleRun 1 (bytes "/tmp/dest") exampleWorld).2.world).2.world.commitsAt
              (bytes "/tmp/dest")
            = new2 ++ (new1 ++ exampleWorld.commitsAt (bytes "/tmp/dest"))
        ∧ (new2.map fun c => c.message).Perm
            (h.History.keys.filter fun k =>
              decide (k ∉ new1.map (fun c => c.message)
                ∧ ∀ c ∈ exampleWorld.commitsAt (bytes "/tmp/dest"), c.marker ≠ k))
        ∧ (∀ c ∈ new2, ∀ c1 ∈ new1 ++ exampleWorld.commitsAt (bytes "/tmp/dest"),
            c.message ≠ c1.marker)
        ∧ (∀ c ∈ new1 ++ new2, c.marker = c.message)
        ∧ ((∀ id, exampleWorld.repoAt (bytes "/tmp/origin") = some id →
              exampleWorld.repoAt (bytes "/tmp/dest") ≠ some id) →
            (GetCommits (Git.sys (exampleTool 1)) (bytes "/tmp/origin")
              ⟨exampleWorld, []⟩).1 = .ok h))
      ∧ (exampleRun 1 (bytes "/tmp/dest") exampleWorld).1
          = .error (bytes ("command execution failed: exit status 128, output: "
              ++ "error: unable to write the commit\n"))
      ∧ (exampleRun 1 (bytes "/tmp/dest") exampleWorld).2.world.commitsAt (bytes "/tmp/dest")
          = [⟨1, ⟨1700000000, by decide⟩,
              bytes "3025005542-0000000000000000000000000000000000000001",
              ⟨bytes "3025005542-0000000000000000000000000000000000000001", by decide⟩⟩]
      ∧ (exampleRun 5 (bytes "/tmp/dest")
          (exampleRun 1 (bytes "/tmp/dest") exampleWorld).2.world).2.world.commitsAt
            (bytes "/tmp/dest")
          = [⟨2, ⟨1700000060, by decide⟩,
              bytes "3025005542-0000000000000000000000000000000000000002",
              ⟨bytes "3025005542-0000000000000000000000000000000000000002", by decide⟩⟩,
            ⟨1, ⟨1700000000, by decide⟩,
              bytes "3025005542-0000000000000000000000000000000000000001",
              ⟨bytes "3025005542-0000000000000000000000000000000000000001", by decide⟩⟩] :=
  ⟨Migrate_resumes (exampleTool 1) (exampleTool 5) RangeOrder.stored RangeOrder.stored
      (bytes "/tmp/origin") (bytes "/tmp/dest") exampleWorld
      (exampleRun 1 (bytes "/tmp/dest") exampleWorld).1
      (exampleRun 1 (bytes "/tmp/dest") exampleWorld).2
      (exampleRun 5 (bytes "/tmp/dest")
        (exampleRun 1 (bytes "/tmp/dest") exampleWorld).2.world).2
      rfl (Prod.ext (by decide) rfl),
    by decide, by decide, by decide⟩

/-- Counterexample to C4 as stated: in `exampleWorldBar` the first run stops at its first
creation, having created nothing; the global identifier of the origin's second commit is
in the origin's history and is the message of no commit of the destination, yet the
re-run, which returns no error, creates a commit for the first global identifier only:
the destination reader takes the commit listed with the subject `...0002|x` for the
marker `...0002`. -/
theorem Migrate_resumes_counterexample :
    (exampleRun 1 (bytes "/tmp/dest") exampleWorldBar).1
        = .error (bytes ("command execution failed: exit status 128, output: "
            ++ "error: unable to write the commit\n"))
      ∧ (exampleRun 1 (bytes "/tmp/dest") exampleWorldBar).2.world.commitsAt (bytes "/tmp/dest")
          = exampleWorldBar.commitsAt (bytes "/tmp/dest")
      ∧ (GetCommits (Git.sys (exampleTool 5)) (bytes "/tmp/origin")
          ⟨(exampleRun 1 (bytes "/tmp/dest") exampleWorldBar).2.world, []⟩).1
        = .ok exampleHistory
      ∧ bytes "3025005542-0000000000000000000000000000000000000002"
          ∈ exampleHistory.History.keys
      ∧ (∀ c ∈ exampleWorldBar.commitsAt (bytes "/tmp/dest"),
          c.message ≠ bytes "3025005542-0000000000000000000000000000000000000002")
      ∧ (exampleRun 5 (bytes "/tmp/dest")
          (exampleRun 1 (bytes "/tmp/dest") exampleWorldBar).2.world).1 = .ok ()
      ∧ (exampleRun 5 (bytes "/tmp/dest")
          (exampleRun 1 (bytes "/tmp/dest") exampleWorldBar).2.world).2.world.commitsAt
            (bytes "/tmp/dest")
          = [⟨2, ⟨1700000000, by decide⟩,
              bytes "3025005542-0000000000000000000000000000000000000001",
              ⟨bytes "3025005542-0000000000000000000000000000000000000001", by decide⟩⟩,
            ⟨9, ⟨1700000060, by decide⟩,
              bytes "3025005542-0000000000000000000000000000000000000002|x",
              ⟨bytes "3025005542-0000000000000000000000000000000000000002|x", by decide⟩⟩] := by
  decide

end GitMigrator
